import Mathlib

/-! # Blob-sidecar filesystem iteration (prysm, `beacon-chain/db/filesystem/iteration.go`)

A shallow embedding of the layered directory iterator, its populators, filters and
path codecs, followed by theorems about them.

Conventions of the embedding
* a Go `string` is the list of its characters (`List Char`); `len` of a string is the
  size of its UTF-8 encoding (`goLen`);
* unsigned 64-bit integers are natural numbers, reduced modulo `2^64` where the code
  can overflow (`ParseUint`);
* a `[32]byte` is a list of 32 natural numbers below 256;
* a Go result `(v, err)` is a pair with an optional error where the code returns both,
  and an `Except` where the value is the zero value whenever `err != nil`;
* a run-time panic (index out of range) is the result `none`;
* the offset of an iterator, a Go `int` that only grows by one per call, is a natural
  number;
* the filesystem is a snapshot: it answers the same way for the whole walk.
-/

namespace Prysm

/-! ## Identifiers and errors -/

/-- Modelled from the spec: the type `blobIdent` is declared outside the files at hand;
the spec gives its fields `epoch`, `root` (32 bytes) and `index`. -/
structure blobIdent where
  root : List Nat
  epoch : Nat
  index : Nat
deriving DecidableEq, Repr

/-- The zero value `blobIdent{}`. -/
def blobIdent.zero : blobIdent := ⟨List.replicate 32 0, 0, 0⟩

/-- The error values that occur in the package. The sentinels `errInvalidDirectoryLayout`,
`errNotBlobSSZ`, `errIndexOutOfBounds` and `errInvalidRootString` are package variables
declared outside the files at hand; `EOF` is `io.EOF`; `ErrSyntax`, `ErrRange` and
`NumError` are those of `strconv`; `wrap` is `errors.Wrap`/`errors.Wrapf` of
`github.com/pkg/errors` (the message is kept as its format string); `fsError` stands for
any error produced by the injected filesystem. -/
inductive Error where
  | EOF
  | errIdentFailure
  | errInvalidDirectoryLayout
  | errNotBlobSSZ
  | errIndexOutOfBounds
  | errInvalidRootString
  | ErrSyntax
  | ErrRange
  | NumError (func : String) (num : List Char) (err : Error)
  | wrap (cause : Error) (message : String)
  | identificationError (err : Error) (path : List Char) (ident : blobIdent)
  | fsError (code : Nat)
deriving DecidableEq, Repr

/-- The constructor `newIdentificationError(path, ident, err)`. -/
def newIdentificationError (path : List Char) (ident : blobIdent) (err : Error) : Error :=
  Error.identificationError err path ident

/-- The method `Unwrap` of the error types that have one. -/
def Error.Unwrap : Error → Option Error
  | .NumError _ _ err => some err
  | .wrap cause _ => some cause
  | .identificationError err _ _ => some err
  | _ => none

/-- Go's `errors.Is(err, target)` for a sentinel `target`: `err == target`, or the method `Is` of
`err` accepts `target` (only `identificationError` has one: `err == errIdentFailure`), or
the same holds further down the `Unwrap` chain. -/
def errorsIs : Error → Error → Bool
  | .NumError f n err, target =>
      decide (Error.NumError f n err = target) || errorsIs err target
  | .wrap cause m, target =>
      decide (Error.wrap cause m = target) || errorsIs cause target
  | .identificationError err p i, target =>
      decide (Error.identificationError err p i = target)
        || decide (target = Error.errIdentFailure) || errorsIs err target
  | e, target => decide (e = target)

/-! ## Strings, paths and numbers (Go standard library) -/

/-- Size of the UTF-8 encoding of a character. -/
def utf8Len (c : Char) : Nat :=
  if c.toNat < 128 then 1 else if c.toNat < 2048 then 2 else if c.toNat < 65536 then 3 else 4

/-- Go's `len(s)` for a string: the number of bytes. -/
def goLen (s : List Char) : Nat := (s.map utf8Len).sum

/-- Go's `strings.HasPrefix(s, prefix)`. -/
def HasPrefix (s pre : List Char) : Bool := s.take pre.length == pre

/-- The loop of `strings.Split(s, sep)` for a one-character separator. -/
def Split (sep : Char) : List Char → List (List Char)
  | [] => [[]]
  | c :: cs =>
    if c = sep then [] :: Split sep cs
    else match Split sep cs with
      | [] => [[c]]
      | h :: t => (c :: h) :: t

/-- Go's `strings.Join(elems, sep)`. -/
def stringsJoin (sep : List Char) : List (List Char) → List Char
  | [] => []
  | [a] => a
  | a :: b :: rest => a ++ sep ++ stringsJoin sep (b :: rest)

/-- Go's `path.Base` (and `filepath.Base` on a slash-separated system): strip the trailing
slashes, keep what follows the last slash; `"."` for the empty path and `"/"` for a path
of slashes only. -/
def Base (path : List Char) : List Char :=
  if path = [] then ['.']
  else
    let stripped := (path.reverse.dropWhile (fun c => c = '/')).reverse
    let last := (stripped.reverse.takeWhile (fun c => c ≠ '/')).reverse
    if last = [] then ['/'] else last

/-- The loop of `filepath.Ext`, run from the end of the path: `acc` is what has been
passed so far. -/
def extLoop : List Char → List Char → List Char
  | [], _ => []
  | c :: rest, acc =>
    if c = '/' then []
    else if c = '.' then c :: acc
    else extLoop rest (c :: acc)

/-- Go's `filepath.Ext`: the suffix beginning at the final dot of the final element. -/
def Ext (path : List Char) : List Char := extLoop path.reverse []

/-- One element of `filepath.Clean`, applied to the elements written so far (`out`, last
element first). -/
def cleanStep (rooted : Bool) (out : List (List Char)) (elem : List Char) : List (List Char) :=
  if elem = [] ∨ elem = ['.'] then out
  else if elem = ['.', '.'] then
    match out with
    | top :: below => if top = ['.', '.'] then elem :: out else below
    | [] => if rooted then out else [elem]
  else elem :: out

/-- Go's `filepath.Clean` on a slash-separated system, element by element. -/
def Clean (path : List Char) : List Char :=
  let rooted := HasPrefix path ['/']
  let out := ((Split '/' path).foldl (cleanStep rooted) []).reverse
  let body := stringsJoin ['/'] out
  if rooted then '/' :: body
  else if body = [] then ['.'] else body

/-- Go's `filepath.Join(dir, name)`: the non-empty elements joined by a slash, cleaned. -/
def filepathJoin (dir name : List Char) : List Char :=
  if dir ≠ [] then Clean (dir ++ '/' :: name)
  else if name ≠ [] then Clean name
  else []

/-- The value of a decimal digit. -/
def digitVal (c : Char) : Nat := c.toNat - '0'.toNat

/-- The loop of `strconv.ParseUint(s, 10, 64)` over the remaining characters, `n` being the
number read so far. -/
def parseUintLoop (s : List Char) : List Char → Nat → Except Error Nat
  | [], n => .ok n
  | c :: cs, n =>
    if ¬ ('0' ≤ c ∧ c ≤ '9') then .error (.NumError "ParseUint" s .ErrSyntax)
    else if n ≥ (2 ^ 64 - 1) / 10 + 1 then .error (.NumError "ParseUint" s .ErrRange)
    else
      let n10 := n * 10
      let n1 := (n10 + digitVal c) % 2 ^ 64
      if n1 < n10 ∨ n1 > 2 ^ 64 - 1 then .error (.NumError "ParseUint" s .ErrRange)
      else parseUintLoop s cs n1

/-- Go's `strconv.ParseUint(s, 10, 64)`. -/
def ParseUint (s : List Char) : Except Error Nat :=
  if s = [] then .error (.NumError "ParseUint" s .ErrSyntax)
  else parseUintLoop s s 0

/-- The digit of `fmt`'s lowercase hexadecimal alphabet for a value below 16. -/
def hexDigit (v : Nat) : Char := "0123456789abcdef".data.getD v '0'

/-- The table `reverseHexTable` of `encoding/hex`: the value of a hexadecimal digit of
either case, `none` for any other character. -/
def unhex (c : Char) : Option Nat :=
  if '0' ≤ c ∧ c ≤ '9' then some (c.toNat - '0'.toNat)
  else if 'a' ≤ c ∧ c ≤ 'f' then some (c.toNat - 'a'.toNat + 10)
  else if 'A' ≤ c ∧ c ≤ 'F' then some (c.toNat - 'A'.toNat + 10)
  else none

/-- The verb `%x` on a byte sequence: two lowercase digits per byte. -/
def hexEncode : List Nat → List Char
  | [] => []
  | b :: bs => hexDigit (b / 16) :: hexDigit (b % 16) :: hexEncode bs

/-- Go's `hex.DecodeString`: pairs of digits to bytes; fails on a character that is no
hexadecimal digit and on an odd number of characters. -/
def hexDecodeString : List Char → Option (List Nat)
  | [] => some []
  | [_] => none
  | p :: q :: rest =>
    match unhex p, unhex q with
    | some a, some b =>
      match hexDecodeString rest with
      | some bs => some ((a * 16 + b) :: bs)
      | none => none
    | _, _ => none

/-- Go's `hexutil.Decode` of go-ethereum: the input must be non-empty and begin with `0x` or
`0X`; the rest is decoded by `hex.DecodeString`. The kind of failure is dropped, as
`stringToRoot` drops it. -/
def hexutilDecode (input : List Char) : Option (List Nat) :=
  match input with
  | c0 :: c1 :: rest =>
    if c0 = '0' ∧ (c1 = 'x' ∨ c1 = 'X') then hexDecodeString rest else none
  | _ => none

/-- Go's `bytesutil.ToBytes32`: the first 32 bytes, padded with zeros. -/
def ToBytes32 (x : List Nat) : List Nat := (x ++ List.replicate 32 0).take 32

/-! ## Path codec (`iteration.go`, lines 194-241 and 270-328) -/

/-- Modelled from the spec: the constant `rootStringLen` is declared outside the files at
hand; the spec gives 66. -/
def rootStringLen : Nat := 66

/-- Modelled from the spec: the constant `sszExt` is declared outside the files at hand; the
spec gives the extension `.ssz`. -/
def sszExt : List Char := ['s', 's', 'z']

def rootToString (root : List Nat) : List Char := '0' :: 'x' :: hexEncode root

def stringToRoot (str : List Char) : Except Error (List Nat) :=
  if goLen str ≠ rootStringLen then
    .error (.wrap .errInvalidRootString "incorrect len for input=%s")
  else
    match hexutilDecode str with
    | none => .error (.wrap .errInvalidRootString "input=%s")
    | some slice => .ok (ToBytes32 slice)

def epochFromPath (p : List Char) : Except Error Nat :=
  let subdir := Base p
  match ParseUint subdir with
  | .error _ =>
    .error (.wrap .errInvalidDirectoryLayout "failed to decode epoch as uint, err=%s, dir=%s")
  | .ok epoch => .ok epoch

def periodFromPath (p : List Char) : Except Error Nat :=
  let subdir := Base p
  match ParseUint subdir with
  | .error _ =>
    .error (.wrap .errInvalidDirectoryLayout
      "failed to decode period from path as uint, err=%s, dir=%s")
  | .ok period => .ok period

def rootFromPath (p : List Char) : Except Error (List Nat) :=
  let subdir := Base p
  match stringToRoot subdir with
  | .error err =>
    .error (.wrap err "invalid directory, could not parse subdir as root %s")
  | .ok root => .ok root

def isSszFile (s : List Char) : Bool := Ext s == '.' :: sszExt

/-- The function `idxFromPath`; the constant `fieldparams.MaxBlobsPerBlock`, declared
outside the files at hand, is the parameter `MaxBlobsPerBlock`. -/
def idxFromPath (MaxBlobsPerBlock : Nat) (p : List Char) : Except Error Nat :=
  let p := Base p
  if ¬ isSszFile p then .error (.wrap .errNotBlobSSZ "does not have .ssz extension")
  else
    let parts := Split '.' p
    if parts.length ≠ 2 then
      .error (.wrap .errNotBlobSSZ "unexpected filename structure (want <index>.ssz)")
    else
      match ParseUint (parts.getD 0 []) with
      | .error err => .error err
      | .ok idx =>
        if idx ≥ MaxBlobsPerBlock then .error (.wrap .errIndexOutOfBounds "index=%d")
        else .ok idx

def filterNoop (_ : List Char) : Bool := true

def isRootDir (p : List Char) : Bool :=
  let dir := Base p
  goLen dir == rootStringLen && HasPrefix dir ['0', 'x']

def isBeforeEpoch (before : Nat) : List Char → Bool :=
  if before = 0 then filterNoop
  else fun p =>
    match epochFromPath p with
    | .error _ => false
    | .ok epoch => decide (epoch < before)

/-- Modelled from the spec: `periodForEpoch` is defined outside the files at hand; a period
is 4096 consecutive epochs. -/
def periodForEpoch (epoch : Nat) : Nat := epoch / 4096

def isBeforePeriod (before : Nat) : List Char → Bool :=
  if before = 0 then filterNoop
  else
    let beforePeriod := periodForEpoch before
    let beforePeriod := if before % 4096 ≠ 0 then beforePeriod + 1 else beforePeriod
    fun p =>
      match periodFromPath p with
      | .error _ => false
      | .ok period => decide (period < beforePeriod)

/-! ## The filesystem capability (`afero.Fs`) -/

/-- An open `afero.File`, as far as the package uses it: `Readdirnames(-1)` and
`ReadAt(b, off)` for a buffer of `len` bytes, which leaves the buffer and an error. -/
structure File where
  Readdirnames : Except Error (List (List Char))
  ReadAt : (len off : Nat) → List Nat × Option Error

/-- The injected filesystem: `Open(name)`. It is a snapshot: it answers the same way for
the whole walk. -/
structure Fs where
  Open : List Char → Except Error File

def listDir (fs : Fs) (dir : List Char) : Except Error (List (List Char)) :=
  match fs.Open dir with
  | .error err => .error (.wrap err "failed to open directory descriptor")
  | .ok top =>
    match top.Readdirnames with
    | .error err => .error (.wrap err "failed to read directory listing")
    | .ok dirs => .ok dirs

/-- Go's `binary.LittleEndian.Uint64`. -/
def littleEndianUint64 : List Nat → Nat
  | [] => 0
  | b :: bs => b + 256 * littleEndianUint64 bs

def slotFromBlob (at_ : File) : Except Error Nat :=
  match at_.ReadAt 8 131176 with
  | (_, some err) => .error err
  | (b, none) => .ok (littleEndianUint64 (b.take 8))

def slotFromFile (name : List Char) (fs : Fs) : Except Error Nat :=
  match fs.Open name with
  | .error err => .error err
  | .ok f => slotFromBlob f

/-! ## Populators (`iteration.go`, lines 140-192) -/

def populateNoop (namer : blobIdent) (_dir : List Char) : blobIdent × Option Error :=
  (namer, none)

def populateEpoch (namer : blobIdent) (dir : List Char) : blobIdent × Option Error :=
  match epochFromPath dir with
  | .error err => (namer, some err)
  | .ok epoch => ({ namer with epoch := epoch }, none)

def populateRoot (namer : blobIdent) (dir : List Char) : blobIdent × Option Error :=
  match rootFromPath dir with
  | .error err => (namer, some err)
  | .ok root => ({ namer with root := root }, none)

def populateIndex (MaxBlobsPerBlock : Nat) (namer : blobIdent) (fname : List Char) :
    blobIdent × Option Error :=
  match idxFromPath MaxBlobsPerBlock fname with
  | .error err => (namer, some err)
  | .ok idx => ({ namer with index := idx }, none)

/-- The receiver of the slot-once-per-root populator. -/
structure readSlotOncePerRoot where
  fs : Fs
  lastRoot : List Nat
  epoch : Nat

/-- The method `readSlotOncePerRoot.populateIdent`: the result and the receiver as the call leaves it.
`slots.ToEpoch(slot)` is `slot / SlotsPerEpoch`, the configuration value `SlotsPerEpoch`
being a parameter. -/
def readSlotOncePerRoot.populateIdent (MaxBlobsPerBlock SlotsPerEpoch : Nat)
    (l : readSlotOncePerRoot) (ident : blobIdent) (fname : List Char) :
    (blobIdent × Option Error) × readSlotOncePerRoot :=
  match populateIndex MaxBlobsPerBlock ident fname with
  | (ident, some err) => ((ident, some err), l)
  | (ident, none) =>
    if ident.root ≠ l.lastRoot then
      match slotFromFile fname l.fs with
      | .error err => ((ident, some err), l)
      | .ok slot =>
        let l := { l with lastRoot := ident.root, epoch := slot / SlotsPerEpoch }
        (({ ident with epoch := l.epoch }, none), l)
    else (({ ident with epoch := l.epoch }, none), l)

/-! ## The layered iterator (`iteration.go`, lines 70-138) -/

/-- An `identPopulator` is a Go function value and may carry state of its own (the method
value `readSlotOncePerRoot.populateIdent` does): it is a function of the state `σ` of the
populators, which it returns as it leaves it. -/
abbrev identPopulator (σ : Type) := blobIdent → List Char → σ → (blobIdent × Option Error) × σ

/-- A function without state as an `identPopulator`. -/
def identPopulator.ofFunc {σ : Type} (f : blobIdent → List Char → blobIdent × Option Error) :
    identPopulator σ :=
  fun ident path s => (f ident path, s)

structure layoutLevel (σ : Type) where
  populateIdent : identPopulator σ
  filter : List Char → Bool

inductive identIterator (σ : Type) where
  | mk (fs : Fs) (path : List Char) (child : Option (identIterator σ)) (ident : blobIdent)
      (levels : List (layoutLevel σ)) (entries : List (List Char)) (offset : Nat)

namespace identIterator

variable {σ : Type}

def fs : identIterator σ → Fs
  | mk fs _ _ _ _ _ _ => fs

def path : identIterator σ → List Char
  | mk _ path _ _ _ _ _ => path

def child : identIterator σ → Option (identIterator σ)
  | mk _ _ child _ _ _ _ => child

def ident : identIterator σ → blobIdent
  | mk _ _ _ ident _ _ _ => ident

def levels : identIterator σ → List (layoutLevel σ)
  | mk _ _ _ _ levels _ _ => levels

def entries : identIterator σ → List (List Char)
  | mk _ _ _ _ _ entries _ => entries

def offset : identIterator σ → Nat
  | mk _ _ _ _ _ _ offset => offset

/-- The assignment `iter.offset = i`. -/
def setOffset : identIterator σ → Nat → identIterator σ
  | mk fs path child ident levels entries _, i => mk fs path child ident levels entries i

/-- The assignment `iter.child = c`. -/
def setChild : identIterator σ → identIterator σ → identIterator σ
  | mk fs path _ ident levels entries offset, c => mk fs path (some c) ident levels entries offset

end identIterator

/-- What a call of `next` or `advanceChild` leaves behind: the returned pair
`(ident, err)`, the iterator and the state of the populators as the call leaves them, and
`visited`, which is not a Go value: it records the local `nextPath` of the entry whose
ident or identification failure is returned (`none` for any other return). -/
structure Returned (σ : Type) where
  ident : blobIdent
  err : Option Error
  iter : identIterator σ
  state : σ
  visited : Option (List Char)

section iterator

variable {σ : Type}

/-- The `for` loop of `advanceChild` with `n` iterations to go, at index `i`.
`childNext` is the method `next` of the iterator created for a subdirectory. -/
def advanceLoop (childNext : identIterator σ → σ → Option (Returned σ)) :
    Nat → Nat → identIterator σ → σ → Option (Returned σ)
  | 0, _, iter, s => some ⟨blobIdent.zero, some .EOF, iter, s, none⟩
  | n + 1, i, iter, s =>
    let iter := iter.setOffset i
    match iter.entries[iter.offset]? with
    | none => none
    | some entry =>
      let nextPath := filepathJoin iter.path entry
      match iter.levels with
      | [] => none
      | nextLevel :: _ =>
        if ¬ nextLevel.filter nextPath then advanceLoop childNext n (i + 1) iter s
        else
          match nextLevel.populateIdent iter.ident nextPath s with
          | ((ident, some err), s) =>
            some ⟨ident, some (newIdentificationError nextPath ident err), iter, s, some nextPath⟩
          | ((ident, none), s) =>
            if iter.levels.length = 1 then some ⟨ident, none, iter, s, some nextPath⟩
            else
              match listDir iter.fs nextPath with
              | .error err => some ⟨blobIdent.zero, some err, iter, s, none⟩
              | .ok entries =>
                if entries.length = 0 then advanceLoop childNext n (i + 1) iter s
                else
                  let child : identIterator σ :=
                    .mk iter.fs nextPath none ident (iter.levels.drop 1) entries 0
                  match childNext child s with
                  | none => none
                  | some r => some ⟨r.ident, r.err, iter.setChild r.iter, r.state, r.visited⟩

/-- The body of `advanceChild`: the loop from `iter.offset` to `len(iter.entries)`, then
the deferred `iter.offset += 1`. -/
def advanceChildWith (childNext : identIterator σ → σ → Option (Returned σ))
    (iter : identIterator σ) (s : σ) : Option (Returned σ) :=
  match advanceLoop childNext (iter.entries.length - iter.offset) iter.offset iter s with
  | none => none
  | some r => some { r with iter := r.iter.setOffset (r.iter.offset + 1) }

/-- The method `advanceChild` of an iterator whose levels are `levels`. The iterator it
creates has the levels `levels[1:]` and no child, so its `next` is its `advanceChild`:
the recursion is on the levels. -/
def advanceChildAt : List (layoutLevel σ) → identIterator σ → σ → Option (Returned σ)
  | [], iter, s => advanceChildWith (fun _ _ => none) iter s
  | _ :: rest, iter, s => advanceChildWith (advanceChildAt rest) iter s

def identIterator.advanceChild (iter : identIterator σ) (s : σ) : Option (Returned σ) :=
  advanceChildAt iter.levels iter s

def identIterator.next : identIterator σ → σ → Option (Returned σ)
  | .mk fs path (some child) ident levels entries offset, s =>
    match child.next s with
    | none => none
    | some r =>
      let iter : identIterator σ := .mk fs path (some r.iter) ident levels entries offset
      if r.err = none then some ⟨r.ident, none, iter, r.state, r.visited⟩
      else if r.err ≠ some .EOF then some ⟨blobIdent.zero, r.err, iter, r.state, r.visited⟩
      else iter.advanceChild r.state
  | .mk fs path none ident levels entries offset, s =>
    (identIterator.mk fs path none ident levels entries offset).advanceChild s

/-- The iterator as it is constructed: no child, offset zero. -/
def newIterator (fs : Fs) (path : List Char) (ident : blobIdent) (levels : List (layoutLevel σ))
    (entries : List (List Char)) : identIterator σ :=
  .mk fs path none ident levels entries 0

/-- The results of `k` successive calls of `next`, with the iterator and the state they
leave; `none` if a call panics. -/
def callNext : Nat → identIterator σ → σ → Option (List (Returned σ))
  | 0, _, _ => some []
  | k + 1, iter, s =>
    match iter.next s with
    | none => none
    | some r =>
      match callNext k r.iter r.state with
      | none => none
      | some rs => some (r :: rs)

end iterator

/-! ## Files and stores used in the examples -/

/-- A directory with the given names; reading it as a file fails. -/
def dirFile (names : List (List Char)) : File :=
  ⟨.ok names, fun len _ => (List.replicate len 0, some (.fsError 21))⟩

/-- A regular file with the given content: `ReadAt` copies what is there from `off` on and
reports `io.EOF` when that is less than the buffer; listing it fails. -/
def regularFile (data : List Nat) : File :=
  ⟨.error (.fsError 20), fun len off =>
    let chunk := (data.drop off).take len
    (chunk ++ List.replicate (len - chunk.length) 0,
      if chunk.length < len then some .EOF else none)⟩

/-- The store `/r` with the directory `a`, which holds only a file in progress, and the
directory `b`, which holds the blob `1.ssz`. -/
def partStore : Fs :=
  ⟨fun p =>
    if p = "/r".toList then .ok (dirFile ["a".toList, "b".toList])
    else if p = "/r/a".toList then .ok (dirFile ["0.ssz.part".toList])
    else if p = "/r/b".toList then .ok (dirFile ["1.ssz".toList])
    else if p = "/r/a/0.ssz.part".toList ∨ p = "/r/b/1.ssz".toList then .ok (regularFile [])
    else .error (.fsError 2)⟩

/-- A layout of two levels: any directory, then the blob files by index. -/
def dirThenIndex : List (layoutLevel Unit) :=
  [⟨.ofFunc populateNoop, filterNoop⟩, ⟨.ofFunc (populateIndex 6), isSszFile⟩]

/-- The iterator over `partStore` from `/r`. -/
def partStoreIter : identIterator Unit :=
  newIterator partStore "/r".toList blobIdent.zero dirThenIndex ["a".toList, "b".toList]

/-- The store `/r` with the directory `b`, which holds the blob `1.ssz`, the empty
directory `e`, and the directory `a`, which cannot be opened. -/
def lockedStore : Fs :=
  ⟨fun p =>
    if p = "/r".toList then .ok (dirFile ["b".toList, "e".toList, "a".toList])
    else if p = "/r/b".toList then .ok (dirFile ["1.ssz".toList])
    else if p = "/r/e".toList then .ok (dirFile [])
    else if p = "/r/b/1.ssz".toList then .ok (regularFile [])
    else .error (.fsError 13)⟩

/-- The iterator over `lockedStore` from `/r`. -/
def lockedStoreIter : identIterator Unit :=
  newIterator lockedStore "/r".toList blobIdent.zero dirThenIndex
    ["b".toList, "e".toList, "a".toList]

/-- The iterator over `lockedStore` as its first call of `next` leaves it: past `b`, with
the iterator of `/r/b` as its child, which is past `1.ssz`. -/
def lockedStoreIterAfter : identIterator Unit :=
  .mk lockedStore "/r".toList
    (some (.mk lockedStore "/r/b".toList none blobIdent.zero
      [⟨.ofFunc (populateIndex 6), isSszFile⟩] ["1.ssz".toList] 1))
    blobIdent.zero dirThenIndex ["b".toList, "e".toList, "a".toList] 1

/-- A level whose populator is the method value `populateIdent` of the slot-once-per-root
receiver, the receiver being the state of the populators. -/
def slotOncePerRootLevel (MaxBlobsPerBlock SlotsPerEpoch : Nat) (filter : List Char → Bool) :
    layoutLevel readSlotOncePerRoot :=
  ⟨fun ident fname l =>
      readSlotOncePerRoot.populateIdent MaxBlobsPerBlock SlotsPerEpoch l ident fname,
    filter⟩

/-- The store `/r` that lists the blob `1.ssz`, which cannot be opened. -/
def goneStore : Fs :=
  ⟨fun p =>
    if p = "/r".toList then .ok (dirFile ["1.ssz".toList])
    else .error (.fsError 2)⟩

/-- The iterator over the blob files of `/r` in `goneStore`, as the iterator of a root
directory creates it: the root of its ident is set. -/
def goneStoreIter : identIterator readSlotOncePerRoot :=
  newIterator goneStore "/r".toList ⟨List.replicate 32 1, 0, 0⟩
    [slotOncePerRootLevel 6 32 isSszFile] ["1.ssz".toList]

/-- A new receiver of the slot-once-per-root populator over `goneStore`. -/
def goneStoreReader : readSlotOncePerRoot := ⟨goneStore, List.replicate 32 0, 0⟩

/-! ## Statements of the spec, for comparison with the code -/

section specification

variable {σ : Type}

/-- The decimal rendering of a number, without sign or leading zeros (the verb `%d`). -/
def decimal (n : Nat) : List Char := Nat.toDigits 10 n

/-- The number that a string of decimal digits denotes, read after the number `n`. -/
def decimalValue : List Char → Nat → Nat
  | [], n => n
  | c :: cs, n => decimalValue cs (n * 10 + digitVal c)

/-- A lowercase hexadecimal digit. -/
def lowerHexDigit (c : Char) : Bool := "0123456789abcdef".data.contains c

/-- What the spec promises for a directory of leaf entries: in listing order, one item
for each entry whose joined path passes the filter, the populated ident or the
identification failure that carries the joined path and the populator's cause. -/
def leafItems (lvl : layoutLevel σ) (path : List Char) (ident : blobIdent) :
    List (List Char) → σ → List (blobIdent × Option Error)
  | [], _ => []
  | entry :: rest, s =>
    if lvl.filter (filepathJoin path entry) then
      match lvl.populateIdent ident (filepathJoin path entry) s with
      | ((out, none), s) => (out, none) :: leafItems lvl path ident rest s
      | ((out, some cause), s) =>
        (out, some (Error.identificationError cause (filepathJoin path entry) out))
          :: leafItems lvl path ident rest s
    else leafItems lvl path ident rest s

/-- The ident `out` is what the populators of `levels` give, applied in order from `ident`
on, along the path `path/name₁/.../name_d` (`names`, one component for each level): each
name is an entry of the listing of the directory before it (`entries` for the first), and
each prefix of the path is admitted by the filter of its level. A populator with a state
is applied in some state. -/
def populatedAlong (fs : Fs) :
    List (layoutLevel σ) → List Char → blobIdent → List (List Char) → List (List Char) →
      blobIdent → Prop
  | [], _, _, _, _, _ => False
  | lvl :: rest, path, ident, entries, names, out =>
    ∃ name names', names = name :: names' ∧ name ∈ entries ∧
      lvl.filter (filepathJoin path name) = true ∧
      ∃ s next, (lvl.populateIdent ident (filepathJoin path name) s).1 = (next, none) ∧
        ((rest = [] ∧ names' = [] ∧ out = next) ∨
         (rest ≠ [] ∧ ∃ below, listDir fs (filepathJoin path name) = .ok below ∧
            populatedAlong fs rest (filepathJoin path name) next below names' out))

/-- The ident `out` is populated along some path below the directory of the iterator. -/
def emittable (iter : identIterator σ) (out : blobIdent) : Prop :=
  ∃ names, populatedAlong iter.fs iter.levels iter.path iter.ident iter.entries names out

/-- Two iterators over the same directory with the same layout. -/
def sameDirectory (a b : identIterator σ) : Prop :=
  a.fs = b.fs ∧ a.path = b.path ∧ a.ident = b.ident ∧ a.levels = b.levels ∧
    a.entries = b.entries

/-- Every child in the chain of an iterator walks a directory of its parent: what the
child can emit, the parent can emit. -/
def childrenLinked : identIterator σ → Prop
  | .mk _ _ none _ _ _ _ => True
  | .mk fs path (some child) ident levels entries offset =>
    (∀ out, emittable child out →
      emittable (.mk fs path (some child) ident levels entries offset) out) ∧
    childrenLinked child

/-- The paths of all nodes of the tree, directories included, down to `depth` levels below
the directory `path` whose listing is `entries`; nothing below a directory that cannot be
listed. -/
def treePaths (fs : Fs) : Nat → List Char → List (List Char) → List (List Char)
  | 0, _, _ => []
  | depth + 1, path, entries =>
    entries.flatMap (fun entry =>
      filepathJoin path entry ::
        (match listDir fs (filepathJoin path entry) with
          | .ok below => treePaths fs depth (filepathJoin path entry) below
          | .error _ => []))

/-- The paths an iterator can still come to: those of its child, and those of its own
entries from its offset on. -/
def pending : identIterator σ → List (List Char)
  | .mk fs path none _ levels entries offset =>
    treePaths fs levels.length path (entries.drop offset)
  | .mk fs path (some child) _ levels entries offset =>
    pending child ++ treePaths fs levels.length path (entries.drop offset)

/-- A name as a directory listing gives it: not empty, without slash, and neither `.` nor
`..`. -/
def plainName (name : List Char) : Prop :=
  name ≠ [] ∧ '/' ∉ name ∧ name ≠ ['.'] ∧ name ≠ ['.', '.']

instance : DecidablePred plainName := fun name => by
  unfold plainName
  infer_instance

/-- The path of the given components, from the root directory when `rooted`. -/
def slashPath (rooted : Bool) (comps : List (List Char)) : List Char :=
  if rooted then '/' :: stringsJoin ['/'] comps else stringsJoin ['/'] comps

/-- A path of plain components, absolute or relative. -/
def plainPath (path : List Char) : Prop :=
  ∃ rooted comps, (rooted = true ∨ comps ≠ []) ∧ (∀ c ∈ comps, plainName c) ∧
    path = slashPath rooted comps

/-- The paths pending below a child pointer. -/
def pendingBelow (child : Option (identIterator σ)) : List (List Char) :=
  match child with
  | none => []
  | some c => pending c

/-- The paths whose ident or identification failure a sequence of calls returned. -/
def visitedPaths (rs : List (Returned σ)) : List (List Char) :=
  rs.filterMap (fun r => r.visited)

end specification

/-- The `count` bytes of `binary.LittleEndian.PutUint64` and its like: the little-endian
encoding of `v`. -/
def littleEndianBytes : Nat → Nat → List Nat
  | 0, _ => []
  | count + 1, v => v % 256 :: littleEndianBytes count (v / 256)

/-- A blob file that holds the slot `slot` at offset 131176 and zeros before it. -/
def blobWithSlot (slot : Nat) : List Nat :=
  List.replicate 131176 0 ++ littleEndianBytes 8 slot

/-! ## The execution payload wrapper (`consensus-types/blocks/execution_epbs.go`)

A pointer is an `Option` (`none` is `nil`); a method that dereferences the payload returns
`none` when that is a nil-pointer panic; a byte slice is a list of bytes. -/

/-- The errors `ErrNilObjectWrapped` and `ErrUnsupportedField` of the package
`consensus_types`, which is outside the files at hand. -/
inductive consensusTypesError where
  | ErrNilObjectWrapped
  | ErrUnsupportedField
deriving DecidableEq, Repr

/-- The type `enginev1.Withdrawal`, generated code outside the files at hand. -/
structure Withdrawal where
  Index : Nat
  ValidatorIndex : Nat
  Address : List Nat
  Amount : Nat
deriving DecidableEq, Repr

/-- The type `enginev1.ExecutionPayloadEPBS`, generated code outside the files at hand:
the fields that the accessors read and the test sets. -/
structure ExecutionPayloadEPBS where
  ParentHash : List Nat
  FeeRecipient : List Nat
  StateRoot : List Nat
  ReceiptsRoot : List Nat
  LogsBloom : List Nat
  PrevRandao : List Nat
  BlockNumber : Nat
  GasLimit : Nat
  GasUsed : Nat
  Timestamp : Nat
  ExtraData : List Nat
  BaseFeePerGas : List Nat
  BlockHash : List Nat
  Transactions : List (List Nat)
  Withdrawals : List (Option Withdrawal)
  BlobGasUsed : Nat
  ExcessBlobGas : Nat
  InclusionListSummary : List (List Nat)
deriving DecidableEq, Repr

structure executionPayloadEpbs where
  p : Option ExecutionPayloadEPBS
deriving DecidableEq, Repr

namespace executionPayloadEpbs

def IsNil (e : executionPayloadEpbs) : Bool := e.p.isNone

def ParentHash (e : executionPayloadEpbs) : Option (List Nat) :=
  match e.p with
  | none => none
  | some p => some p.ParentHash

def FeeRecipient (e : executionPayloadEpbs) : Option (List Nat) :=
  match e.p with
  | none => none
  | some p => some p.FeeRecipient

def StateRoot (e : executionPayloadEpbs) : Option (List Nat) :=
  match e.p with
  | none => none
  | some p => some p.StateRoot

def ReceiptsRoot (e : executionPayloadEpbs) : Option (List Nat) :=
  match e.p with
  | none => none
  | some p => some p.ReceiptsRoot

def LogsBloom (e : executionPayloadEpbs) : Option (List Nat) :=
  match e.p with
  | none => none
  | some p => some p.LogsBloom

def PrevRandao (e : executionPayloadEpbs) : Option (List Nat) :=
  match e.p with
  | none => none
  | some p => some p.PrevRandao

def BlockNumber (e : executionPayloadEpbs) : Option Nat :=
  match e.p with
  | none => none
  | some p => some p.BlockNumber

def GasLimit (e : executionPayloadEpbs) : Option Nat :=
  match e.p with
  | none => none
  | some p => some p.GasLimit

def GasUsed (e : executionPayloadEpbs) : Option Nat :=
  match e.p with
  | none => none
  | some p => some p.GasUsed

def Timestamp (e : executionPayloadEpbs) : Option Nat :=
  match e.p with
  | none => none
  | some p => some p.Timestamp

def ExtraData (e : executionPayloadEpbs) : Option (List Nat) :=
  match e.p with
  | none => none
  | some p => some p.ExtraData

def BaseFeePerGas (e : executionPayloadEpbs) : Option (List Nat) :=
  match e.p with
  | none => none
  | some p => some p.BaseFeePerGas

def BlockHash (e : executionPayloadEpbs) : Option (List Nat) :=
  match e.p with
  | none => none
  | some p => some p.BlockHash

def Transactions (e : executionPayloadEpbs) :
    Option (List (List Nat) × Option consensusTypesError) :=
  match e.p with
  | none => none
  | some p => some (p.Transactions, none)

def TransactionsRoot (_ : executionPayloadEpbs) : List Nat × Option consensusTypesError :=
  ([], some .ErrUnsupportedField)

def Withdrawals (e : executionPayloadEpbs) :
    Option (List (Option Withdrawal) × Option consensusTypesError) :=
  match e.p with
  | none => none
  | some p => some (p.Withdrawals, none)

def WithdrawalsRoot (_ : executionPayloadEpbs) : List Nat × Option consensusTypesError :=
  ([], some .ErrUnsupportedField)

def BlobGasUsed (e : executionPayloadEpbs) : Option (Nat × Option consensusTypesError) :=
  match e.p with
  | none => none
  | some p => some (p.BlobGasUsed, none)

def ExcessBlobGas (e : executionPayloadEpbs) : Option (Nat × Option consensusTypesError) :=
  match e.p with
  | none => none
  | some p => some (p.ExcessBlobGas, none)

/-- The method `PbBellatrix`: the pointer returned is `nil`. -/
def PbBellatrix (_ : executionPayloadEpbs) : Option Unit × Option consensusTypesError :=
  (none, some .ErrUnsupportedField)

/-- The method `PbCapella`: the pointer returned is `nil`. -/
def PbCapella (_ : executionPayloadEpbs) : Option Unit × Option consensusTypesError :=
  (none, some .ErrUnsupportedField)

/-- The method `PbDeneb`: the pointer returned is `nil`. -/
def PbDeneb (_ : executionPayloadEpbs) : Option Unit × Option consensusTypesError :=
  (none, some .ErrUnsupportedField)

/-- The method `ValueInWei`: a `math.Wei` is a pointer to a big integer, here `nil`. -/
def ValueInWei (_ : executionPayloadEpbs) : Option Int × Option consensusTypesError :=
  (none, some .ErrUnsupportedField)

def ValueInGwei (_ : executionPayloadEpbs) : Nat × Option consensusTypesError :=
  (0, some .ErrUnsupportedField)

def IsBlinded (_ : executionPayloadEpbs) : Bool := false

end executionPayloadEpbs

def WrappedExecutionPayloadEpbs (p : Option ExecutionPayloadEPBS) :
    Except consensusTypesError executionPayloadEpbs :=
  let w : executionPayloadEpbs := ⟨p⟩
  if w.IsNil then .error .ErrNilObjectWrapped else .ok w

/-- The payload that the test wraps, its byte strings unpadded. -/
def testPayload : ExecutionPayloadEPBS :=
  { ParentHash := [1], FeeRecipient := [2], StateRoot := [3], ReceiptsRoot := [4],
    LogsBloom := [5], PrevRandao := [6], BlockNumber := 1, GasLimit := 2, GasUsed := 3,
    Timestamp := 4, ExtraData := [7], BaseFeePerGas := [8], BlockHash := [9],
    Transactions := [[10], [11], [12]], Withdrawals := [], BlobGasUsed := 5,
    ExcessBlobGas := 6, InclusionListSummary := [[13], [14], [15]] }

/-! ## The slot-once-per-root populator, with its filesystem accesses -/

/-- A receiver of the slot-once-per-root populator as it is constructed: the zero value of
its cache. -/
def newReadSlotOncePerRoot (fs : Fs) : readSlotOncePerRoot := ⟨fs, List.replicate 32 0, 0⟩

/-- A call that the package makes on the filesystem when it peeks at a slot: `Open(name)`,
or `ReadAt` of `len` bytes at `off` on the file opened under `name`. -/
inductive Access where
  | opened (name : List Char)
  | readAt (name : List Char) (len off : Nat)
deriving DecidableEq, Repr

/-- The call `fs.Open(name)` with the access it makes. -/
def Fs.OpenLogged (fs : Fs) (name : List Char) : Except Error File × List Access :=
  (fs.Open name, [.opened name])

/-- The call `f.ReadAt(b, off)` on the file opened under `name`, with the access it makes. -/
def File.ReadAtLogged (f : File) (name : List Char) (len off : Nat) :
    (List Nat × Option Error) × List Access :=
  (f.ReadAt len off, [.readAt name len off])

/-- The function `slotFromBlob` with the accesses of its call of `ReadAt`. -/
def slotFromBlobLogged (name : List Char) (at_ : File) : Except Error Nat × List Access :=
  match at_.ReadAtLogged name 8 131176 with
  | ((_, some err), log) => (.error err, log)
  | ((b, none), log) => (.ok (littleEndianUint64 (b.take 8)), log)

/-- The function `slotFromFile` with the accesses of its call of `Open` and of the call of
`slotFromBlob` on the file. -/
def slotFromFileLogged (name : List Char) (fs : Fs) : Except Error Nat × List Access :=
  match fs.OpenLogged name with
  | (.error err, log) => (.error err, log)
  | (.ok f, log) => ((slotFromBlobLogged name f).1, log ++ (slotFromBlobLogged name f).2)

/-- The method `readSlotOncePerRoot.populateIdent` with the accesses of its call of
`slotFromFile` (not a Go value). -/
def readSlotOncePerRoot.populateIdentLogged (MaxBlobsPerBlock SlotsPerEpoch : Nat)
    (l : readSlotOncePerRoot) (ident : blobIdent) (fname : List Char) :
    ((blobIdent × Option Error) × readSlotOncePerRoot) × List Access :=
  match populateIndex MaxBlobsPerBlock ident fname with
  | (ident, some err) => (((ident, some err), l), [])
  | (ident, none) =>
    if ident.root ≠ l.lastRoot then
      match slotFromFileLogged fname l.fs with
      | (.error err, log) => (((ident, some err), l), log)
      | (.ok slot, log) =>
        let l := { l with lastRoot := ident.root, epoch := slot / SlotsPerEpoch }
        ((({ ident with epoch := l.epoch }, none), l), log)
    else ((({ ident with epoch := l.epoch }, none), l), [])

/-- Consecutive calls of the method `populateIdent` on the same receiver: what each call
returns. -/
def readSlotOncePerRoot.populateEach (MaxBlobsPerBlock SlotsPerEpoch : Nat) :
    readSlotOncePerRoot → List (blobIdent × List Char) → List (blobIdent × Option Error)
  | _, [] => []
  | l, (ident, fname) :: rest =>
    (readSlotOncePerRoot.populateIdent MaxBlobsPerBlock SlotsPerEpoch l ident fname).1
    :: populateEach MaxBlobsPerBlock SlotsPerEpoch
        (readSlotOncePerRoot.populateIdent MaxBlobsPerBlock SlotsPerEpoch l ident fname).2 rest

/-- Consecutive calls of the method `populateIdent` on the same receiver: the accesses
that each call makes, the receiver being as `populateIdent` leaves it. -/
def readSlotOncePerRoot.accessesEach (MaxBlobsPerBlock SlotsPerEpoch : Nat) :
    readSlotOncePerRoot → List (blobIdent × List Char) → List (List Access)
  | _, [] => []
  | l, (ident, fname) :: rest =>
    (readSlotOncePerRoot.populateIdentLogged MaxBlobsPerBlock SlotsPerEpoch l ident fname).2
    :: accessesEach MaxBlobsPerBlock SlotsPerEpoch
        (readSlotOncePerRoot.populateIdent MaxBlobsPerBlock SlotsPerEpoch l ident fname).2 rest

/-- The store `/r` with the blobs `2.ssz` and `3.ssz`, which hold the slot 64. -/
def slotStore : Fs :=
  ⟨fun p =>
    if p = "/r".toList then .ok (dirFile ["2.ssz".toList, "3.ssz".toList])
    else if p = "/r/2.ssz".toList ∨ p = "/r/3.ssz".toList then .ok (regularFile (blobWithSlot 64))
    else .error (.fsError 2)⟩

/-! ## Pruning by epoch -/

/-- A populator that leaves the epoch of the ident as it is. -/
def keepsEpoch {σ : Type} (lvl : layoutLevel σ) : Prop :=
  ∀ ident p s, (lvl.populateIdent ident p s).1.1.epoch = ident.epoch

/-- The layout by epoch, by root, by index, pruned before the epoch `before`. -/
def byEpochLayout (before : Nat) : List (layoutLevel Unit) :=
  [⟨.ofFunc populateEpoch, isBeforeEpoch before⟩, ⟨.ofFunc populateRoot, isRootDir⟩,
    ⟨.ofFunc (populateIndex 6), isSszFile⟩]

/-- The store `/r` with the epochs 5, 9 and 12, each with one root that holds one blob. -/
def epochStore : Fs :=
  ⟨fun p =>
    if p = "/r/5".toList then
      .ok (dirFile ["0xaaaaaaaaaaaaaaaaaaaaaaaaaaaaaaaaaaaaaaaaaaaaaaaaaaaaaaaaaaaaaaaa".toList])
    else if p = "/r/9".toList then
      .ok (dirFile ["0xbbbbbbbbbbbbbbbbbbbbbbbbbbbbbbbbbbbbbbbbbbbbbbbbbbbbbbbbbbbbbbbb".toList])
    else if p = "/r/12".toList then
      .ok (dirFile ["0xcccccccccccccccccccccccccccccccccccccccccccccccccccccccccccccccc".toList])
    else if p = "/r/5/0xaaaaaaaaaaaaaaaaaaaaaaaaaaaaaaaaaaaaaaaaaaaaaaaaaaaaaaaaaaaaaaaa".toList then
      .ok (dirFile ["0.ssz".toList])
    else if p = "/r/9/0xbbbbbbbbbbbbbbbbbbbbbbbbbbbbbbbbbbbbbbbbbbbbbbbbbbbbbbbbbbbbbbbb".toList then
      .ok (dirFile ["1.ssz".toList])
    else if p = "/r/12/0xcccccccccccccccccccccccccccccccccccccccccccccccccccccccccccccccc".toList then
      .ok (dirFile ["0.ssz".toList])
    else .error (.fsError 2)⟩

/-- The iterator over `epochStore` from `/r`, pruned before the epoch 10. -/
def epochStoreIter : identIterator Unit :=
  newIterator epochStore "/r".toList blobIdent.zero (byEpochLayout 10)
    ["5".toList, "9".toList, "12".toList]

section safety

variable {σ : Type}

/-- Every iterator of the chain has a level to read, and a child has the levels of its
parent but the first. -/
def levelsInRange : identIterator σ → Prop
  | .mk _ _ none _ levels _ _ => levels ≠ []
  | .mk _ _ (some child) _ levels _ _ =>
    levels ≠ [] ∧ child.levels = levels.drop 1 ∧ levelsInRange child

/-- The number of iterators in the chain of an iterator, itself included: the depth to
which a call of `next` descends. -/
def chainLength : identIterator σ → Nat
  | .mk _ _ none _ _ _ _ => 1
  | .mk _ _ (some child) _ _ _ _ => chainLength child + 1

/-- One for a call that returns anything but the end of the stream, zero for a call that
returns the end of the stream. -/
def Returned.progress (r : Returned σ) : Nat := if r.err = some Error.EOF then 0 else 1

end safety

/-! ## Where a call of `next` comes to stand -/

section standing

variable {σ : Type}

/-- A place at which the loop of `advanceChild` stands, in some iterator of the chain: the
filesystem, levels, directory and ident of that iterator, the entry at its offset, and the
state of the populators when the loop comes to the entry. -/
structure Stand (σ : Type) where
  fs : Fs
  levels : List (layoutLevel σ)
  path : List Char
  ident : blobIdent
  entry : List Char
  state : σ

/-- The loop of `advanceChild` passes over the entries `skipped` of the directory `path`,
which takes the state of the populators from `s` to `t`: each of them is rejected by the
filter of the level or, at a level that is not the last (`others ≠ []`), admitted and
populated without error, its directory listed as empty. -/
def passesOver (fs : Fs) (lvl : layoutLevel σ) (others : List (layoutLevel σ))
    (path : List Char) (ident : blobIdent) : List (List Char) → σ → σ → Prop
  | [], s, t => t = s
  | entry :: rest, s, t =>
    (lvl.filter (filepathJoin path entry) = false ∧
      passesOver fs lvl others path ident rest s t) ∨
    (lvl.filter (filepathJoin path entry) = true ∧ others ≠ [] ∧
      ∃ out s1, lvl.populateIdent ident (filepathJoin path entry) s = ((out, none), s1) ∧
        listDir fs (filepathJoin path entry) = .ok [] ∧
        passesOver fs lvl others path ident rest s1 t)

/-- The method `advanceChild` of an iterator over the directory `path`, with the entries
`remaining` from its offset on, comes to stand at `w`: its loop passes over some entries
and then stands at `w`, or comes to an entry that is admitted and populated without error
and whose directory lists some entries, and `advanceChild` of the iterator created for that
directory comes to stand at `w`. -/
def loopComesTo (fs : Fs) :
    List (layoutLevel σ) → List Char → blobIdent → List (List Char) → σ → Stand σ → Prop
  | [], _, _, _, _, _ => False
  | lvl :: others, path, ident, remaining, s, w =>
    ∃ skipped entry later s1, remaining = skipped ++ entry :: later ∧
      passesOver fs lvl others path ident skipped s s1 ∧
      (w = ⟨fs, lvl :: others, path, ident, entry, s1⟩ ∨
       (others ≠ [] ∧ lvl.filter (filepathJoin path entry) = true ∧
         ∃ out s2 below,
           lvl.populateIdent ident (filepathJoin path entry) s1 = ((out, none), s2) ∧
           listDir fs (filepathJoin path entry) = .ok below ∧ below ≠ [] ∧
           loopComesTo fs others (filepathJoin path entry) out below s2 w))

/-- A call of `next` on the iterator comes to stand at `w`: the call of `next` on its child
does, or its child, if it has one, returns the end of the stream and its own
`advanceChild` comes to stand at `w`. -/
def identIterator.comesTo : identIterator σ → σ → Stand σ → Prop
  | .mk fs path none ident levels entries offset, s, w =>
    loopComesTo fs levels path ident (entries.drop offset) s w
  | .mk fs path (some c) ident levels entries offset, s, w =>
    c.comesTo s w ∨
    ∃ rc, c.next s = some rc ∧ rc.err = some .EOF ∧
      loopComesTo fs levels path ident (entries.drop offset) rc.state w

end standing

/-! ## A store by root with a blob that cannot be opened -/

/-- The name of the directory of the root `01 01 ... 01`. -/
def goneRootName : List Char :=
  "0x0101010101010101010101010101010101010101010101010101010101010101".toList

/-- The directory of the root `01 01 ... 01` under `/r`. -/
def goneRootDir : List Char :=
  "/r/0x0101010101010101010101010101010101010101010101010101010101010101".toList

/-- The store `/r` with one root directory, which lists the file `x.txt` and the blob
`1.ssz`; neither can be opened. -/
def goneRootStore : Fs :=
  ⟨fun p =>
    if p = "/r".toList then .ok (dirFile [goneRootName])
    else if p = goneRootDir then .ok (dirFile ["x.txt".toList, "1.ssz".toList])
    else .error (.fsError 2)⟩

/-- The layout by root: the root directories, then the blob files with the
slot-once-per-root populator. -/
def byRootLayout : List (layoutLevel readSlotOncePerRoot) :=
  [⟨.ofFunc populateRoot, isRootDir⟩, slotOncePerRootLevel 6 32 isSszFile]

/-- The iterator over `goneRootStore` from `/r`, by root. -/
def goneRootIter : identIterator readSlotOncePerRoot :=
  newIterator goneRootStore "/r".toList blobIdent.zero byRootLayout [goneRootName]

/-! # Theorems -/

section iteratorLemmas

variable {σ : Type}

@[simp] theorem identIterator.setOffset_offset (iter : identIterator σ) (i : Nat) :
    (iter.setOffset i).offset = i := by cases iter; rfl

@[simp] theorem identIterator.setOffset_entries (iter : identIterator σ) (i : Nat) :
    (iter.setOffset i).entries = iter.entries := by cases iter; rfl

@[simp] theorem identIterator.setOffset_levels (iter : identIterator σ) (i : Nat) :
    (iter.setOffset i).levels = iter.levels := by cases iter; rfl

@[simp] theorem identIterator.setOffset_path (iter : identIterator σ) (i : Nat) :
    (iter.setOffset i).path = iter.path := by cases iter; rfl

@[simp] theorem identIterator.setOffset_ident (iter : identIterator σ) (i : Nat) :
    (iter.setOffset i).ident = iter.ident := by cases iter; rfl

@[simp] theorem identIterator.setOffset_fs (iter : identIterator σ) (i : Nat) :
    (iter.setOffset i).fs = iter.fs := by cases iter; rfl

@[simp] theorem identIterator.setOffset_child (iter : identIterator σ) (i : Nat) :
    (iter.setOffset i).child = iter.child := by cases iter; rfl

@[simp] theorem identIterator.setChild_offset (iter c : identIterator σ) :
    (iter.setChild c).offset = iter.offset := by cases iter; rfl

@[simp] theorem identIterator.setChild_entries (iter c : identIterator σ) :
    (iter.setChild c).entries = iter.entries := by cases iter; rfl

@[simp] theorem identIterator.setChild_levels (iter c : identIterator σ) :
    (iter.setChild c).levels = iter.levels := by cases iter; rfl

@[simp] theorem identIterator.setChild_path (iter c : identIterator σ) :
    (iter.setChild c).path = iter.path := by cases iter; rfl

@[simp] theorem identIterator.setChild_ident (iter c : identIterator σ) :
    (iter.setChild c).ident = iter.ident := by cases iter; rfl

@[simp] theorem identIterator.setChild_fs (iter c : identIterator σ) :
    (iter.setChild c).fs = iter.fs := by cases iter; rfl

@[simp] theorem identIterator.setChild_child (iter c : identIterator σ) :
    (iter.setChild c).child = some c := by cases iter; rfl

@[simp] theorem identIterator.mk_fs (fs : Fs) (path : List Char)
    (child : Option (identIterator σ)) (ident : blobIdent) (levels : List (layoutLevel σ))
    (entries : List (List Char)) (offset : Nat) :
    (identIterator.mk fs path child ident levels entries offset).fs = fs := rfl

@[simp] theorem identIterator.mk_path (fs : Fs) (path : List Char)
    (child : Option (identIterator σ)) (ident : blobIdent) (levels : List (layoutLevel σ))
    (entries : List (List Char)) (offset : Nat) :
    (identIterator.mk fs path child ident levels entries offset).path = path := rfl

@[simp] theorem identIterator.mk_child (fs : Fs) (path : List Char)
    (child : Option (identIterator σ)) (ident : blobIdent) (levels : List (layoutLevel σ))
    (entries : List (List Char)) (offset : Nat) :
    (identIterator.mk fs path child ident levels entries offset).child = child := rfl

@[simp] theorem identIterator.mk_ident (fs : Fs) (path : List Char)
    (child : Option (identIterator σ)) (ident : blobIdent) (levels : List (layoutLevel σ))
    (entries : List (List Char)) (offset : Nat) :
    (identIterator.mk fs path child ident levels entries offset).ident = ident := rfl

@[simp] theorem identIterator.mk_levels (fs : Fs) (path : List Char)
    (child : Option (identIterator σ)) (ident : blobIdent) (levels : List (layoutLevel σ))
    (entries : List (List Char)) (offset : Nat) :
    (identIterator.mk fs path child ident levels entries offset).levels = levels := rfl

@[simp] theorem identIterator.mk_entries (fs : Fs) (path : List Char)
    (child : Option (identIterator σ)) (ident : blobIdent) (levels : List (layoutLevel σ))
    (entries : List (List Char)) (offset : Nat) :
    (identIterator.mk fs path child ident levels entries offset).entries = entries := rfl

@[simp] theorem identIterator.mk_offset (fs : Fs) (path : List Char)
    (child : Option (identIterator σ)) (ident : blobIdent) (levels : List (layoutLevel σ))
    (entries : List (List Char)) (offset : Nat) :
    (identIterator.mk fs path child ident levels entries offset).offset = offset := rfl

/-- With no level the loop never reaches the call of the child's `next`. -/
theorem advanceLoop_no_level (f g : identIterator σ → σ → Option (Returned σ))
    (n i : Nat) (iter : identIterator σ) (s : σ) (h : iter.levels = []) :
    advanceLoop f n i iter s = advanceLoop g n i iter s := by
  cases n with
  | zero => rfl
  | succ n =>
    simp only [advanceLoop, identIterator.setOffset_levels, h]

/-- The loop only calls the child's `next` on an iterator without child whose levels are
`iter.levels[1:]`. -/
theorem advanceLoop_congr (f g : identIterator σ → σ → Option (Returned σ))
    (levels : List (layoutLevel σ))
    (hfg : ∀ c s, c.child = none → c.levels = levels.drop 1 → f c s = g c s) :
    ∀ (n i : Nat) (iter : identIterator σ) (s : σ), iter.levels = levels →
      advanceLoop f n i iter s = advanceLoop g n i iter s := by
  intro n
  induction n with
  | zero => intros; rfl
  | succ n ih =>
    intro i iter s hl
    have ih' : ∀ j t, advanceLoop f n j (iter.setOffset i) t
        = advanceLoop g n j (iter.setOffset i) t :=
      fun j t => ih j _ t (by simpa using hl)
    have hfg' : ∀ p id es t,
        f (.mk (iter.setOffset i).fs p none id ((iter.setOffset i).levels.drop 1) es 0) t
          = g (.mk (iter.setOffset i).fs p none id ((iter.setOffset i).levels.drop 1) es 0) t :=
      fun p id es t => hfg _ t rfl (by simp [hl])
    simp only [advanceLoop, ih', hfg']

/-- The method `advanceChild` as the source writes it: the iterator created for a
subdirectory is advanced by its method `next`. -/
theorem identIterator.advanceChild_eq (iter : identIterator σ) (s : σ) :
    iter.advanceChild s = advanceChildWith identIterator.next iter s := by
  unfold identIterator.advanceChild
  cases hl : iter.levels with
  | nil =>
    simp only [advanceChildAt, advanceChildWith]
    rw [advanceLoop_no_level _ identIterator.next _ _ _ _ hl]
  | cons lvl rest =>
    simp only [advanceChildAt, advanceChildWith]
    rw [advanceLoop_congr (advanceChildAt rest) identIterator.next (lvl :: rest) _ _ _ _ _ hl]
    intro c s hc hlv
    cases c with
    | mk fs path child ident levels entries offset =>
      simp only [identIterator.child] at hc
      subst hc
      simp only [identIterator.levels, List.drop_succ_cons, List.drop_zero] at hlv
      subst hlv
      simp [identIterator.next, identIterator.advanceChild, identIterator.levels]

end iteratorLemmas

/-- C1 (the code at the failing input). Over the store `/r` whose directory `a` holds only
the filtered-out file `0.ssz.part` and whose directory `b` holds `1.ssz`, every listing and
every populator succeeds and `/r/b/1.ssz` is the one admitted path of depth two; the first
call of `next` reports end-of-stream all the same, and only the call after it returns the
ident of `/r/b/1.ssz`. -/
theorem next_eof_before_admitted_sibling :
    (callNext 2 partStoreIter ()).map (fun rs => rs.map (fun r => (r.ident, r.err, r.visited)))
      = some [(blobIdent.zero, some Error.EOF, none),
              ({ blobIdent.zero with index := 1 }, none, some "/r/b/1.ssz".toList)] := by
  rfl

section loopCases

variable {σ : Type}

/-- The ways in which an iteration of the loop of `advanceChild` at index `i` returns. -/
theorem advanceLoop_succ_cases {f : identIterator σ → σ → Option (Returned σ)} {n i : Nat}
    {iter : identIterator σ} {s : σ} {r : Returned σ}
    (h : advanceLoop f (n + 1) i iter s = some r) :
    ∃ entry lvl others, iter.entries[i]? = some entry ∧ iter.levels = lvl :: others ∧
      ((lvl.filter (filepathJoin iter.path entry) = false ∧
          advanceLoop f n (i + 1) (iter.setOffset i) s = some r) ∨
       (lvl.filter (filepathJoin iter.path entry) = true ∧
          ∃ out s1, (∃ cause,
            lvl.populateIdent iter.ident (filepathJoin iter.path entry) s
              = ((out, some cause), s1) ∧
            r = ⟨out, some (newIdentificationError (filepathJoin iter.path entry) out cause),
                  iter.setOffset i, s1, some (filepathJoin iter.path entry)⟩) ∨
          (lvl.populateIdent iter.ident (filepathJoin iter.path entry) s = ((out, none), s1) ∧
            ((others = [] ∧
                r = ⟨out, none, iter.setOffset i, s1, some (filepathJoin iter.path entry)⟩) ∨
             (others ≠ [] ∧ ∃ e, listDir iter.fs (filepathJoin iter.path entry) = .error e ∧
                r = ⟨blobIdent.zero, some e, iter.setOffset i, s1, none⟩) ∨
             (others ≠ [] ∧ listDir iter.fs (filepathJoin iter.path entry) = .ok [] ∧
                advanceLoop f n (i + 1) (iter.setOffset i) s1 = some r) ∨
             (others ≠ [] ∧ ∃ below rc,
                listDir iter.fs (filepathJoin iter.path entry) = .ok below ∧ below ≠ [] ∧
                f (.mk iter.fs (filepathJoin iter.path entry) none out others below 0) s1
                  = some rc ∧
                r = ⟨rc.ident, rc.err, (iter.setOffset i).setChild rc.iter, rc.state,
                      rc.visited⟩))))) := by
  simp only [advanceLoop, identIterator.setOffset_offset, identIterator.setOffset_entries,
    identIterator.setOffset_levels, identIterator.setOffset_path,
    identIterator.setOffset_ident, identIterator.setOffset_fs] at h
  split at h
  · cases h
  · rename_i entry hentry
    split at h
    · cases h
    · rename_i lvl others hlevels
      refine ⟨entry, lvl, others, hentry, hlevels, ?_⟩
      have hlen : (iter.levels.length = 1) ↔ others = [] := by
        rw [hlevels]; cases others <;> simp
      have hdrop : iter.levels.drop 1 = others := by rw [hlevels]; rfl
      split at h
      · rename_i hf
        exact Or.inl ⟨by simpa using hf, h⟩
      · rename_i hf
        refine Or.inr ⟨by simpa using hf, ?_⟩
        split at h
        · rename_i out cause s1 hpop
          exact ⟨out, s1, Or.inl ⟨cause, hpop, (Option.some.inj h).symm⟩⟩
        · rename_i out s1 hpop
          refine ⟨out, s1, Or.inr ⟨hpop, ?_⟩⟩
          split at h
          · rename_i h1
            exact Or.inl ⟨hlen.mp h1, (Option.some.inj h).symm⟩
          · rename_i h1
            have hne : others ≠ [] := fun hn => h1 (hlen.mpr hn)
            split at h
            · rename_i e hlist
              exact Or.inr (Or.inl ⟨hne, e, hlist, (Option.some.inj h).symm⟩)
            · rename_i below hlist
              split at h
              · rename_i hzero
                have : below = [] := List.length_eq_zero.mp hzero
                subst this
                exact Or.inr (Or.inr (Or.inl ⟨hne, hlist, h⟩))
              · rename_i hzero
                split at h
                · cases h
                · rename_i rc hrc
                  rw [hdrop] at hrc
                  exact Or.inr (Or.inr (Or.inr ⟨hne, below, rc, hlist,
                    fun hn => hzero (by rw [hn]; rfl), hrc, (Option.some.inj h).symm⟩))

/-- A property of the returned values that holds of each way the loop returns holds of
whatever the loop returns. -/
theorem advanceLoop_returned (Q : blobIdent → Option Error → Option (List Char) → Prop)
    (hEOF : Q blobIdent.zero (some Error.EOF) none)
    (hfail : ∀ out cause p, Q out (some (Error.identificationError cause p out)) (some p))
    (hok : ∀ out p, Q out none (some p))
    (hlist : ∀ fs p e, listDir fs p = .error e → Q blobIdent.zero (some e) none)
    (f : identIterator σ → σ → Option (Returned σ))
    (hf : ∀ c s rc, f c s = some rc → Q rc.ident rc.err rc.visited) :
    ∀ (n i : Nat) (iter : identIterator σ) (s : σ) (r : Returned σ),
      advanceLoop f n i iter s = some r → Q r.ident r.err r.visited := by
  intro n
  induction n with
  | zero =>
    intro i iter s r h
    simp only [advanceLoop, Option.some.injEq] at h
    subst h
    exact hEOF
  | succ n ih =>
    intro i iter s r h
    obtain ⟨entry, lvl, others, _, _, hcases⟩ := advanceLoop_succ_cases h
    rcases hcases with ⟨_, hrec⟩ | ⟨_, out, s1, ⟨cause, _, rfl⟩ | ⟨_, hrest⟩⟩
    · exact ih _ _ _ _ hrec
    · exact hfail _ _ _
    · rcases hrest with ⟨_, rfl⟩ | ⟨_, e, hl, rfl⟩ | ⟨_, _, hrec⟩ | ⟨_, below, rc, _, _, hrc, rfl⟩
      · exact hok _ _
      · exact hlist _ _ _ hl
      · exact ih _ _ _ _ hrec
      · exact hf _ _ rc hrc

theorem advanceChildAt_returned (Q : blobIdent → Option Error → Option (List Char) → Prop)
    (hEOF : Q blobIdent.zero (some Error.EOF) none)
    (hfail : ∀ out cause p, Q out (some (Error.identificationError cause p out)) (some p))
    (hok : ∀ out p, Q out none (some p))
    (hlist : ∀ fs p e, listDir fs p = .error e → Q blobIdent.zero (some e) none) :
    ∀ (levels : List (layoutLevel σ)) (iter : identIterator σ) (s : σ) (r : Returned σ),
      advanceChildAt levels iter s = some r → Q r.ident r.err r.visited := by
  intro levels
  induction levels with
  | nil =>
    intro iter s r h
    simp only [advanceChildAt, advanceChildWith] at h
    split at h
    · cases h
    · rename_i r0 hr0
      simp only [Option.some.injEq] at h
      subst h
      exact advanceLoop_returned Q hEOF hfail hok hlist _ (fun _ _ _ hc => by cases hc)
        _ _ _ _ r0 hr0
  | cons lvl rest ih =>
    intro iter s r h
    simp only [advanceChildAt, advanceChildWith] at h
    split at h
    · cases h
    · rename_i r0 hr0
      simp only [Option.some.injEq] at h
      subst h
      exact advanceLoop_returned Q hEOF hfail hok hlist _ ih _ _ _ _ r0 hr0

/-- A property of the returned values that holds of each way `advanceChild` returns, and
that the empty ident keeps together with an error, holds of whatever `next` returns. -/
theorem next_returned (Q : blobIdent → Option Error → Option (List Char) → Prop)
    (hEOF : Q blobIdent.zero (some Error.EOF) none)
    (hfail : ∀ out cause p, Q out (some (Error.identificationError cause p out)) (some p))
    (hok : ∀ out p, Q out none (some p))
    (hlist : ∀ fs p e, listDir fs p = .error e → Q blobIdent.zero (some e) none)
    (hpass : ∀ out e v, Q out (some e) v → Q blobIdent.zero (some e) v) :
    ∀ (iter : identIterator σ) (s : σ) (r : Returned σ),
      iter.next s = some r → Q r.ident r.err r.visited
  | .mk fs path (some child) ident levels entries offset, s, r, h => by
    simp only [identIterator.next] at h
    split at h
    · cases h
    · rename_i rc hrc
      have hchild := next_returned Q hEOF hfail hok hlist hpass child s rc hrc
      split at h
      · rename_i hnone
        simp only [Option.some.injEq] at h
        subst h
        simpa [hnone] using hchild
      · split at h
        · simp only [Option.some.injEq] at h
          subst h
          cases herr : rc.err with
          | none => simp_all
          | some e =>
            rw [herr] at hchild
            exact hpass _ _ _ hchild
        · exact advanceChildAt_returned Q hEOF hfail hok hlist _ _ _ _ h
  | .mk fs path none ident levels entries offset, s, r, h => by
    simp only [identIterator.next] at h
    exact advanceChildAt_returned Q hEOF hfail hok hlist _ _ _ _ h

theorem listDir_error_eq {fs : Fs} {p : List Char} {e : Error} (h : listDir fs p = .error e) :
    ∃ cause message, e = Error.wrap cause message ∧
      (fs.Open p = .error cause ∨
        ∃ top, fs.Open p = .ok top ∧ top.Readdirnames = .error cause) := by
  simp only [listDir] at h
  split at h
  · rename_i err hopen
    simp only [Except.error.injEq] at h
    exact ⟨err, _, h.symm, Or.inl hopen⟩
  · rename_i top hopen
    split at h
    · rename_i err hread
      simp only [Except.error.injEq] at h
      exact ⟨err, _, h.symm, Or.inr ⟨top, hopen, hread⟩⟩
    · cases h

end loopCases

section leafLevel

variable {σ : Type}

theorem callNext_cons {k : Nat} {iter : identIterator σ} {s : σ} {r : Returned σ}
    {rs : List (Returned σ)} (h : iter.next s = some r)
    (hrest : callNext k r.iter r.state = some rs) :
    callNext (k + 1) iter s = some (r :: rs) := by
  simp only [callNext, h, hrest]

/-- One run of the loop at a leaf level: end-of-stream when no item is left, otherwise the
first item, leaving the offset at its entry. -/
theorem advanceLoop_leaf (f : identIterator σ → σ → Option (Returned σ)) (fs : Fs)
    (path : List Char) (ident : blobIdent) (lvl : layoutLevel σ) (entries : List (List Char)) :
    ∀ (n i o : Nat) (s : σ), n = entries.length - i →
      ∃ r j, advanceLoop f n i (.mk fs path none ident [lvl] entries o) s = some r ∧
        r.iter = .mk fs path none ident [lvl] entries j ∧
        ((leafItems lvl path ident (entries.drop i) s = [] ∧ r.ident = blobIdent.zero ∧
            r.err = some Error.EOF) ∨
          leafItems lvl path ident (entries.drop i) s
            = (r.ident, r.err) :: leafItems lvl path ident (entries.drop (j + 1)) r.state) := by
  intro n
  induction n with
  | zero =>
    intro i o s hn
    refine ⟨_, o, rfl, rfl, Or.inl ⟨?_, rfl, rfl⟩⟩
    have : entries.drop i = [] := List.drop_eq_nil_of_le (by omega)
    rw [this]; rfl
  | succ n ih =>
    intro i o s hn
    have hi : i < entries.length := by omega
    have hdrop : entries.drop i = entries[i] :: entries.drop (i + 1) :=
      List.drop_eq_getElem_cons hi
    obtain ⟨r, j, hr, hiter, hitems⟩ := ih (i + 1) i s (by omega)
    simp only [advanceLoop, identIterator.setOffset, identIterator.mk_offset,
      identIterator.mk_entries, identIterator.mk_levels, identIterator.mk_path,
      identIterator.mk_ident, List.getElem?_eq_getElem hi, hdrop, leafItems]
    by_cases hf : lvl.filter (filepathJoin path entries[i]) = true
    · simp only [hf, not_true_eq_false, if_false, if_true]
      rcases hp : lvl.populateIdent ident (filepathJoin path entries[i]) s with ⟨⟨out, e⟩, s1⟩
      cases e with
      | none =>
        simp only [List.length_singleton, if_true]
        exact ⟨_, i, rfl, rfl, Or.inr rfl⟩
      | some cause =>
        exact ⟨_, i, rfl, rfl, Or.inr rfl⟩
    · simp only [hf, not_false_eq_true, if_true, if_false, Bool.false_eq_true]
      exact ⟨r, j, hr, hiter, hitems⟩

/-- A call of `next` at a leaf level. -/
theorem next_leaf (fs : Fs) (path : List Char) (ident : blobIdent) (lvl : layoutLevel σ)
    (entries : List (List Char)) (o : Nat) (s : σ) :
    ∃ r j, (identIterator.mk fs path none ident [lvl] entries o).next s = some r ∧
      r.iter = .mk fs path none ident [lvl] entries j ∧
      ((leafItems lvl path ident (entries.drop o) s = [] ∧ r.ident = blobIdent.zero ∧
          r.err = some Error.EOF) ∨
        leafItems lvl path ident (entries.drop o) s
          = (r.ident, r.err) :: leafItems lvl path ident (entries.drop j) r.state) := by
  obtain ⟨r, j, hr, hiter, hitems⟩ :=
    advanceLoop_leaf (advanceChildAt ([] : List (layoutLevel σ))) fs path ident lvl entries
      (entries.length - o) o o s rfl
  refine ⟨{ r with iter := r.iter.setOffset (r.iter.offset + 1) }, j + 1, ?_, ?_, ?_⟩
  · rw [identIterator.next, identIterator.advanceChild, identIterator.mk_levels, advanceChildAt,
      advanceChildWith, identIterator.mk_entries, identIterator.mk_offset, hr]
  · simp [hiter, identIterator.setOffset]
  · exact hitems

/-- Successive calls of `next` at a leaf level yield the items and then end-of-stream. -/
theorem callNext_leaf (fs : Fs) (path : List Char) (ident : blobIdent) (lvl : layoutLevel σ)
    (entries : List (List Char)) :
    ∀ (k o : Nat) (s : σ), (leafItems lvl path ident (entries.drop o) s).length = k →
      ∃ rs, callNext (k + 1) (identIterator.mk fs path none ident [lvl] entries o) s = some rs ∧
        rs.map (fun r => (r.ident, r.err))
          = leafItems lvl path ident (entries.drop o) s ++ [(blobIdent.zero, some Error.EOF)] := by
  intro k
  induction k with
  | zero =>
    intro o s hk
    obtain ⟨r, j, hr, _, hitems⟩ := next_leaf fs path ident lvl entries o s
    have hnil := List.length_eq_zero.mp hk
    rcases hitems with ⟨_, hid, herr⟩ | hcons
    · refine ⟨[r], ?_, ?_⟩
      · simp [callNext, hr]
      · simp [hnil, hid, herr]
    · rw [hnil] at hcons; cases hcons
  | succ k ih =>
    intro o s hk
    obtain ⟨r, j, hr, hiter, hitems⟩ := next_leaf fs path ident lvl entries o s
    rcases hitems with ⟨hnil, _, _⟩ | hcons
    · rw [hnil] at hk; cases hk
    · rw [hcons] at hk
      obtain ⟨rs, hrs, hmap⟩ := ih j r.state (by simpa using hk)
      refine ⟨r :: rs, ?_, ?_⟩
      · rw [← hiter] at hrs
        exact callNext_cons hr hrs
      · simp [hcons, hmap]

end leafLevel

/-- C2. For an iterator with exactly one level over any entries, the first `k + 1` calls of
`next` (`k` the number of items) yield, in listing order, exactly one item for each entry
whose joined path passes the filter: the populated ident, or the identification failure,
which matches the sentinel `errIdentFailure`, carries the joined path and unwraps to the
populator's cause; the last of these calls reports end-of-stream. -/
theorem next_resumes_after_bad_entry {σ : Type} (fs : Fs) (path : List Char) (ident : blobIdent)
    (lvl : layoutLevel σ) (entries : List (List Char)) (s : σ) :
    (∃ rs, callNext ((leafItems lvl path ident entries s).length + 1)
        (newIterator fs path ident [lvl] entries) s = some rs ∧
      rs.map (fun r => (r.ident, r.err))
        = leafItems lvl path ident entries s ++ [(blobIdent.zero, some Error.EOF)]) ∧
    (∀ item ∈ leafItems lvl path ident entries s, ∀ e, item.2 = some e →
      errorsIs e Error.errIdentFailure = true ∧
      ∃ entry ∈ entries, ∃ cause t,
        lvl.filter (filepathJoin path entry) = true ∧
        (lvl.populateIdent ident (filepathJoin path entry) t).1 = (item.1, some cause) ∧
        e = Error.identificationError cause (filepathJoin path entry) item.1 ∧
        e.Unwrap = some cause) := by
  constructor
  · have h := callNext_leaf fs path ident lvl entries _ 0 s rfl
    simpa [newIterator] using h
  · clear fs
    induction entries generalizing s with
    | nil => intro item hitem; simp [leafItems] at hitem
    | cons entry rest ih =>
      intro item hitem e he
      simp only [leafItems] at hitem
      by_cases hf : lvl.filter (filepathJoin path entry) = true
      · simp only [hf, if_true] at hitem
        rcases hp : lvl.populateIdent ident (filepathJoin path entry) s with ⟨⟨out, err⟩, s1⟩
        rw [hp] at hitem
        cases err with
        | none =>
          simp only [List.mem_cons] at hitem
          rcases hitem with rfl | hrest
          · cases he
          · obtain ⟨h1, entry', hmem, rest'⟩ := ih s1 item hrest e he
            exact ⟨h1, entry', List.mem_cons_of_mem _ hmem, rest'⟩
        | some cause =>
          simp only [List.mem_cons] at hitem
          rcases hitem with rfl | hrest
          · simp only [Option.some.injEq] at he
            subst he
            refine ⟨by simp [errorsIs], entry, List.mem_cons_self _ _, cause, s, hf, ?_, rfl, rfl⟩
            rw [hp]
          · obtain ⟨h1, entry', hmem, rest'⟩ := ih s1 item hrest e he
            exact ⟨h1, entry', List.mem_cons_of_mem _ hmem, rest'⟩
      · simp only [hf, if_false, Bool.false_eq_true] at hitem
        obtain ⟨h1, entry', hmem, rest'⟩ := ih s item hitem e he
        exact ⟨h1, entry', List.mem_cons_of_mem _ hmem, rest'⟩

/-- C2 at the entries `2.ssz`, `9.ssz`, `1.ssz` with six blobs per block: the ident of
index 2, the identification failure of `/r/9.ssz`, the ident of index 1, end-of-stream. -/
theorem next_resumes_after_bad_entry_good_bad_good :
    ∃ rs, callNext 4 (newIterator partStore "/r".toList blobIdent.zero
          [(⟨.ofFunc (populateIndex 6), isSszFile⟩ : layoutLevel Unit)]
          ["2.ssz".toList, "9.ssz".toList, "1.ssz".toList]) () = some rs ∧
      rs.map (fun r => (r.ident, r.err))
        = [({ blobIdent.zero with index := 2 }, none),
           (blobIdent.zero, some (Error.identificationError
              (Error.wrap Error.errIndexOutOfBounds "index=%d") "/r/9.ssz".toList
              blobIdent.zero)),
           ({ blobIdent.zero with index := 1 }, none),
           (blobIdent.zero, some Error.EOF)] :=
  (next_resumes_after_bad_entry partStore "/r".toList blobIdent.zero
    (⟨.ofFunc (populateIndex 6), isSszFile⟩ : layoutLevel Unit)
    ["2.ssz".toList, "9.ssz".toList, "1.ssz".toList] ()).1

section pathCodec

theorem takeWhile_append_stop {α : Type} (p : α → Bool) (l : List α) (a : α) (r : List α)
    (hl : ∀ x ∈ l, p x = true) (ha : p a = false) :
    (l ++ a :: r).takeWhile p = l := by
  induction l with
  | nil => simp [List.takeWhile_cons, ha]
  | cons x l ih =>
    simp only [List.cons_append, List.takeWhile_cons, hl x (List.mem_cons_self _ _), if_true]
    rw [ih (fun y hy => hl y (List.mem_cons_of_mem _ hy))]

theorem takeWhile_all {α : Type} (p : α → Bool) (l : List α) (hl : ∀ x ∈ l, p x = true) :
    l.takeWhile p = l := by
  induction l with
  | nil => rfl
  | cons x l ih =>
    simp only [List.takeWhile_cons, hl x (List.mem_cons_self _ _), if_true]
    rw [ih (fun y hy => hl y (List.mem_cons_of_mem _ hy))]

theorem dropWhile_head_false {α : Type} (p : α → Bool) (l : List α)
    (h : ∀ x, l.head? = some x → p x = false) : l.dropWhile p = l := by
  cases l with
  | nil => rfl
  | cons x l => simp [List.dropWhile_cons, h x rfl]

/-- The basename of `dir/name` is `name`, for a name that is not empty and has no slash. -/
theorem Base_dir_name (dir name : List Char) (hne : name ≠ []) (hslash : '/' ∉ name) :
    Base (dir ++ '/' :: name) = name := by
  have hrev : (dir ++ '/' :: name).reverse = name.reverse ++ '/' :: dir.reverse := by simp
  have hdrop : ((dir ++ '/' :: name).reverse.dropWhile (fun c => decide (c = '/')))
      = name.reverse ++ '/' :: dir.reverse := by
    rw [hrev]
    apply dropWhile_head_false
    intro x hx
    have hx' : x ∈ name.reverse := by
      cases hr : name.reverse with
      | nil => exact absurd (List.reverse_eq_nil_iff.mp hr) hne
      | cons y ys =>
        rw [hr] at hx
        simp only [List.cons_append, List.head?_cons, Option.some.injEq] at hx
        subst hx
        exact List.mem_cons_self _ _
    have : x ≠ '/' := fun h => hslash (h ▸ List.mem_reverse.mp hx')
    simpa using this
  have htake : (name.reverse ++ '/' :: dir.reverse).takeWhile (fun c => decide (c ≠ '/'))
      = name.reverse := by
    apply takeWhile_append_stop
    · intro x hx
      have : x ≠ '/' := fun h => hslash (h ▸ List.mem_reverse.mp hx)
      simpa using this
    · simp
  unfold Base
  rw [if_neg (by simp)]
  simp only [hdrop, List.reverse_reverse, htake]
  rw [if_neg hne]

/-- The basename of a name that is not empty and has no slash is the name. -/
theorem Base_name (name : List Char) (hne : name ≠ []) (hslash : '/' ∉ name) :
    Base name = name := by
  have hdrop : (name.reverse.dropWhile (fun c => decide (c = '/'))) = name.reverse := by
    apply dropWhile_head_false
    intro x hx
    have hx' : x ∈ name.reverse := List.mem_of_mem_head? hx
    have : x ≠ '/' := fun h => hslash (h ▸ List.mem_reverse.mp hx')
    simpa using this
  have htake : name.reverse.takeWhile (fun c => decide (c ≠ '/')) = name.reverse := by
    apply takeWhile_all
    intro x hx
    have : x ≠ '/' := fun h => hslash (h ▸ List.mem_reverse.mp hx)
    simpa using this
  unfold Base
  rw [if_neg hne]
  simp only [hdrop, List.reverse_reverse, htake]
  rw [if_neg hne]

theorem Split_append_sep (sep : Char) (t : List Char) :
    ∀ (l : List Char), sep ∉ l → Split sep (l ++ sep :: t) = l :: Split sep t := by
  intro l
  induction l with
  | nil => intro _; simp [Split]
  | cons c l ih =>
    intro h
    have hc : c ≠ sep := fun hc => h (hc ▸ List.mem_cons_self _ _)
    have hl : sep ∉ l := fun hl => h (List.mem_cons_of_mem _ hl)
    show Split sep (c :: (l ++ sep :: t)) = (c :: l) :: Split sep t
    rw [Split, if_neg hc, ih hl]

theorem Ext_stem_ssz (stem : List Char) : Ext (stem ++ ['.', 's', 's', 'z']) = ['.', 's', 's', 'z'] := by
  simp [Ext, extLoop]

end pathCodec

section treeNames

theorem Split_no_sep (sep : Char) : ∀ (l : List Char), sep ∉ l → Split sep l = [l] := by
  intro l
  induction l with
  | nil => intro _; rfl
  | cons c l ih =>
    intro h
    have hc : c ≠ sep := fun hc => h (hc ▸ List.mem_cons_self _ _)
    have hl : sep ∉ l := fun hl => h (List.mem_cons_of_mem _ hl)
    rw [Split, if_neg hc, ih hl]

theorem stringsJoin_cons_cons (sep a b : List Char) (rest : List (List Char)) :
    stringsJoin sep (a :: b :: rest) = a ++ sep ++ stringsJoin sep (b :: rest) := rfl

theorem stringsJoin_append_singleton (sep e : List Char) :
    ∀ (comps : List (List Char)), comps ≠ [] →
      stringsJoin sep (comps ++ [e]) = stringsJoin sep comps ++ sep ++ e := by
  intro comps
  induction comps with
  | nil => intro h; exact absurd rfl h
  | cons a rest ih =>
    intro _
    cases rest with
    | nil => simp [stringsJoin]
    | cons b rest =>
      rw [List.cons_append, List.cons_append, stringsJoin_cons_cons, ← List.cons_append,
        ih (by simp), stringsJoin_cons_cons]
      simp [List.append_assoc]

/-- Splitting a path of components without slash at its slashes gives the components. -/
theorem Split_stringsJoin :
    ∀ (comps : List (List Char)), comps ≠ [] → (∀ c ∈ comps, '/' ∉ c) →
      Split '/' (stringsJoin ['/'] comps) = comps := by
  intro comps
  induction comps with
  | nil => intro h; exact absurd rfl h
  | cons a rest ih =>
    intro _ hall
    cases rest with
    | nil => exact Split_no_sep _ _ (hall a (List.mem_cons_self _ _))
    | cons b rest =>
      rw [stringsJoin_cons_cons, List.append_assoc, List.singleton_append,
        Split_append_sep _ _ _ (hall a (List.mem_cons_self _ _)),
        ih (by simp) (fun c hc => hall c (List.mem_cons_of_mem _ hc))]

theorem foldl_cleanStep_plain (rooted : Bool) :
    ∀ (comps acc : List (List Char)), (∀ c ∈ comps, plainName c) →
      comps.foldl (cleanStep rooted) acc = comps.reverse ++ acc := by
  intro comps
  induction comps with
  | nil => intro acc _; rfl
  | cons c rest ih =>
    intro acc hall
    obtain ⟨h1, _, h3, h4⟩ := hall c (List.mem_cons_self _ _)
    have hstep : cleanStep rooted acc c = c :: acc := by
      simp [cleanStep, h1, h3, h4]
    rw [List.foldl_cons, hstep, ih _ (fun x hx => hall x (List.mem_cons_of_mem _ hx))]
    simp

theorem stringsJoin_ne_nil (comps : List (List Char)) (hne : comps ≠ [])
    (hall : ∀ c ∈ comps, plainName c) : stringsJoin ['/'] comps ≠ [] := by
  cases comps with
  | nil => exact absurd rfl hne
  | cons a rest =>
    have ha := (hall a (List.mem_cons_self _ _)).1
    cases rest with
    | nil => simpa [stringsJoin] using ha
    | cons b rest => simp [stringsJoin, ha]

theorem stringsJoin_head_ne_slash (comps : List (List Char)) (hne : comps ≠ [])
    (hall : ∀ c ∈ comps, plainName c) :
    HasPrefix (stringsJoin ['/'] comps) ['/'] = false := by
  cases comps with
  | nil => exact absurd rfl hne
  | cons a rest =>
    obtain ⟨h1, h2, _, _⟩ := hall a (List.mem_cons_self _ _)
    cases a with
    | nil => exact absurd rfl h1
    | cons x xs =>
      have hx : x ≠ '/' := fun h => h2 (h ▸ List.mem_cons_self _ _)
      cases rest with
      | nil => simp [stringsJoin, HasPrefix, hx]
      | cons b rest => simp [stringsJoin, HasPrefix, hx]

/-- Joining a plain name to a path of plain components appends the component. -/
theorem filepathJoin_slashPath (rooted : Bool) (comps : List (List Char)) (name : List Char)
    (hroot : rooted = true ∨ comps ≠ []) (hall : ∀ c ∈ comps, plainName c)
    (hname : plainName name) :
    filepathJoin (slashPath rooted comps) name = slashPath rooted (comps ++ [name]) := by
  have hall' : ∀ c ∈ comps ++ [name], plainName c := by
    intro c hc
    rcases List.mem_append.mp hc with h | h
    · exact hall c h
    · rw [List.mem_singleton.mp h]; exact hname
  have hslash : ∀ c ∈ comps ++ [name], '/' ∉ c := fun c hc => (hall' c hc).2.1
  have hfold : ∀ l : List (List Char), (∀ c ∈ l, plainName c) →
      (l.foldl (cleanStep rooted) []).reverse = l := by
    intro l hl
    rw [foldl_cleanStep_plain rooted l [] hl]
    simp
  cases rooted with
  | true =>
    have hne : slashPath true comps ≠ [] := by simp [slashPath]
    have hsplit : (Split '/' ('/' :: (stringsJoin ['/'] comps ++ '/' :: name))).foldl
        (cleanStep true) [] = (comps ++ [name]).reverse := by
      cases comps with
      | nil =>
        have h1 : Split '/' ('/' :: (stringsJoin ['/'] [] ++ '/' :: name))
            = [[], [], name] := by
          simp [Split, stringsJoin, Split_no_sep _ _ hname.2.1]
        rw [h1]
        simp [cleanStep, hname.1, hname.2.2.1, hname.2.2.2]
      | cons a rest =>
        have h0 : stringsJoin ['/'] (a :: rest) ++ '/' :: name
            = stringsJoin ['/'] ((a :: rest) ++ [name]) := by
          rw [stringsJoin_append_singleton _ _ _ (by simp)]
          simp
        have h1 : Split '/' ('/' :: (stringsJoin ['/'] (a :: rest) ++ '/' :: name))
            = [] :: ((a :: rest) ++ [name]) := by
          rw [h0, Split, if_pos rfl, Split_stringsJoin _ (by simp) hslash]
        rw [h1, List.foldl_cons]
        have : cleanStep true [] [] = [] := by simp [cleanStep]
        rw [this, foldl_cleanStep_plain true _ [] hall']
        simp
    simp only [filepathJoin, if_pos hne, Clean]
    have hpre : HasPrefix (slashPath true comps ++ '/' :: name) ['/'] = true := by
      simp [slashPath, HasPrefix]
    rw [hpre]
    simp only [slashPath, if_true, List.cons_append, hsplit, List.reverse_reverse]
  | false =>
    have hcomps : comps ≠ [] := by
      rcases hroot with h | h
      · cases h
      · exact h
    have hne : slashPath false comps ≠ [] := by
      simpa [slashPath] using stringsJoin_ne_nil comps hcomps hall
    have h0 : stringsJoin ['/'] comps ++ '/' :: name = stringsJoin ['/'] (comps ++ [name]) := by
      rw [stringsJoin_append_singleton _ _ _ hcomps]
      simp
    have hpre : HasPrefix (stringsJoin ['/'] (comps ++ [name])) ['/'] = false :=
      stringsJoin_head_ne_slash _ (by simp) hall'
    have hbody : stringsJoin ['/'] (comps ++ [name]) ≠ [] :=
      stringsJoin_ne_nil _ (by simp) hall'
    have hne' : stringsJoin ['/'] comps ≠ [] := by simpa [slashPath] using hne
    simp only [filepathJoin, Clean, slashPath, Bool.false_eq_true, if_false, h0,
      hpre, Split_stringsJoin _ (by simp) hslash, hfold _ hall', hbody]
    rw [if_pos hne']

/-- Paths of different plain components are different. -/
theorem slashPath_injective (rooted : Bool) (l₁ l₂ : List (List Char)) (h₁ : l₁ ≠ [])
    (h₂ : l₂ ≠ []) (hall₁ : ∀ c ∈ l₁, plainName c) (hall₂ : ∀ c ∈ l₂, plainName c)
    (h : slashPath rooted l₁ = slashPath rooted l₂) : l₁ = l₂ := by
  have hjoin : stringsJoin ['/'] l₁ = stringsJoin ['/'] l₂ := by
    cases rooted with
    | true => simpa [slashPath] using h
    | false => simpa [slashPath] using h
  rw [← Split_stringsJoin l₁ h₁ (fun c hc => (hall₁ c hc).2.1),
    ← Split_stringsJoin l₂ h₂ (fun c hc => (hall₂ c hc).2.1), hjoin]

theorem treePaths_cons (fs : Fs) (d : Nat) (path entry : List Char) (rest : List (List Char)) :
    treePaths fs (d + 1) path (entry :: rest)
      = (filepathJoin path entry ::
          (match listDir fs (filepathJoin path entry) with
            | .ok below => treePaths fs d (filepathJoin path entry) below
            | .error _ => []))
        ++ treePaths fs (d + 1) path rest := by
  simp [treePaths, List.flatMap_cons]

/-- Every path of the tree below a directory of plain components is the directory's path
with an entry and further plain names appended. -/
theorem mem_treePaths (fs : Fs)
    (hfs : ∀ p names, listDir fs p = .ok names → names.Nodup ∧ ∀ e ∈ names, plainName e)
    (rooted : Bool) :
    ∀ (d : Nat) (comps entries : List (List Char)) (x : List Char),
      (rooted = true ∨ comps ≠ []) → (∀ c ∈ comps, plainName c) →
      (∀ e ∈ entries, plainName e) →
      x ∈ treePaths fs d (slashPath rooted comps) entries →
      ∃ e ns, e ∈ entries ∧ (∀ c ∈ ns, plainName c) ∧
        x = slashPath rooted (comps ++ e :: ns) := by
  intro d
  induction d with
  | zero => intro comps entries x _ _ _ hx; simp [treePaths] at hx
  | succ d ih =>
    intro comps entries x hroot hall hentries hx
    simp only [treePaths, List.mem_flatMap, List.mem_cons] at hx
    obtain ⟨e, he, hx⟩ := hx
    have hjoin := filepathJoin_slashPath rooted comps e hroot hall (hentries e he)
    rcases hx with hx | hx
    · exact ⟨e, [], he, by simp, by rw [hx, hjoin]⟩
    · split at hx
      · rename_i below hlist
        rw [hjoin] at hx hlist
        have hall' : ∀ c ∈ comps ++ [e], plainName c := by
          intro c hc
          rcases List.mem_append.mp hc with h | h
          · exact hall c h
          · rw [List.mem_singleton.mp h]; exact hentries e he
        obtain ⟨e', ns, he', hns, hx'⟩ := ih (comps ++ [e]) below x (Or.inr (by simp)) hall'
          (hfs _ _ hlist).2 hx
        refine ⟨e, e' :: ns, he, ?_, by rw [hx']; simp⟩
        intro c hc
        rcases List.mem_cons.mp hc with h | h
        · rw [h]; exact (hfs _ _ hlist).2 e' he'
        · exact hns c h
      · cases hx

/-- In a tree of plain names whose listings repeat no name, every node has a path of its
own. -/
theorem treePaths_nodup (fs : Fs)
    (hfs : ∀ p names, listDir fs p = .ok names → names.Nodup ∧ ∀ e ∈ names, plainName e)
    (rooted : Bool) :
    ∀ (d : Nat) (comps entries : List (List Char)),
      (rooted = true ∨ comps ≠ []) → (∀ c ∈ comps, plainName c) →
      entries.Nodup → (∀ e ∈ entries, plainName e) →
      (treePaths fs d (slashPath rooted comps) entries).Nodup := by
  intro d
  induction d with
  | zero => intro comps entries _ _ _ _; simp [treePaths]
  | succ d ih =>
    intro comps entries hroot hall
    induction entries with
    | nil => intro _ _; simp [treePaths]
    | cons e rest ihe =>
      intro hnodup hentries
      have he := hentries e (List.mem_cons_self _ _)
      have hrest : ∀ e' ∈ rest, plainName e' := fun e' h => hentries e' (List.mem_cons_of_mem _ h)
      have hjoin := filepathJoin_slashPath rooted comps e hroot hall he
      have hall' : ∀ c ∈ comps ++ [e], plainName c := by
        intro c hc
        rcases List.mem_append.mp hc with h | h
        · exact hall c h
        · rw [List.mem_singleton.mp h]; exact he
      have hplain : ∀ (e' : List Char) (ns : List (List Char)), plainName e' →
          (∀ c ∈ ns, plainName c) → ∀ c ∈ comps ++ e' :: ns, plainName c := by
        intro e' ns he' hns c hc
        rcases List.mem_append.mp hc with h | h
        · exact hall c h
        · rcases List.mem_cons.mp h with h | h
          · rw [h]; exact he'
          · exact hns c h
      have hfirst : ∀ x ∈ (filepathJoin (slashPath rooted comps) e ::
            (match listDir fs (filepathJoin (slashPath rooted comps) e) with
              | .ok below => treePaths fs d (filepathJoin (slashPath rooted comps) e) below
              | .error _ => [])),
          ∃ ns, (∀ c ∈ ns, plainName c) ∧ x = slashPath rooted (comps ++ e :: ns) := by
        intro x hx
        have := mem_treePaths fs hfs rooted (d + 1) comps [e] x hroot hall
          (by simpa using he) (by simpa [treePaths] using hx)
        obtain ⟨e', ns, he', hns, hx'⟩ := this
        rw [List.mem_singleton.mp he'] at hx'
        exact ⟨ns, hns, hx'⟩
      rw [treePaths_cons, List.nodup_append]
      refine ⟨?_, ihe (List.nodup_cons.mp hnodup).2 hrest, ?_⟩
      · rw [List.nodup_cons]
        constructor
        · intro hmem
          split at hmem
          · rename_i below hlist
            rw [hjoin] at hmem hlist
            obtain ⟨e', ns, he', hns, hx'⟩ := mem_treePaths fs hfs rooted d (comps ++ [e]) below
              _ (Or.inr (by simp)) hall' (hfs _ _ hlist).2 hmem
            have := slashPath_injective rooted _ _ (by simp) (by simp) hall'
              (by
                intro c hc
                rw [List.append_assoc] at hc
                exact hplain e (e' :: ns) he (by
                  intro c' hc'
                  rcases List.mem_cons.mp hc' with h | h
                  · rw [h]; exact (hfs _ _ hlist).2 e' he'
                  · exact hns c' h) c (by simpa using hc))
              hx'
            have hlen := congrArg List.length this
            simp at hlen
          · cases hmem
        · split
          · rename_i below hlist
            rw [hjoin] at hlist ⊢
            exact ih (comps ++ [e]) below (Or.inr (by simp)) hall' (hfs _ _ hlist).1
              (hfs _ _ hlist).2
          · exact List.nodup_nil
      · intro x hx1 hx2
        obtain ⟨ns, hns, hxe⟩ := hfirst x hx1
        obtain ⟨e', ns', he', hns', hxe'⟩ := mem_treePaths fs hfs rooted (d + 1) comps rest x
          hroot hall hrest hx2
        have := slashPath_injective rooted _ _ (by simp) (by simp) (hplain e ns he hns)
          (hplain e' ns' (hrest e' he') hns') (hxe.symm.trans hxe')
        have hee : e = e' := by
          have h2 := List.append_cancel_left this
          exact (List.cons.inj h2).1
        exact (List.nodup_cons.mp hnodup).1 (hee ▸ he')

end treeNames

section noReemission

variable {σ : Type}

theorem count_treePaths_drop_succ (fs : Fs) (d : Nat) (path : List Char)
    (entries : List (List Char)) (i : Nat) (x : List Char) :
    (treePaths fs d path (entries.drop (i + 1))).count x
      ≤ (treePaths fs d path (entries.drop i)).count x := by
  cases d with
  | zero => simp [treePaths]
  | succ d =>
    by_cases hi : i < entries.length
    · rw [List.drop_eq_getElem_cons hi, treePaths_cons, List.count_append]
      omega
    · rw [List.drop_eq_nil_of_le (by omega), List.drop_eq_nil_of_le (by omega)]

theorem count_treePaths_drop_le (fs : Fs) (d : Nat) (path : List Char)
    (entries : List (List Char)) (x : List Char) :
    ∀ (k i : Nat), (treePaths fs d path (entries.drop (i + k))).count x
      ≤ (treePaths fs d path (entries.drop i)).count x := by
  intro k
  induction k with
  | zero => intro i; simp
  | succ k ih =>
    intro i
    have h1 := count_treePaths_drop_succ fs d path entries (i + k) x
    have h2 := ih i
    rw [← Nat.add_assoc]
    omega

/-- The paths pending at an iterator: those of its child and those of its entries. -/
theorem pending_eq (iter : identIterator σ) :
    pending iter
      = pendingBelow iter.child
        ++ treePaths iter.fs iter.levels.length iter.path (iter.entries.drop iter.offset) := by
  cases iter with
  | mk fs path child ident levels entries offset =>
    cases child <;> simp [pending, pendingBelow]

theorem pending_setOffset (iter : identIterator σ) (j : Nat) :
    pending (iter.setOffset j)
      = pendingBelow iter.child
        ++ treePaths iter.fs iter.levels.length iter.path (iter.entries.drop j) := by
  rw [pending_eq]; simp

theorem pending_setChild_setOffset (iter c : identIterator σ) (j : Nat) :
    pending ((iter.setChild c).setOffset j)
      = pending c
        ++ treePaths iter.fs iter.levels.length iter.path (iter.entries.drop j) := by
  rw [pending_eq]; simp [pendingBelow]

/-- One run of the loop takes what it reports, and what it leaves pending, out of what
was pending: the paths of the child and of the entries from `i` on. -/
theorem advanceLoop_pending (f : identIterator σ → σ → Option (Returned σ))
    (hf : ∀ c s r, f c s = some r →
      ∀ x, (r.visited.toList ++ pending r.iter).count x ≤ (pending c).count x)
    (x : List Char) :
    ∀ (n i : Nat) (iter : identIterator σ) (s : σ) (r : Returned σ),
      i ≤ iter.offset + 1 → advanceLoop f n i iter s = some r →
      (r.visited.toList ++ pending (r.iter.setOffset (r.iter.offset + 1))).count x
        ≤ (pendingBelow iter.child
            ++ treePaths iter.fs iter.levels.length iter.path (iter.entries.drop i)).count x := by
  intro n
  induction n with
  | zero =>
    intro i iter s r hi h
    simp only [advanceLoop, Option.some.injEq] at h
    subst h
    have hk : iter.offset + 1 = i + (iter.offset + 1 - i) := by omega
    have := count_treePaths_drop_le iter.fs iter.levels.length iter.path iter.entries x
      (iter.offset + 1 - i) i
    rw [← hk] at this
    simp only [Option.toList, List.nil_append, pending_setOffset, List.count_append]
    omega
  | succ n ih =>
    intro i iter s r hi h
    have hstep := count_treePaths_drop_succ iter.fs iter.levels.length iter.path iter.entries i x
    have hcont : ∀ t r, advanceLoop f n (i + 1) (iter.setOffset i) t = some r →
        (r.visited.toList ++ pending (r.iter.setOffset (r.iter.offset + 1))).count x
          ≤ (pendingBelow iter.child
              ++ treePaths iter.fs iter.levels.length iter.path (iter.entries.drop i)).count x := by
      intro t r ht
      have := ih (i + 1) (iter.setOffset i) t r (by simp) ht
      simp only [identIterator.setOffset_child, identIterator.setOffset_fs,
        identIterator.setOffset_levels, identIterator.setOffset_path,
        identIterator.setOffset_entries, List.count_append] at this ⊢
      omega
    simp only [advanceLoop, identIterator.setOffset_offset, identIterator.setOffset_entries,
      identIterator.setOffset_levels, identIterator.setOffset_path,
      identIterator.setOffset_ident, identIterator.setOffset_fs] at h
    split at h
    · cases h
    · rename_i entry hentry
      have hlt : i < iter.entries.length := by
        rcases Nat.lt_or_ge i iter.entries.length with h1 | h1
        · exact h1
        · rw [List.getElem?_eq_none h1] at hentry; cases hentry
      have hentry' : iter.entries[i] = entry := by
        rw [List.getElem?_eq_getElem hlt] at hentry
        exact Option.some.inj hentry
      split at h
      · cases h
      · rename_i nextLevel others hlevels
        have hdrop : treePaths iter.fs iter.levels.length iter.path (iter.entries.drop i)
            = (filepathJoin iter.path entry ::
                (match listDir iter.fs (filepathJoin iter.path entry) with
                  | .ok below => treePaths iter.fs others.length (filepathJoin iter.path entry) below
                  | .error _ => []))
              ++ treePaths iter.fs iter.levels.length iter.path (iter.entries.drop (i + 1)) := by
          rw [List.drop_eq_getElem_cons hlt, hentry', hlevels, List.length_cons, treePaths_cons]
        split at h
        · exact hcont _ _ h
        · rw [hdrop]
          split at h
          · simp only [Option.some.injEq] at h
            subst h
            simp only [Option.toList, List.singleton_append, pending_setOffset,
              identIterator.setOffset_child, identIterator.setOffset_fs,
              identIterator.setOffset_levels, identIterator.setOffset_path,
              identIterator.setOffset_entries, identIterator.setOffset_offset,
              List.count_append, List.count_cons, List.cons_append, List.count_nil]
            omega
          · split at h
            · simp only [Option.some.injEq] at h
              subst h
              simp only [Option.toList, List.singleton_append, pending_setOffset,
                identIterator.setOffset_child, identIterator.setOffset_fs,
                identIterator.setOffset_levels, identIterator.setOffset_path,
                identIterator.setOffset_entries, identIterator.setOffset_offset,
                List.count_append, List.count_cons, List.cons_append, List.count_nil]
              omega
            · split at h
              · simp only [Option.some.injEq] at h
                subst h
                simp only [Option.toList, List.nil_append, pending_setOffset,
                  identIterator.setOffset_child, identIterator.setOffset_fs,
                  identIterator.setOffset_levels, identIterator.setOffset_path,
                  identIterator.setOffset_entries, identIterator.setOffset_offset,
                  List.count_append, List.count_cons, List.cons_append, List.count_nil]
                omega
              · rename_i below hlist
                split at h
                · rw [← hdrop]; exact hcont _ _ h
                · split at h
                  · cases h
                  · rename_i rc hrc
                    simp only [Option.some.injEq] at h
                    subst h
                    have hchild := hf _ _ _ hrc x
                    simp only [pending, hlevels, List.drop_succ_cons, List.drop_zero,
                      List.count_append] at hchild
                    simp only [pending_setChild_setOffset, identIterator.setOffset_child,
                      identIterator.setOffset_fs, identIterator.setOffset_levels,
                      identIterator.setOffset_path, identIterator.setOffset_entries,
                      identIterator.setOffset_offset, identIterator.setChild_offset, hlist,
                      List.count_append, List.count_cons, List.cons_append, List.count_nil]
                    omega

theorem advanceChildWith_pending (f : identIterator σ → σ → Option (Returned σ))
    (hf : ∀ c s r, f c s = some r →
      ∀ x, (r.visited.toList ++ pending r.iter).count x ≤ (pending c).count x)
    (iter : identIterator σ) (s : σ) (r : Returned σ) (h : advanceChildWith f iter s = some r)
    (x : List Char) :
    (r.visited.toList ++ pending r.iter).count x ≤ (pending iter).count x := by
  simp only [advanceChildWith] at h
  split at h
  · cases h
  · rename_i r0 hr0
    simp only [Option.some.injEq] at h
    subst h
    have := advanceLoop_pending f hf x _ _ _ _ _ (by omega) hr0
    rw [pending_eq iter]
    exact this

theorem advanceChildAt_pending :
    ∀ (levels : List (layoutLevel σ)) (iter : identIterator σ) (s : σ) (r : Returned σ),
      advanceChildAt levels iter s = some r →
      ∀ x, (r.visited.toList ++ pending r.iter).count x ≤ (pending iter).count x := by
  intro levels
  induction levels with
  | nil =>
    intro iter s r h x
    exact advanceChildWith_pending _ (fun _ _ _ hc => by cases hc) iter s r h x
  | cons lvl rest ih =>
    intro iter s r h x
    exact advanceChildWith_pending _ ih iter s r h x

/-- A call of `next` takes what it reports, and what it leaves pending, out of what was
pending. -/
theorem next_pending :
    ∀ (iter : identIterator σ) (s : σ) (r : Returned σ), iter.next s = some r →
      ∀ x, (r.visited.toList ++ pending r.iter).count x ≤ (pending iter).count x
  | .mk fs path (some child) ident levels entries offset, s, r, h, x => by
    simp only [identIterator.next] at h
    split at h
    · cases h
    · rename_i rc hrc
      have hchild := next_pending child s rc hrc x
      simp only [List.count_append] at hchild
      split at h
      · simp only [Option.some.injEq] at h
        subst h
        simp only [pending, List.count_append]
        omega
      · split at h
        · simp only [Option.some.injEq] at h
          subst h
          simp only [pending, List.count_append]
          omega
        · have := advanceChildAt_pending _ _ _ _ h x
          simp only [pending, List.count_append] at this ⊢
          omega
  | .mk fs path none ident levels entries offset, s, r, h, x => by
    simp only [identIterator.next] at h
    exact advanceChildAt_pending _ _ _ _ h x

theorem callNext_pending :
    ∀ (k : Nat) (iter : identIterator σ) (s : σ) (rs : List (Returned σ)),
      callNext k iter s = some rs →
      ∀ x, (visitedPaths rs).count x ≤ (pending iter).count x := by
  intro k
  induction k with
  | zero =>
    intro iter s rs h x
    simp only [callNext, Option.some.injEq] at h
    subst h
    simp [visitedPaths]
  | succ k ih =>
    intro iter s rs h x
    simp only [callNext] at h
    split at h
    · cases h
    · rename_i r hr
      split at h
      · cases h
      · rename_i rest hrest
        simp only [Option.some.injEq] at h
        subst h
        have h1 := next_pending iter s r hr x
        have h2 := ih r.iter r.state rest hrest x
        have h3 : visitedPaths (r :: rest) = r.visited.toList ++ visitedPaths rest := by
          unfold visitedPaths
          cases hv : r.visited <;> simp [List.filterMap_cons, hv]
        rw [h3]
        simp only [List.count_append] at h1 ⊢
        omega

theorem advanceLoop_offset_ge (f : identIterator σ → σ → Option (Returned σ)) (o : Nat) :
    ∀ (n i : Nat) (iter : identIterator σ) (s : σ) (r : Returned σ),
      o ≤ i → o ≤ iter.offset → advanceLoop f n i iter s = some r → o ≤ r.iter.offset := by
  intro n
  induction n with
  | zero =>
    intro i iter s r _ ho h
    simp only [advanceLoop, Option.some.injEq] at h
    subst h
    exact ho
  | succ n ih =>
    intro i iter s r hi ho h
    obtain ⟨entry, lvl, others, _, _, hcases⟩ := advanceLoop_succ_cases h
    rcases hcases with ⟨_, hrec⟩ | ⟨_, out, s1, ⟨cause, _, rfl⟩ | ⟨_, hrest⟩⟩
    · exact ih _ _ _ _ (by omega) (by simpa using hi) hrec
    · simpa using hi
    · rcases hrest with ⟨_, rfl⟩ | ⟨_, e, hl, rfl⟩ | ⟨_, _, hrec⟩ | ⟨_, below, rc, _, _, hrc, rfl⟩
      · simpa using hi
      · simpa using hi
      · exact ih _ _ _ _ (by omega) (by simpa using hi) hrec
      · simpa using hi

/-- Every call of `advanceChild` leaves the offset strictly greater than it was. -/
theorem advanceChild_offset_lt (iter : identIterator σ) (s : σ) (r : Returned σ)
    (h : iter.advanceChild s = some r) : iter.offset < r.iter.offset := by
  have key : ∀ f, advanceChildWith f iter s = some r → iter.offset < r.iter.offset := by
    intro f hf
    simp only [advanceChildWith] at hf
    split at hf
    · cases hf
    · rename_i r0 hr0
      simp only [Option.some.injEq] at hf
      subst hf
      have := advanceLoop_offset_ge f iter.offset _ _ _ _ _ (le_refl _) (le_refl _) hr0
      simp only [identIterator.setOffset_offset]
      omega
  unfold identIterator.advanceChild at h
  cases hl : iter.levels with
  | nil => rw [hl] at h; exact key _ h
  | cons lvl rest => rw [hl] at h; exact key _ h

/-- A list that holds each path at most as often as a list without repetition has no
repetition. -/
theorem nodup_of_count_le (l₁ l₂ : List (List Char)) (h : ∀ x, l₁.count x ≤ l₂.count x)
    (hn : l₂.Nodup) : l₁.Nodup := by
  have conv : ∀ (x : List Char) (l : List (List Char)),
      l.count x = @List.count _ instBEqOfDecidableEq x l := by
    intro x l
    induction l with
    | nil => rfl
    | cons a l ih => simp only [List.count_cons, ih, beq_iff_eq]
  rw [List.nodup_iff_count_le_one] at hn ⊢
  intro x
  have h1 := h x
  have h2 := hn x
  rw [conv] at h1
  rw [conv] at h1
  omega

theorem callNext_forall (P : Returned σ → Prop)
    (hP : ∀ (iter : identIterator σ) s r, iter.next s = some r → P r) :
    ∀ (k : Nat) (iter : identIterator σ) (s : σ) (rs : List (Returned σ)),
      callNext k iter s = some rs → ∀ r ∈ rs, P r := by
  intro k
  induction k with
  | zero =>
    intro iter s rs h r hr
    simp only [callNext, Option.some.injEq] at h
    subst h
    cases hr
  | succ k ih =>
    intro iter s rs h r hr
    simp only [callNext] at h
    split at h
    · cases h
    · rename_i r1 hr1
      split at h
      · cases h
      · rename_i rest hrest
        simp only [Option.some.injEq] at h
        subst h
        rcases List.mem_cons.mp hr with rfl | hmem
        · exact hP _ _ _ hr1
        · exact ih _ _ _ hrest _ hmem

end noReemission

/-- C3. Over a tree whose directory listings contain no repeated names (the names being
plain: not empty, without slash, neither `.` nor `..`, and the root a path of plain
components), any number of calls of `next` on a new iterator, those after an error or
after end-of-stream included, never reports a path twice: the paths at which an ident or
an identification failure was returned are pairwise distinct. `visited` is the path of the
result: it is absent exactly for the other errors and it is the path that an
identification failure carries. The reason is that every call of `advanceChild` leaves
the offset of its iterator strictly greater than before. -/
theorem next_never_reports_a_path_twice {σ : Type} (fs : Fs) (path : List Char)
    (ident : blobIdent) (levels : List (layoutLevel σ)) (entries : List (List Char)) (s : σ)
    (k : Nat) (rs : List (Returned σ))
    (hpath : plainPath path)
    (hentries : entries.Nodup ∧ ∀ e ∈ entries, plainName e)
    (hfs : ∀ p names, listDir fs p = .ok names → names.Nodup ∧ ∀ e ∈ names, plainName e)
    (hcalls : callNext k (newIterator fs path ident levels entries) s = some rs) :
    (visitedPaths rs).Nodup ∧
    (∀ r ∈ rs,
      (r.visited = none ↔
        ∃ e, r.err = some e ∧ ∀ cause p out, e ≠ Error.identificationError cause p out) ∧
      ∀ cause p out, r.err = some (Error.identificationError cause p out) →
        r.visited = some p) ∧
    (∀ (iter : identIterator σ) (t : σ) (r : Returned σ),
      iter.advanceChild t = some r → iter.offset < r.iter.offset) := by
  refine ⟨?_, ?_, advanceChild_offset_lt⟩
  · obtain ⟨rooted, comps, hroot, hall, rfl⟩ := hpath
    have htree := treePaths_nodup fs hfs rooted levels.length comps entries hroot hall
      hentries.1 hentries.2
    refine nodup_of_count_le _ _ ?_ htree
    intro x
    have h1 := callNext_pending k _ s rs hcalls x
    simpa only [newIterator, pending, List.drop_zero] using h1
  · refine callNext_forall _ ?_ k _ s rs hcalls
    intro iter t r hr
    refine next_returned
      (fun _ err v => (v = none ↔
          ∃ e, err = some e ∧ ∀ cause p out, e ≠ Error.identificationError cause p out) ∧
        ∀ cause p out, err = some (Error.identificationError cause p out) → v = some p)
      ?_ ?_ ?_ ?_ ?_ iter t r hr
    · simp
    · intro out cause p
      simp
    · intro out p
      simp
    · intro fs' p e hl
      obtain ⟨cause, message, rfl, _⟩ := listDir_error_eq hl
      simp
    · intro out e v h
      exact h

/-- C3 at the store `/r`: three calls, of which the first reports end-of-stream, report
`/r/b/1.ssz` once. -/
theorem next_never_reports_a_path_twice_partStore :
    ∃ rs, callNext 3 partStoreIter () = some rs ∧ (visitedPaths rs).Nodup :=
  ⟨(callNext 3 partStoreIter ()).get rfl, (Option.some_get _).symm,
    (next_never_reports_a_path_twice partStore "/r".toList blobIdent.zero dirThenIndex
      ["a".toList, "b".toList] () 3 _
      ⟨true, ["r".toList], Or.inl rfl, by decide, rfl⟩
      (by decide)
      (by
        intro p names h
        simp only [listDir, partStore] at h
        split at h
        · cases h
        · rename_i top htop
          split at htop
          · cases htop
            simp only [dirFile] at h
            cases h
            decide
          · split at htop
            · cases htop
              simp only [dirFile] at h
              cases h
              decide
            · split at htop
              · cases htop
                simp only [dirFile] at h
                cases h
                decide
              · split at htop
                · cases htop
                  simp only [regularFile] at h
                  cases h
                · cases htop)
      (Option.some_get _).symm).1⟩

section soundness

variable {σ : Type}

theorem sameDirectory_refl (a : identIterator σ) : sameDirectory a a :=
  ⟨rfl, rfl, rfl, rfl, rfl⟩

theorem sameDirectory_symm {a b : identIterator σ} (h : sameDirectory a b) :
    sameDirectory b a :=
  ⟨h.1.symm, h.2.1.symm, h.2.2.1.symm, h.2.2.2.1.symm, h.2.2.2.2.symm⟩

theorem sameDirectory_trans {a b c : identIterator σ} (h1 : sameDirectory a b)
    (h2 : sameDirectory b c) : sameDirectory a c :=
  ⟨h1.1.trans h2.1, h1.2.1.trans h2.2.1, h1.2.2.1.trans h2.2.2.1,
    h1.2.2.2.1.trans h2.2.2.2.1, h1.2.2.2.2.trans h2.2.2.2.2⟩

theorem sameDirectory_setOffset (a : identIterator σ) (i : Nat) :
    sameDirectory (a.setOffset i) a := by
  simp [sameDirectory]

theorem sameDirectory_setChild (a c : identIterator σ) : sameDirectory (a.setChild c) a := by
  simp [sameDirectory]

theorem emittable_of_sameDirectory {a b : identIterator σ} (h : sameDirectory a b)
    {out : blobIdent} (ha : emittable a out) : emittable b out := by
  obtain ⟨h1, h2, h3, h4, h5⟩ := h
  unfold emittable at *
  rw [← h1, ← h2, ← h3, ← h4, ← h5]
  exact ha

theorem childrenLinked_iff (iter : identIterator σ) :
    childrenLinked iter ↔
      ∀ c, iter.child = some c → (∀ out, emittable c out → emittable iter out) ∧
        childrenLinked c := by
  cases iter with
  | mk fs path child ident levels entries offset =>
    cases child with
    | none => simp [childrenLinked]
    | some c => simp [childrenLinked]

theorem childrenLinked_setOffset {iter : identIterator σ} (h : childrenLinked iter) (i : Nat) :
    childrenLinked (iter.setOffset i) := by
  rw [childrenLinked_iff] at h ⊢
  intro c hc
  simp only [identIterator.setOffset_child] at hc
  obtain ⟨h1, h2⟩ := h c hc
  exact ⟨fun out ho =>
    emittable_of_sameDirectory (sameDirectory_symm (sameDirectory_setOffset iter i))
      (h1 out ho), h2⟩

/-- What the loop returns without error is populated along a path below the iterator, and
the loop keeps the children linked and the directory the same. -/
theorem advanceLoop_sound (levels : List (layoutLevel σ))
    (f : identIterator σ → σ → Option (Returned σ))
    (hf : ∀ c s rc, c.levels = levels.drop 1 → c.child = none → f c s = some rc →
      (rc.err = none → emittable c rc.ident) ∧ childrenLinked rc.iter ∧
        sameDirectory rc.iter c) :
    ∀ (n i : Nat) (iter : identIterator σ) (s : σ) (r : Returned σ),
      iter.levels = levels → childrenLinked iter → advanceLoop f n i iter s = some r →
      (r.err = none → emittable iter r.ident) ∧ childrenLinked r.iter ∧
        sameDirectory r.iter iter := by
  intro n
  induction n with
  | zero =>
    intro i iter s r _ hlinked h
    simp only [advanceLoop, Option.some.injEq] at h
    subst h
    exact ⟨fun hc => (by cases hc), hlinked, sameDirectory_refl _⟩
  | succ n ih =>
    intro i iter s r hlv hlinked h
    have hcont : ∀ t, advanceLoop f n (i + 1) (iter.setOffset i) t = some r →
        (r.err = none → emittable iter r.ident) ∧ childrenLinked r.iter ∧
          sameDirectory r.iter iter := by
      intro t ht
      obtain ⟨h1, h2, h3⟩ := ih (i + 1) (iter.setOffset i) t r (by simpa using hlv)
        (childrenLinked_setOffset hlinked i) ht
      exact ⟨fun he => emittable_of_sameDirectory (sameDirectory_setOffset iter i) (h1 he), h2,
        sameDirectory_trans h3 (sameDirectory_setOffset iter i)⟩
    obtain ⟨entry, lvl, others, hentry, hlevels, hcases⟩ := advanceLoop_succ_cases h
    have hmem : entry ∈ iter.entries := by
      rcases Nat.lt_or_ge i iter.entries.length with h1 | h1
      · rw [List.getElem?_eq_getElem h1] at hentry
        exact Option.some.inj hentry ▸ List.getElem_mem h1
      · rw [List.getElem?_eq_none h1] at hentry; cases hentry
    rcases hcases with ⟨_, hrec⟩ | ⟨hfilter, out, s1, ⟨cause, _, rfl⟩ | ⟨hpop, hrest⟩⟩
    · exact hcont _ hrec
    · exact ⟨fun hc => (by cases hc), childrenLinked_setOffset hlinked i,
        sameDirectory_setOffset iter i⟩
    · rcases hrest with ⟨hnil, rfl⟩ | ⟨_, e, hl, rfl⟩ | ⟨_, _, hrec⟩ |
        ⟨hne, below, rc, hlist, _, hrc, rfl⟩
      · refine ⟨fun _ => ?_, childrenLinked_setOffset hlinked i, sameDirectory_setOffset iter i⟩
        refine ⟨[entry], ?_⟩
        rw [hlevels]
        exact ⟨entry, [], rfl, hmem, hfilter, s, out, by rw [hpop], Or.inl ⟨hnil, rfl, rfl⟩⟩
      · exact ⟨fun hc => (by cases hc), childrenLinked_setOffset hlinked i,
          sameDirectory_setOffset iter i⟩
      · exact hcont _ hrec
      · obtain ⟨h1, h2, h3⟩ :=
          hf (.mk iter.fs (filepathJoin iter.path entry) none out others below 0) s1 rc
            (by simp [← hlv, hlevels]) rfl hrc
        have hup : ∀ o, emittable rc.iter o → emittable iter o := by
          intro o ho
          obtain ⟨names, hnames⟩ := emittable_of_sameDirectory h3 ho
          simp only [identIterator.mk_fs, identIterator.mk_levels, identIterator.mk_path,
            identIterator.mk_ident, identIterator.mk_entries] at hnames
          refine ⟨entry :: names, ?_⟩
          rw [hlevels]
          exact ⟨entry, names, rfl, hmem, hfilter, s, out, by rw [hpop],
            Or.inr ⟨hne, below, hlist, hnames⟩⟩
        refine ⟨fun he => hup _ (emittable_of_sameDirectory (sameDirectory_symm h3) (h1 he)),
          ?_, sameDirectory_trans (sameDirectory_setChild _ _) (sameDirectory_setOffset iter i)⟩
        rw [childrenLinked_iff]
        intro c hc
        simp only [identIterator.setChild_child, Option.some.injEq] at hc
        subst hc
        exact ⟨fun o ho => emittable_of_sameDirectory
          (sameDirectory_symm (sameDirectory_trans (sameDirectory_setChild _ _)
            (sameDirectory_setOffset iter i))) (hup o ho), h2⟩

theorem advanceChildWith_sound (levels : List (layoutLevel σ))
    (f : identIterator σ → σ → Option (Returned σ))
    (hf : ∀ c s rc, c.levels = levels.drop 1 → c.child = none → f c s = some rc →
      (rc.err = none → emittable c rc.ident) ∧ childrenLinked rc.iter ∧
        sameDirectory rc.iter c)
    (iter : identIterator σ) (s : σ) (r : Returned σ)
    (hlv : iter.levels = levels) (hlinked : childrenLinked iter)
    (h : advanceChildWith f iter s = some r) :
    (r.err = none → emittable iter r.ident) ∧ childrenLinked r.iter ∧
      sameDirectory r.iter iter := by
  simp only [advanceChildWith] at h
  split at h
  · cases h
  · rename_i r0 hr0
    simp only [Option.some.injEq] at h
    subst h
    obtain ⟨h1, h2, h3⟩ := advanceLoop_sound levels f hf _ _ _ _ r0 hlv hlinked hr0
    exact ⟨h1, childrenLinked_setOffset h2 _,
      sameDirectory_trans (sameDirectory_setOffset _ _) h3⟩

theorem advanceChildAt_sound :
    ∀ (levels : List (layoutLevel σ)) (iter : identIterator σ) (s : σ) (r : Returned σ),
      iter.levels = levels → childrenLinked iter → advanceChildAt levels iter s = some r →
      (r.err = none → emittable iter r.ident) ∧ childrenLinked r.iter ∧
        sameDirectory r.iter iter := by
  intro levels
  induction levels with
  | nil =>
    intro iter s r hlv hlinked h
    exact advanceChildWith_sound [] _ (fun _ _ _ _ _ hc => by cases hc) iter s r hlv hlinked h
  | cons lvl rest ih =>
    intro iter s r hlv hlinked h
    refine advanceChildWith_sound (lvl :: rest) _ ?_ iter s r hlv hlinked h
    intro c t rc hc hnone hrc
    have hlinked' : childrenLinked c := by
      rw [childrenLinked_iff]
      intro c' hc'
      rw [hnone] at hc'
      cases hc'
    exact ih c t rc (by simpa using hc) hlinked' hrc

/-- What `next` returns without error is populated along a path below the iterator. -/
theorem next_sound :
    ∀ (iter : identIterator σ) (s : σ) (r : Returned σ),
      childrenLinked iter → iter.next s = some r →
      (r.err = none → emittable iter r.ident) ∧ childrenLinked r.iter ∧
        sameDirectory r.iter iter
  | .mk fs path (some child) ident levels entries offset, s, r, hlinked, h => by
    simp only [identIterator.next] at h
    obtain ⟨hlink, hchild⟩ := hlinked
    split at h
    · cases h
    · rename_i rc hrc
      obtain ⟨h1, h2, h3⟩ := next_sound child s rc hchild hrc
      have hlinked' : childrenLinked
          (identIterator.mk fs path (some rc.iter) ident levels entries offset) :=
        ⟨fun o ho => hlink o (emittable_of_sameDirectory h3 ho), h2⟩
      split at h
      · rename_i hnone
        simp only [Option.some.injEq] at h
        subst h
        exact ⟨fun _ => hlink _ (h1 hnone), hlinked', sameDirectory_refl _⟩
      · split at h
        · rename_i hsome _
          simp only [Option.some.injEq] at h
          subst h
          exact ⟨fun he => absurd he hsome, hlinked', sameDirectory_refl _⟩
        · exact advanceChildAt_sound _
            (identIterator.mk fs path (some rc.iter) ident levels entries offset) _ _ rfl
            hlinked' h
  | .mk fs path none ident levels entries offset, s, r, hlinked, h => by
    simp only [identIterator.next] at h
    exact advanceChildAt_sound _ _ _ _ rfl hlinked h

theorem callNext_sound :
    ∀ (k : Nat) (iter : identIterator σ) (s : σ) (rs : List (Returned σ)),
      childrenLinked iter → callNext k iter s = some rs →
      ∀ r ∈ rs, r.err = none → emittable iter r.ident := by
  intro k
  induction k with
  | zero =>
    intro iter s rs _ h r hr
    simp only [callNext, Option.some.injEq] at h
    subst h
    cases hr
  | succ k ih =>
    intro iter s rs hlinked h r hr
    simp only [callNext] at h
    split at h
    · cases h
    · rename_i r1 hr1
      split at h
      · cases h
      · rename_i rest hrest
        simp only [Option.some.injEq] at h
        subst h
        obtain ⟨h1, h2, h3⟩ := next_sound iter s r1 hlinked hr1
        rcases List.mem_cons.mp hr with rfl | hmem
        · exact h1
        · intro he
          exact emittable_of_sameDirectory h3 (ih _ _ _ h2 hrest r hmem he)

theorem populatedAlong_length (fs : Fs) :
    ∀ (levels : List (layoutLevel σ)) (path : List Char) (ident : blobIdent)
      (entries names : List (List Char)) (out : blobIdent),
      populatedAlong fs levels path ident entries names out → names.length = levels.length := by
  intro levels
  induction levels with
  | nil => intro _ _ _ _ _ h; cases h
  | cons lvl rest ih =>
    intro path ident entries names out h
    obtain ⟨name, names', rfl, _, _, _, next, _, hrest⟩ := h
    rcases hrest with ⟨rfl, rfl, _⟩ | ⟨_, below, _, hrec⟩
    · rfl
    · simp [ih _ _ _ _ _ hrec]

end soundness

/-- C4. Every ident that a new iterator returns without error, in any number of calls, is
the result of applying the populators of the levels in order, from the initial ident on,
along a path of exactly as many components as there are levels, each component an entry
of the listing of the directory before it and each prefix admitted by the filter of its
level. -/
theorem next_emits_only_populated_paths {σ : Type} (fs : Fs) (path : List Char)
    (ident : blobIdent) (levels : List (layoutLevel σ)) (entries : List (List Char)) (s : σ)
    (k : Nat) (rs : List (Returned σ)) (r : Returned σ)
    (hcalls : callNext k (newIterator fs path ident levels entries) s = some rs)
    (hr : r ∈ rs) (hok : r.err = none) :
    ∃ names, names.length = levels.length ∧
      populatedAlong fs levels path ident entries names r.ident := by
  obtain ⟨names, hnames⟩ :=
    callNext_sound k (newIterator fs path ident levels entries) s rs
      (by simp [newIterator, childrenLinked]) hcalls r hr hok
  exact ⟨names, populatedAlong_length fs _ _ _ _ _ _ hnames, hnames⟩

/-- C4 at the store `/r`: the ident returned by the second call is populated along
`/r/b/1.ssz`, a path of two components. -/
theorem next_emits_only_populated_paths_partStore :
    ∃ names, names.length = 2 ∧
      populatedAlong partStore dirThenIndex "/r".toList blobIdent.zero
        ["a".toList, "b".toList] names { blobIdent.zero with index := 1 } :=
  next_emits_only_populated_paths partStore "/r".toList blobIdent.zero dirThenIndex
    ["a".toList, "b".toList] () 2 ((callNext 2 partStoreIter ()).get rfl)
    (((callNext 2 partStoreIter ()).get rfl).get ⟨1, by decide⟩)
    (Option.some_get _).symm (List.get_mem _ _ _) rfl

section systemic

variable {σ : Type}

/-- An iteration of the loop at an admitted, populated entry of a level that is not the
last, whose directory cannot be listed. -/
theorem advanceLoop_listing_failure (f : identIterator σ → σ → Option (Returned σ))
    (n i : Nat) (iter : identIterator σ) (s s1 : σ) (entry : List Char)
    (lvl lvl2 : layoutLevel σ) (rest : List (layoutLevel σ)) (out : blobIdent) (e : Error)
    (hentry : iter.entries[i]? = some entry)
    (hlevels : iter.levels = lvl :: lvl2 :: rest)
    (hfilter : lvl.filter (filepathJoin iter.path entry) = true)
    (hpop : lvl.populateIdent iter.ident (filepathJoin iter.path entry) s = ((out, none), s1))
    (hlist : listDir iter.fs (filepathJoin iter.path entry) = .error e) :
    advanceLoop f (n + 1) i iter s
      = some ⟨blobIdent.zero, some e, iter.setOffset i, s1, none⟩ := by
  simp only [advanceLoop, identIterator.setOffset_offset, identIterator.setOffset_entries,
    identIterator.setOffset_levels, identIterator.setOffset_path,
    identIterator.setOffset_ident, identIterator.setOffset_fs, hentry, hlevels, hfilter,
    hpop, hlist, not_true_eq_false, if_false, List.length_cons]
  simp

theorem errorsIs_listDir_error {fs : Fs} {p : List Char} {e : Error}
    (hlist : listDir fs p = .error e)
    (hfs : ∀ cause, (fs.Open p = .error cause ∨
        ∃ top, fs.Open p = .ok top ∧ top.Readdirnames = .error cause) →
      errorsIs cause Error.errIdentFailure = false) :
    errorsIs e Error.errIdentFailure = false := by
  obtain ⟨cause, message, rfl, hcause⟩ := listDir_error_eq hlist
  simp [errorsIs, hfs cause hcause]

end systemic

section budget

variable {σ : Type}

theorem Returned.progress_le_one (r : Returned σ) : r.progress ≤ 1 := by
  unfold Returned.progress
  split <;> omega

theorem length_treePaths_drop_succ (fs : Fs) (d : Nat) (path : List Char)
    (entries : List (List Char)) (i : Nat) :
    (treePaths fs d path (entries.drop (i + 1))).length
      ≤ (treePaths fs d path (entries.drop i)).length := by
  cases d with
  | zero => simp [treePaths]
  | succ d =>
    by_cases hi : i < entries.length
    · rw [List.drop_eq_getElem_cons hi, treePaths_cons, List.length_append]
      omega
    · rw [List.drop_eq_nil_of_le (by omega), List.drop_eq_nil_of_le (by omega)]

theorem length_treePaths_drop_le (fs : Fs) (d : Nat) (path : List Char)
    (entries : List (List Char)) :
    ∀ (k i : Nat), (treePaths fs d path (entries.drop (i + k))).length
      ≤ (treePaths fs d path (entries.drop i)).length := by
  intro k
  induction k with
  | zero => intro i; simp
  | succ k ih =>
    intro i
    have h1 := length_treePaths_drop_succ fs d path entries (i + k)
    have h2 := ih i
    rw [← Nat.add_assoc]
    omega

/-- One run of the loop that does not return the end of the stream takes a path out of
what was pending. -/
theorem advanceLoop_budget (f : identIterator σ → σ → Option (Returned σ))
    (hf : ∀ c s r, f c s = some r → r.progress + (pending r.iter).length ≤ (pending c).length) :
    ∀ (n i : Nat) (iter : identIterator σ) (s : σ) (r : Returned σ),
      i ≤ iter.offset + 1 → advanceLoop f n i iter s = some r →
      r.progress + (pending (r.iter.setOffset (r.iter.offset + 1))).length
        ≤ (pendingBelow iter.child).length
          + (treePaths iter.fs iter.levels.length iter.path (iter.entries.drop i)).length := by
  intro n
  induction n with
  | zero =>
    intro i iter s r hi h
    simp only [advanceLoop, Option.some.injEq] at h
    subst h
    have hk : iter.offset + 1 = i + (iter.offset + 1 - i) := by omega
    have := length_treePaths_drop_le iter.fs iter.levels.length iter.path iter.entries
      (iter.offset + 1 - i) i
    rw [← hk] at this
    simp only [Returned.progress, if_true, pending_setOffset, List.length_append]
    omega
  | succ n ih =>
    intro i iter s r hi h
    have hstep := length_treePaths_drop_succ iter.fs iter.levels.length iter.path iter.entries i
    have hone := Returned.progress_le_one r
    have hcont : ∀ t, advanceLoop f n (i + 1) (iter.setOffset i) t = some r →
        r.progress + (pending (r.iter.setOffset (r.iter.offset + 1))).length
          ≤ (pendingBelow iter.child).length
            + (treePaths iter.fs iter.levels.length iter.path (iter.entries.drop i)).length := by
      intro t ht
      have := ih (i + 1) (iter.setOffset i) t r (by simp) ht
      simp only [identIterator.setOffset_child, identIterator.setOffset_fs,
        identIterator.setOffset_levels, identIterator.setOffset_path,
        identIterator.setOffset_entries] at this
      omega
    obtain ⟨entry, lvl, others, hentry, hlevels, hcases⟩ := advanceLoop_succ_cases h
    have hlt : i < iter.entries.length := by
      rcases Nat.lt_or_ge i iter.entries.length with h1 | h1
      · exact h1
      · rw [List.getElem?_eq_none h1] at hentry; cases hentry
    have hentry' : iter.entries[i] = entry := by
      rw [List.getElem?_eq_getElem hlt] at hentry
      exact Option.some.inj hentry
    have hdrop : (treePaths iter.fs iter.levels.length iter.path (iter.entries.drop i)).length
        = 1 + (match listDir iter.fs (filepathJoin iter.path entry) with
                | .ok below =>
                  treePaths iter.fs others.length (filepathJoin iter.path entry) below
                | .error _ => []).length
          + (treePaths iter.fs iter.levels.length iter.path (iter.entries.drop (i + 1))).length
        := by
      rw [List.drop_eq_getElem_cons hlt, hentry', hlevels, List.length_cons, treePaths_cons,
        List.length_append, List.length_cons]
      omega
    rcases hcases with ⟨_, hrec⟩ | ⟨_, out, s1, ⟨cause, _, hr⟩ | ⟨_, hrest⟩⟩
    · exact hcont _ hrec
    · subst hr
      simp only [pending_setOffset, identIterator.setOffset_child, identIterator.setOffset_fs,
        identIterator.setOffset_levels, identIterator.setOffset_path,
        identIterator.setOffset_entries, identIterator.setOffset_offset,
        List.length_append] at hone ⊢
      omega
    · rcases hrest with ⟨_, hr⟩ | ⟨_, e, _, hr⟩ | ⟨_, _, hrec⟩ | ⟨_, below, rc, hlist, _, hrc, hr⟩
      · subst hr
        simp only [pending_setOffset, identIterator.setOffset_child,
          identIterator.setOffset_fs, identIterator.setOffset_levels,
          identIterator.setOffset_path, identIterator.setOffset_entries,
          identIterator.setOffset_offset, List.length_append] at hone ⊢
        omega
      · subst hr
        simp only [pending_setOffset, identIterator.setOffset_child,
          identIterator.setOffset_fs, identIterator.setOffset_levels,
          identIterator.setOffset_path, identIterator.setOffset_entries,
          identIterator.setOffset_offset, List.length_append] at hone ⊢
        omega
      · exact hcont _ hrec
      · subst hr
        have hchild := hf _ _ _ hrc
        simp only [pending, List.drop_zero] at hchild
        simp only [hlist] at hdrop
        change rc.progress + _ ≤ _
        simp only [pending_setChild_setOffset, identIterator.setOffset_fs,
          identIterator.setOffset_levels, identIterator.setOffset_path,
          identIterator.setOffset_entries, identIterator.setChild_offset,
          identIterator.setOffset_offset, List.length_append]
        omega

theorem advanceChildWith_budget (f : identIterator σ → σ → Option (Returned σ))
    (hf : ∀ c s r, f c s = some r → r.progress + (pending r.iter).length ≤ (pending c).length)
    (iter : identIterator σ) (s : σ) (r : Returned σ) (h : advanceChildWith f iter s = some r) :
    r.progress + (pending r.iter).length ≤ (pending iter).length := by
  simp only [advanceChildWith] at h
  split at h
  · cases h
  · rename_i r0 hr0
    simp only [Option.some.injEq] at h
    subst h
    have := advanceLoop_budget f hf _ _ _ _ _ (by omega) hr0
    rw [pending_eq iter, List.length_append]
    exact this

theorem advanceChildAt_budget :
    ∀ (levels : List (layoutLevel σ)) (iter : identIterator σ) (s : σ) (r : Returned σ),
      advanceChildAt levels iter s = some r →
      r.progress + (pending r.iter).length ≤ (pending iter).length := by
  intro levels
  induction levels with
  | nil =>
    intro iter s r h
    exact advanceChildWith_budget _ (fun _ _ _ hc => by cases hc) iter s r h
  | cons lvl rest ih =>
    intro iter s r h
    exact advanceChildWith_budget _ ih iter s r h

/-- A call of `next` that does not return the end of the stream takes a path out of what
was pending. -/
theorem next_budget :
    ∀ (iter : identIterator σ) (s : σ) (r : Returned σ), iter.next s = some r →
      r.progress + (pending r.iter).length ≤ (pending iter).length
  | .mk fs path (some child) ident levels entries offset, s, r, h => by
    simp only [identIterator.next] at h
    split at h
    · cases h
    · rename_i rc hrc
      have hchild := next_budget child s rc hrc
      have hone := Returned.progress_le_one r
      split at h
      · rename_i hnone
        simp only [Option.some.injEq] at h
        subst h
        simp only [Returned.progress, hnone, pending, List.length_append] at hchild ⊢
        omega
      · split at h
        · simp only [Option.some.injEq] at h
          subst h
          simp only [Returned.progress, pending, List.length_append] at hchild ⊢
          omega
        · have := advanceChildAt_budget _ _ _ _ h
          simp only [pending, List.length_append] at this ⊢
          omega
  | .mk fs path none ident levels entries offset, s, r, h => by
    simp only [identIterator.next] at h
    exact advanceChildAt_budget _ _ _ _ h

/-- Of any number of calls of `next`, no more return something other than the end of the
stream than there are paths pending. -/
theorem callNext_budget :
    ∀ (k : Nat) (iter : identIterator σ) (s : σ) (rs : List (Returned σ)),
      callNext k iter s = some rs →
      (rs.map Returned.progress).sum ≤ (pending iter).length := by
  intro k
  induction k with
  | zero =>
    intro iter s rs h
    simp only [callNext, Option.some.injEq] at h
    subst h
    simp
  | succ k ih =>
    intro iter s rs h
    simp only [callNext] at h
    split at h
    · cases h
    · rename_i r hr
      split at h
      · cases h
      · rename_i rest hrest
        simp only [Option.some.injEq] at h
        subst h
        have h1 := next_budget iter s r hr
        have h2 := ih r.iter r.state rest hrest
        simp only [List.map_cons, List.sum_cons]
        omega

theorem sum_progress_of_no_EOF (rs : List (Returned σ))
    (h : ∀ r ∈ rs, r.err ≠ some Error.EOF) : (rs.map Returned.progress).sum = rs.length := by
  induction rs with
  | nil => rfl
  | cons r rs ih =>
    have hr : r.progress = 1 := by
      unfold Returned.progress
      rw [if_neg (h r (List.mem_cons_self _ _))]
    simp only [List.map_cons, List.sum_cons, List.length_cons, hr,
      ih (fun r' hr' => h r' (List.mem_cons_of_mem _ hr'))]
    omega

end budget

section standing

variable {σ : Type}

@[simp] theorem identIterator.setOffset_setOffset (iter : identIterator σ) (i j : Nat) :
    (iter.setOffset i).setOffset j = iter.setOffset j := by
  cases iter; rfl

/-- The loop with an iteration to go sets the offset before it reads it. -/
theorem advanceLoop_setOffset (f : identIterator σ → σ → Option (Returned σ))
    (m j i : Nat) (iter : identIterator σ) (t : σ) :
    advanceLoop f (m + 1) j (iter.setOffset i) t = advanceLoop f (m + 1) j iter t := by
  simp only [advanceLoop, identIterator.setOffset_setOffset]

theorem drop_eq_cons {α : Type} :
    ∀ (l : List α) (i : Nat) (a : α) (r : List α), l.drop i = a :: r →
      l[i]? = some a ∧ l.drop (i + 1) = r := by
  intro l
  induction l with
  | nil => intro i a r h; simp at h
  | cons x xs ih =>
    intro i a r h
    cases i with
    | zero =>
      simp only [List.drop_zero, List.cons.injEq] at h
      obtain ⟨rfl, rfl⟩ := h
      exact ⟨by simp, rfl⟩
    | succ i =>
      simp only [List.drop_succ_cons] at h
      obtain ⟨h1, h2⟩ := ih i a r h
      exact ⟨by simpa using h1, by simpa using h2⟩

/-- An iteration of the loop at an entry that the filter rejects. -/
theorem advanceLoop_skip_filtered (f : identIterator σ → σ → Option (Returned σ))
    (n i : Nat) (iter : identIterator σ) (s : σ) (entry : List Char)
    (lvl : layoutLevel σ) (others : List (layoutLevel σ))
    (hentry : iter.entries[i]? = some entry) (hlevels : iter.levels = lvl :: others)
    (hfilter : lvl.filter (filepathJoin iter.path entry) = false) :
    advanceLoop f (n + 1) i iter s = advanceLoop f n (i + 1) (iter.setOffset i) s := by
  simp only [advanceLoop, identIterator.setOffset_offset, identIterator.setOffset_entries,
    identIterator.setOffset_levels, identIterator.setOffset_path, hentry, hlevels, hfilter]
  simp

/-- An iteration of the loop at an entry whose directory is listed as empty. -/
theorem advanceLoop_skip_empty (f : identIterator σ → σ → Option (Returned σ))
    (n i : Nat) (iter : identIterator σ) (s s1 : σ) (entry : List Char)
    (lvl : layoutLevel σ) (others : List (layoutLevel σ)) (out : blobIdent)
    (hentry : iter.entries[i]? = some entry) (hlevels : iter.levels = lvl :: others)
    (hothers : others ≠ [])
    (hfilter : lvl.filter (filepathJoin iter.path entry) = true)
    (hpop : lvl.populateIdent iter.ident (filepathJoin iter.path entry) s = ((out, none), s1))
    (hlist : listDir iter.fs (filepathJoin iter.path entry) = .ok []) :
    advanceLoop f (n + 1) i iter s = advanceLoop f n (i + 1) (iter.setOffset i) s1 := by
  have hlen : ¬ (others.length + 1 = 1) := by
    cases others with
    | nil => exact absurd rfl hothers
    | cons _ _ => simp
  simp only [advanceLoop, identIterator.setOffset_offset, identIterator.setOffset_entries,
    identIterator.setOffset_levels, identIterator.setOffset_path,
    identIterator.setOffset_ident, identIterator.setOffset_fs, hentry, hlevels, hfilter,
    hpop, hlist, not_true_eq_false, if_false, List.length_cons, hlen, List.length_nil,
    if_true]

/-- An iteration of the loop at an entry for whose directory an iterator is created. -/
theorem advanceLoop_descend (f : identIterator σ → σ → Option (Returned σ))
    (n i : Nat) (iter : identIterator σ) (s s1 : σ) (entry : List Char)
    (lvl : layoutLevel σ) (others : List (layoutLevel σ)) (out : blobIdent)
    (below : List (List Char)) (rc : Returned σ)
    (hentry : iter.entries[i]? = some entry) (hlevels : iter.levels = lvl :: others)
    (hothers : others ≠ [])
    (hfilter : lvl.filter (filepathJoin iter.path entry) = true)
    (hpop : lvl.populateIdent iter.ident (filepathJoin iter.path entry) s = ((out, none), s1))
    (hlist : listDir iter.fs (filepathJoin iter.path entry) = .ok below)
    (hbelow : below ≠ [])
    (hrc : f (.mk iter.fs (filepathJoin iter.path entry) none out others below 0) s1
      = some rc) :
    advanceLoop f (n + 1) i iter s
      = some ⟨rc.ident, rc.err, (iter.setOffset i).setChild rc.iter, rc.state,
          rc.visited⟩ := by
  have hlen : ¬ (others.length + 1 = 1) := by
    cases others with
    | nil => exact absurd rfl hothers
    | cons _ _ => simp
  have hb : ¬ (below.length = 0) := fun h => hbelow (List.length_eq_zero.mp h)
  simp only [advanceLoop, identIterator.setOffset_offset, identIterator.setOffset_entries,
    identIterator.setOffset_levels, identIterator.setOffset_path,
    identIterator.setOffset_ident, identIterator.setOffset_fs, hentry, hlevels, hfilter,
    hpop, hlist, not_true_eq_false, if_false, List.length_cons, hlen, hb,
    List.drop_succ_cons, List.drop_zero, hrc]

/-- An iteration of the loop at an admitted entry on which the populator fails. -/
theorem advanceLoop_populate_failure (f : identIterator σ → σ → Option (Returned σ))
    (n i : Nat) (iter : identIterator σ) (s s1 : σ) (entry : List Char)
    (lvl : layoutLevel σ) (others : List (layoutLevel σ)) (out : blobIdent) (cause : Error)
    (hentry : iter.entries[i]? = some entry) (hlevels : iter.levels = lvl :: others)
    (hfilter : lvl.filter (filepathJoin iter.path entry) = true)
    (hpop : lvl.populateIdent iter.ident (filepathJoin iter.path entry) s
      = ((out, some cause), s1)) :
    advanceLoop f (n + 1) i iter s
      = some ⟨out, some (Error.identificationError cause (filepathJoin iter.path entry) out),
          iter.setOffset i, s1, some (filepathJoin iter.path entry)⟩ := by
  simp only [advanceLoop, identIterator.setOffset_offset, identIterator.setOffset_entries,
    identIterator.setOffset_levels, identIterator.setOffset_path,
    identIterator.setOffset_ident, identIterator.setOffset_fs, hentry, hlevels, hfilter,
    hpop, not_true_eq_false, if_false, newIdentificationError]

/-- The loop runs over the entries that it passes over. -/
theorem advanceLoop_passesOver (f : identIterator σ → σ → Option (Returned σ))
    (lvl : layoutLevel σ) (others : List (layoutLevel σ)) :
    ∀ (skipped : List (List Char)) (i m : Nat) (iter : identIterator σ) (s s1 : σ)
      (tail : List (List Char)),
      iter.levels = lvl :: others → iter.entries.drop i = skipped ++ tail →
      passesOver iter.fs lvl others iter.path iter.ident skipped s s1 →
      advanceLoop f (skipped.length + (m + 1)) i iter s
        = advanceLoop f (m + 1) (i + skipped.length) iter s1 := by
  intro skipped
  induction skipped with
  | nil =>
    intro i m iter s s1 tail _ _ hpass
    simp only [passesOver] at hpass
    subst hpass
    simp
  | cons entry rest ih =>
    intro i m iter s s1 tail hlevels hdrop hpass
    obtain ⟨hentry, hdrop'⟩ := drop_eq_cons _ _ _ _ hdrop
    have hfuel : (entry :: rest).length + (m + 1) = (rest.length + (m + 1)) + 1 := by
      simp only [List.length_cons]; omega
    have hidx : i + (entry :: rest).length = i + 1 + rest.length := by
      simp only [List.length_cons]; omega
    have hcont : ∀ t, passesOver iter.fs lvl others iter.path iter.ident rest t s1 →
        advanceLoop f (rest.length + (m + 1)) (i + 1) (iter.setOffset i) t
          = advanceLoop f (m + 1) (i + 1 + rest.length) iter s1 := by
      intro t ht
      rw [ih (i + 1) m (iter.setOffset i) t s1 tail (by simpa using hlevels)
        (by simpa using hdrop') (by simpa using ht), advanceLoop_setOffset]
    rw [hfuel, hidx]
    simp only [passesOver] at hpass
    rcases hpass with ⟨hfilter, hrest⟩ | ⟨hfilter, hothers, out, s2, hpop, hlist, hrest⟩
    · rw [advanceLoop_skip_filtered f _ i iter s entry lvl others hentry hlevels hfilter]
      exact hcont s hrest
    · rw [advanceLoop_skip_empty f _ i iter s s2 entry lvl others out hentry hlevels hothers
        hfilter hpop hlist]
      exact hcont s2 hrest

/-- What `advanceChild` returns when it comes to stand at `w`, given what an iteration of
the loop returns that stands at `w`. -/
theorem advanceChildAt_comesTo (Q : blobIdent → Option Error → σ → Option (List Char) → Prop)
    (w : Stand σ)
    (hstand : ∀ (f : identIterator σ → σ → Option (Returned σ)) (n j : Nat)
      (it : identIterator σ), it.fs = w.fs → it.levels = w.levels → it.path = w.path →
      it.ident = w.ident → it.entries[j]? = some w.entry →
      ∃ r, advanceLoop f (n + 1) j it w.state = some r ∧ Q r.ident r.err r.state r.visited) :
    ∀ (levels : List (layoutLevel σ)) (iter : identIterator σ) (s : σ),
      iter.levels = levels →
      loopComesTo iter.fs levels iter.path iter.ident (iter.entries.drop iter.offset) s w →
      ∃ r, advanceChildAt levels iter s = some r ∧ Q r.ident r.err r.state r.visited := by
  intro levels
  induction levels with
  | nil =>
    intro iter s _ h
    simp only [loopComesTo] at h
  | cons lvl others ih =>
    intro iter s hlevels h
    simp only [loopComesTo] at h
    obtain ⟨skipped, entry, later, s1, hrem, hpass, hcase⟩ := h
    have hlen : iter.entries.length - iter.offset = skipped.length + (later.length + 1) := by
      have := congrArg List.length hrem
      simp only [List.length_drop, List.length_append, List.length_cons] at this
      exact this
    have hloop := advanceLoop_passesOver (advanceChildAt others) lvl others skipped iter.offset
      later.length iter s s1 (entry :: later) hlevels hrem hpass
    have hdrop : iter.entries.drop (iter.offset + skipped.length) = entry :: later := by
      rw [← List.drop_drop, hrem]
      simp
    obtain ⟨hentry, _⟩ := drop_eq_cons _ _ _ _ hdrop
    have hfinish : ∀ r0, advanceLoop (advanceChildAt others) (later.length + 1)
          (iter.offset + skipped.length) iter s1 = some r0 →
        Q r0.ident r0.err r0.state r0.visited →
        ∃ r, advanceChildAt (lvl :: others) iter s = some r ∧
          Q r.ident r.err r.state r.visited := by
      intro r0 hr0 hQ
      refine ⟨{ r0 with iter := r0.iter.setOffset (r0.iter.offset + 1) }, ?_, hQ⟩
      simp only [advanceChildAt, advanceChildWith, hlen, hloop, hr0]
    rcases hcase with rfl | ⟨hothers, hfilter, out, s2, below, hpop, hlist, hbelow, hrec⟩
    · obtain ⟨r0, hr0, hQ⟩ := hstand (advanceChildAt others) later.length
        (iter.offset + skipped.length) iter rfl hlevels rfl rfl hentry
      exact hfinish r0 hr0 hQ
    · obtain ⟨rc, hrc, hQ⟩ :=
        ih (.mk iter.fs (filepathJoin iter.path entry) none out others below 0) s2 rfl
          (by simpa using hrec)
      exact hfinish _
        (advanceLoop_descend (advanceChildAt others) later.length
          (iter.offset + skipped.length) iter s1 s2 entry lvl others out below rc hentry
          hlevels hothers hfilter hpop hlist hbelow hrc) hQ

/-- What `next` returns when it comes to stand at `w`, given what an iteration of the loop
returns that stands at `w`: an error other than the end of the stream, which a parent
passes on with the empty ident. -/
theorem next_comesTo (Q : blobIdent → Option Error → σ → Option (List Char) → Prop)
    (w : Stand σ)
    (hstand : ∀ (f : identIterator σ → σ → Option (Returned σ)) (n j : Nat)
      (it : identIterator σ), it.fs = w.fs → it.levels = w.levels → it.path = w.path →
      it.ident = w.ident → it.entries[j]? = some w.entry →
      ∃ r, advanceLoop f (n + 1) j it w.state = some r ∧ Q r.ident r.err r.state r.visited)
    (hpass : ∀ i e t v, Q i e t v →
      e ≠ none ∧ e ≠ some Error.EOF ∧ Q blobIdent.zero e t v) :
    ∀ (iter : identIterator σ) (s : σ), iter.comesTo s w →
      ∃ r, iter.next s = some r ∧ Q r.ident r.err r.state r.visited
  | .mk fs path (some c) ident levels entries offset, s, h => by
    simp only [identIterator.comesTo] at h
    rcases h with h | ⟨rc, hrc, heof, hloop⟩
    · obtain ⟨rc, hrc, hQ⟩ := next_comesTo Q w hstand hpass c s h
      obtain ⟨hnone, hne, hzero⟩ := hpass _ _ _ _ hQ
      refine ⟨⟨blobIdent.zero, rc.err, .mk fs path (some rc.iter) ident levels entries offset,
        rc.state, rc.visited⟩, ?_, hzero⟩
      simp only [identIterator.next, hrc, hnone, hne, if_false, ne_eq, not_false_eq_true,
        if_true]
    · obtain ⟨r, hr, hQ⟩ := advanceChildAt_comesTo Q w hstand levels
        (.mk fs path (some rc.iter) ident levels entries offset) rc.state rfl
        (by simpa using hloop)
      refine ⟨r, ?_, hQ⟩
      simp only [identIterator.next, hrc, heof, identIterator.advanceChild]
      simpa using hr
  | .mk fs path none ident levels entries offset, s, h => by
    simp only [identIterator.comesTo] at h
    obtain ⟨r, hr, hQ⟩ := advanceChildAt_comesTo Q w hstand levels
      (.mk fs path none ident levels entries offset) s rfl (by simpa using h)
    exact ⟨r, by simpa [identIterator.next, identIterator.advanceChild] using hr, hQ⟩

end standing

/-- C5. Whenever a call of `next` comes to stand at an admitted entry of a level that is
not the last, the populator succeeds on it and listing its directory fails with `e`, then
`next` returns the empty ident with `e`, and the walk has moved on: less is pending. The
entry may be that of the iterator itself or of an iterator of its chain, reached after
entries that the loop passes over, after a child that is exhausted, or in an iterator that
the call creates. The error `e` is no identification failure and does not match
`errIdentFailure` (the filesystem's own error not being the sentinel). A parent iterator
passes the error of its child on unchanged with the empty ident, and any error that `next`
returns other than end-of-stream and identification failures is such a listing error,
returned with the empty ident. -/
theorem next_listing_failure_is_systemic {σ : Type} (iter : identIterator σ) (s s1 : σ)
    (w : Stand σ) (lvl lvl2 : layoutLevel σ) (rest : List (layoutLevel σ))
    (out : blobIdent) (e : Error)
    (hcomes : iter.comesTo s w)
    (hlevels : w.levels = lvl :: lvl2 :: rest)
    (hfilter : lvl.filter (filepathJoin w.path w.entry) = true)
    (hpop : lvl.populateIdent w.ident (filepathJoin w.path w.entry) w.state = ((out, none), s1))
    (hlist : listDir w.fs (filepathJoin w.path w.entry) = .error e)
    (hfs : ∀ cause, (w.fs.Open (filepathJoin w.path w.entry) = .error cause ∨
        ∃ top, w.fs.Open (filepathJoin w.path w.entry) = .ok top ∧
          top.Readdirnames = .error cause) →
      errorsIs cause Error.errIdentFailure = false) :
    (∃ r, iter.next s = some r ∧ r.ident = blobIdent.zero ∧ r.err = some e ∧ r.state = s1 ∧
      r.visited = none ∧ (pending r.iter).length < (pending iter).length) ∧
    errorsIs e Error.errIdentFailure = false ∧
    (∀ cause p o, e ≠ Error.identificationError cause p o) ∧
    (∀ fs path (c : identIterator σ) ident levels entries offset t rc e',
      c.next t = some rc → rc.err = some e' → e' ≠ Error.EOF →
      (identIterator.mk fs path (some c) ident levels entries offset).next t
        = some ⟨blobIdent.zero, some e',
            .mk fs path (some rc.iter) ident levels entries offset, rc.state, rc.visited⟩) ∧
    (∀ (it : identIterator σ) t r e', it.next t = some r → r.err = some e' →
      e' = Error.EOF ∨ (∃ cause p o, e' = Error.identificationError cause p o) ∨
      (r.ident = blobIdent.zero ∧ ∃ fs p, listDir fs p = .error e')) := by
  have hwrap := listDir_error_eq hlist
  refine ⟨?_, errorsIs_listDir_error hlist hfs, ?_, ?_, ?_⟩
  · obtain ⟨r, hr, hident, herr, hstate, hvisited⟩ :=
      next_comesTo (fun i err t v => i = blobIdent.zero ∧ err = some e ∧ t = s1 ∧ v = none) w
        (by
          intro f n j it hfs' hlv hpath hident hentry
          exact ⟨_, advanceLoop_listing_failure f n j it w.state s1 w.entry lvl lvl2 rest out e
            hentry (hlv.trans hlevels) (by rw [hpath]; exact hfilter)
            (by rw [hpath, hident]; exact hpop) (by rw [hfs', hpath]; exact hlist),
            rfl, rfl, rfl, rfl⟩)
        (by
          intro i err t v h
          obtain ⟨_, herr, ht, hv⟩ := h
          obtain ⟨cause, message, rfl, _⟩ := hwrap
          subst herr
          exact ⟨fun hc => (by cases hc), fun hc => (by cases hc), rfl, rfl, ht, hv⟩)
        iter s hcomes
    refine ⟨r, hr, hident, herr, hstate, hvisited, ?_⟩
    have hbudget := next_budget iter s r hr
    have hprog : r.progress = 1 := by
      obtain ⟨cause, message, rfl, _⟩ := hwrap
      unfold Returned.progress
      rw [herr, if_neg (fun hc => by cases hc)]
    omega
  · obtain ⟨cause, message, rfl, _⟩ := hwrap
    intro _ _ _ h
    cases h
  · intro fs path c ident levels entries offset t rc e' hrc herr hne
    simp [identIterator.next, hrc, herr, hne]
  · intro it t r e' hr herr
    exact next_returned
      (fun id err _ => ∀ e', err = some e' →
        e' = Error.EOF ∨ (∃ cause p o, e' = Error.identificationError cause p o) ∨
        (id = blobIdent.zero ∧ ∃ fs p, listDir fs p = .error e'))
      (by intro e' h; exact Or.inl (Option.some.inj h).symm)
      (by intro out cause p e' h; exact Or.inr (Or.inl ⟨_, _, _, (Option.some.inj h).symm⟩))
      (by intro out p e' h; cases h)
      (by
        intro fs p e0 hl e' h
        cases Option.some.inj h
        exact Or.inr (Or.inr ⟨rfl, fs, p, hl⟩))
      (by
        intro out e0 v h e' he'
        rcases h e' he' with h1 | h1 | ⟨_, h2⟩
        · exact Or.inl h1
        · exact Or.inr (Or.inl h1)
        · exact Or.inr (Or.inr ⟨rfl, h2⟩))
      it t r hr e' herr

/-- C5 at the store `/r` with the directories `b`, `e` and `a`, of which `e` is empty and
`a` cannot be opened: the first call of `next` returns the ident of `/r/b/1.ssz`; in the
second the child is exhausted, the loop passes over `e`, comes to stand at `a` and returns
the empty ident with the error of `listDir`, which does not match `errIdentFailure`. -/
theorem next_listing_failure_is_systemic_lockedStore :
    (lockedStoreIter.next ()).map (fun r => (r.ident.index, r.err, r.iter))
      = some (1, none, lockedStoreIterAfter) ∧
    (∃ r, lockedStoreIterAfter.next () = some r ∧ r.ident = blobIdent.zero ∧
      r.err = some (Error.wrap (Error.fsError 13) "failed to open directory descriptor") ∧
      r.state = () ∧ r.visited = none ∧
      (pending r.iter).length < (pending lockedStoreIterAfter).length) ∧
    errorsIs (Error.wrap (Error.fsError 13) "failed to open directory descriptor")
      Error.errIdentFailure = false :=
  have h := next_listing_failure_is_systemic lockedStoreIterAfter () ()
    ⟨lockedStore, dirThenIndex, "/r".toList, blobIdent.zero, "a".toList, ()⟩
    ⟨.ofFunc populateNoop, filterNoop⟩ ⟨.ofFunc (populateIndex 6), isSszFile⟩ []
    blobIdent.zero (Error.wrap (Error.fsError 13) "failed to open directory descriptor")
    (Or.inr ⟨⟨blobIdent.zero, some Error.EOF,
        .mk lockedStore "/r/b".toList none blobIdent.zero
          [⟨.ofFunc (populateIndex 6), isSszFile⟩] ["1.ssz".toList] 2, (), none⟩, rfl, rfl,
      ⟨["e".toList], "a".toList, [], (), rfl,
        Or.inr ⟨rfl, by simp, blobIdent.zero, (), rfl, rfl, rfl⟩, Or.inl rfl⟩⟩)
    rfl rfl rfl rfl
    (by
      intro cause h
      have hopen : lockedStore.Open (filepathJoin "/r".toList "a".toList)
          = .error (Error.fsError 13) := rfl
      rcases h with h | ⟨top, h, _⟩
      · rw [hopen] at h; cases h; rfl
      · rw [hopen] at h; cases h)
  ⟨rfl, h.1, h.2.1⟩

/-- C6 (the claim fails). Over the store `/r` whose blob `1.ssz` cannot be opened, the path
`/r/1.ssz` passes the filter and opening it fails, and the error that `next` returns with
the slot-once-per-root populator is an identification failure: it matches
`errIdentFailure`. -/
theorem next_open_failure_matches_sentinel :
    isSszFile "/r/1.ssz".toList = true ∧
    slotFromFile "/r/1.ssz".toList goneStore = .error (Error.fsError 2) ∧
    (goneStoreIter.next goneStoreReader).map (fun r => r.err)
      = some (some (Error.identificationError (Error.fsError 2) "/r/1.ssz".toList
          ⟨List.replicate 32 1, 0, 1⟩)) ∧
    errorsIs (Error.identificationError (Error.fsError 2) "/r/1.ssz".toList
      ⟨List.replicate 32 1, 0, 1⟩) Error.errIdentFailure = true :=
  ⟨rfl, rfl, rfl, rfl⟩

/-- C6 (amended). Whenever a call of `next` comes to stand at an entry of a level that
uses the slot-once-per-root populator, admitted, with a valid index and a root that is not
the cached one, and opening the file fails with `e`, then `next` returns the
identification failure of the entry: it carries the path, unwraps to `e` and matches
`errIdentFailure`; the receiver is unchanged, and the path is taken out of what is pending,
so the walk can resume. The entry may be that of the iterator itself or of an iterator of
its chain, reached after entries that the loop passes over, after a child that is
exhausted, or in an iterator that the call creates. -/
theorem next_open_failure_is_identification_failure (MaxBlobsPerBlock SlotsPerEpoch : Nat)
    (filter : List Char → Bool) (rest : List (layoutLevel readSlotOncePerRoot))
    (iter : identIterator readSlotOncePerRoot) (l : readSlotOncePerRoot)
    (w : Stand readSlotOncePerRoot) (idx : Nat) (e : Error)
    (hcomes : iter.comesTo l w)
    (hlevels : w.levels = slotOncePerRootLevel MaxBlobsPerBlock SlotsPerEpoch filter :: rest)
    (hfilter : filter (filepathJoin w.path w.entry) = true)
    (hidx : idxFromPath MaxBlobsPerBlock (filepathJoin w.path w.entry) = .ok idx)
    (hroot : w.ident.root ≠ w.state.lastRoot)
    (hopen : w.state.fs.Open (filepathJoin w.path w.entry) = .error e) :
    (∃ r, iter.next l = some r ∧
      r.err = some (Error.identificationError e (filepathJoin w.path w.entry)
        { w.ident with index := idx }) ∧
      (r.ident = { w.ident with index := idx } ∨ r.ident = blobIdent.zero) ∧
      r.state = w.state ∧ r.visited = some (filepathJoin w.path w.entry) ∧
      (pending r.iter).count (filepathJoin w.path w.entry)
        < (pending iter).count (filepathJoin w.path w.entry)) ∧
    errorsIs (Error.identificationError e (filepathJoin w.path w.entry)
      { w.ident with index := idx }) Error.errIdentFailure = true ∧
    (Error.identificationError e (filepathJoin w.path w.entry)
      { w.ident with index := idx }).Unwrap = some e := by
  refine ⟨?_, by simp [errorsIs], rfl⟩
  have hpop : (slotOncePerRootLevel MaxBlobsPerBlock SlotsPerEpoch filter).populateIdent
      w.ident (filepathJoin w.path w.entry) w.state
        = (({ w.ident with index := idx }, some e), w.state) := by
    simp [slotOncePerRootLevel, readSlotOncePerRoot.populateIdent, populateIndex, hidx, hroot,
      slotFromFile, hopen]
  obtain ⟨r, hr, herr, hident, hstate, hvisited⟩ :=
    next_comesTo
      (fun i err t v =>
        err = some (Error.identificationError e (filepathJoin w.path w.entry)
          { w.ident with index := idx }) ∧
        (i = { w.ident with index := idx } ∨ i = blobIdent.zero) ∧ t = w.state ∧
        v = some (filepathJoin w.path w.entry)) w
      (by
        intro f n j it _ hlv hpath hident hentry
        refine ⟨_, advanceLoop_populate_failure f n j it w.state w.state w.entry _ rest
          { w.ident with index := idx } e hentry (hlv.trans hlevels)
          (by rw [hpath]; exact hfilter) (by rw [hpath, hident]; exact hpop), ?_, Or.inl rfl,
          rfl, ?_⟩
        · rw [hpath]
        · rw [hpath])
      (by
        intro i err t v h
        obtain ⟨herr, _, ht, hv⟩ := h
        subst herr
        exact ⟨fun hc => (by cases hc), fun hc => (by cases hc), rfl, Or.inr rfl, ht, hv⟩)
      iter l hcomes
  refine ⟨r, hr, herr, hident, hstate, hvisited, ?_⟩
  have hpending := next_pending iter l r hr (filepathJoin w.path w.entry)
  rw [hvisited] at hpending
  simp only [Option.toList, List.singleton_append, List.count_cons_self] at hpending
  omega

/-- C6 (amended) at the store `/r` walked from the top by root: the call of `next` creates
the iterator of the root directory, passes over `x.txt` and comes to stand at the blob
`1.ssz`, which cannot be opened. -/
theorem next_open_failure_is_identification_failure_goneRootStore :
    ∃ r, goneRootIter.next (newReadSlotOncePerRoot goneRootStore) = some r ∧
      r.err = some (Error.identificationError (Error.fsError 2)
        (filepathJoin goneRootDir "1.ssz".toList) ⟨List.replicate 32 1, 0, 1⟩) ∧
      (r.ident = ⟨List.replicate 32 1, 0, 1⟩ ∨ r.ident = blobIdent.zero) ∧
      r.state = newReadSlotOncePerRoot goneRootStore ∧
      r.visited = some (filepathJoin goneRootDir "1.ssz".toList) ∧
      (pending r.iter).count (filepathJoin goneRootDir "1.ssz".toList)
        < (pending goneRootIter).count (filepathJoin goneRootDir "1.ssz".toList) :=
  (next_open_failure_is_identification_failure 6 32 isSszFile [] goneRootIter
    (newReadSlotOncePerRoot goneRootStore)
    ⟨goneRootStore, [slotOncePerRootLevel 6 32 isSszFile], goneRootDir,
      ⟨List.replicate 32 1, 0, 0⟩, "1.ssz".toList, newReadSlotOncePerRoot goneRootStore⟩
    1 (Error.fsError 2)
    (show loopComesTo goneRootStore byRootLayout "/r".toList blobIdent.zero
        [goneRootName] (newReadSlotOncePerRoot goneRootStore) _ from
      ⟨[], goneRootName, [], newReadSlotOncePerRoot goneRootStore, rfl, rfl,
        Or.inr ⟨by simp, rfl, ⟨List.replicate 32 1, 0, 0⟩,
          newReadSlotOncePerRoot goneRootStore, ["x.txt".toList, "1.ssz".toList], rfl, rfl,
          by simp,
          ⟨["x.txt".toList], "1.ssz".toList, [], newReadSlotOncePerRoot goneRootStore, rfl,
            Or.inl ⟨rfl, rfl⟩, Or.inl rfl⟩⟩⟩)
    rfl rfl rfl (by decide) rfl).1

section decimalNumbers

theorem digitChar_digit (d : Nat) (hd : d < 10) :
    ('0' ≤ Nat.digitChar d ∧ Nat.digitChar d ≤ '9') ∧ digitVal (Nat.digitChar d) = d ∧
      Nat.digitChar d ≠ '.' ∧ Nat.digitChar d ≠ '/' := by
  interval_cases d <;> decide

theorem toDigitsCore_forall (P : Char → Prop) (hP : ∀ d, d < 10 → P (Nat.digitChar d)) :
    ∀ (fuel n : Nat) (ds : List Char), (∀ c ∈ ds, P c) →
      ∀ c ∈ Nat.toDigitsCore 10 fuel n ds, P c := by
  intro fuel
  induction fuel with
  | zero => intro n ds hds; simpa [Nat.toDigitsCore] using hds
  | succ fuel ih =>
    intro n ds hds
    have hcons : ∀ c ∈ Nat.digitChar (n % 10) :: ds, P c := by
      intro c hc
      rcases List.mem_cons.mp hc with rfl | h
      · exact hP _ (Nat.mod_lt _ (by decide))
      · exact hds c h
    simp only [Nat.toDigitsCore]
    split
    · exact hcons
    · exact ih _ _ hcons

theorem decimalValue_toDigitsCore :
    ∀ (fuel n : Nat) (ds : List Char), n < fuel →
      decimalValue (Nat.toDigitsCore 10 fuel n ds) 0 = decimalValue ds n := by
  intro fuel
  induction fuel with
  | zero => intro n ds h; omega
  | succ fuel ih =>
    intro n ds h
    have hd := (digitChar_digit (n % 10) (Nat.mod_lt _ (by decide))).2.1
    simp only [Nat.toDigitsCore]
    split
    · rename_i h0
      simp only [decimalValue, hd]
      congr 1
      omega
    · rename_i h0
      rw [ih (n / 10) _ (by omega)]
      simp only [decimalValue, hd]
      congr 1
      omega

theorem toDigitsCore_ne_nil (fuel n : Nat) (ds : List Char) :
    Nat.toDigitsCore 10 (fuel + 1) n ds ≠ [] := by
  induction fuel generalizing n ds with
  | zero => simp [Nat.toDigitsCore]
  | succ fuel ih =>
    rw [Nat.toDigitsCore]
    split
    · simp
    · exact ih _ _

theorem le_decimalValue (cs : List Char) : ∀ n, n ≤ decimalValue cs n := by
  induction cs with
  | nil => intro n; exact le_refl _
  | cons c cs ih =>
    intro n
    have := ih (n * 10 + digitVal c)
    simp only [decimalValue]
    omega

/-- The loop of `ParseUint` on decimal digits whose number fits 64 bits. -/
theorem parseUintLoop_digits (s : List Char) :
    ∀ (cs : List Char) (n : Nat), (∀ c ∈ cs, '0' ≤ c ∧ c ≤ '9') →
      decimalValue cs n < 2 ^ 64 → parseUintLoop s cs n = .ok (decimalValue cs n) := by
  intro cs
  induction cs with
  | nil => intro n _ _; rfl
  | cons c cs ih =>
    intro n hdig hlt
    have hc := hdig c (List.mem_cons_self _ _)
    have hle := le_decimalValue cs (n * 10 + digitVal c)
    simp only [decimalValue] at hlt
    have h1 : ¬ n ≥ (2 ^ 64 - 1) / 10 + 1 := by omega
    have h2 : (n * 10 + digitVal c) % 2 ^ 64 = n * 10 + digitVal c :=
      Nat.mod_eq_of_lt (by omega)
    have h3 : ¬ (n * 10 + digitVal c < n * 10 ∨ n * 10 + digitVal c > 2 ^ 64 - 1) := by omega
    simp only [parseUintLoop, hc, and_self, not_true_eq_false, if_false, h1, h2, h3,
      decimalValue]
    exact ih _ (fun c' hc' => hdig c' (List.mem_cons_of_mem _ hc')) hlt

theorem decimal_digits (n : Nat) :
    ∀ c ∈ decimal n, ('0' ≤ c ∧ c ≤ '9') ∧ c ≠ '.' ∧ c ≠ '/' := by
  refine toDigitsCore_forall _ ?_ _ _ _ (by simp)
  intro d hd
  have := digitChar_digit d hd
  exact ⟨this.1, this.2.2⟩

/-- The function `ParseUint` reads the decimal rendering of a number below `2^64` back. -/
theorem ParseUint_decimal (n : Nat) (hn : n < 2 ^ 64) : ParseUint (decimal n) = .ok n := by
  have hval : decimalValue (decimal n) 0 = n := by
    unfold decimal Nat.toDigits
    rw [decimalValue_toDigitsCore _ _ _ (by omega)]
    rfl
  have hne : decimal n ≠ [] := toDigitsCore_ne_nil n n []
  unfold ParseUint
  rw [if_neg hne, parseUintLoop_digits _ _ _ (fun c hc => (decimal_digits n c hc).1)
    (by rw [hval]; exact hn), hval]

end decimalNumbers


/-- C7. For every `n` below `2^64` and every directory prefix, the path `dir/<n>.ssz` has
the basename `<n>.ssz`, and on every path with that basename `idxFromPath` returns `n`
when `n < MaxBlobsPerBlock` and fails with index-out-of-bounds when
`n ≥ MaxBlobsPerBlock`. -/
theorem idxFromPath_index_bounds (MaxBlobsPerBlock n : Nat) (dir : List Char)
    (hn : n < 2 ^ 64) :
    Base (dir ++ '/' :: (decimal n ++ ['.', 's', 's', 'z'])) = decimal n ++ ['.', 's', 's', 'z'] ∧
    Base (decimal n ++ ['.', 's', 's', 'z']) = decimal n ++ ['.', 's', 's', 'z'] ∧
    ∀ p, Base p = decimal n ++ ['.', 's', 's', 'z'] →
      (n < MaxBlobsPerBlock → idxFromPath MaxBlobsPerBlock p = .ok n) ∧
      (MaxBlobsPerBlock ≤ n → ∃ e, idxFromPath MaxBlobsPerBlock p = .error e ∧
        errorsIs e Error.errIndexOutOfBounds = true ∧
        errorsIs e Error.errNotBlobSSZ = false) := by
  have hslash : '/' ∉ decimal n ++ ['.', 's', 's', 'z'] := by
    intro h
    rcases List.mem_append.mp h with h | h
    · exact (decimal_digits n _ h).2.2 rfl
    · revert h; decide
  have hdot : '.' ∉ decimal n := fun h => (decimal_digits n _ h).2.1 rfl
  refine ⟨Base_dir_name _ _ (by simp) hslash, Base_name _ (by simp) hslash, ?_⟩
  intro p hp
  have hsplit : Split '.' (decimal n ++ ['.', 's', 's', 'z']) = [decimal n, ['s', 's', 'z']] := by
    rw [Split_append_sep _ _ _ hdot]
    rfl
  have hext : isSszFile (decimal n ++ ['.', 's', 's', 'z']) = true := by
    simp [isSszFile, Ext_stem_ssz, sszExt]
  constructor
  · intro hlt
    simp [idxFromPath, hp, hext, hsplit, ParseUint_decimal n hn, hlt]
  · intro hge
    refine ⟨Error.wrap Error.errIndexOutOfBounds "index=%d", ?_, by decide, by decide⟩
    simp [idxFromPath, hp, hext, hsplit, ParseUint_decimal n hn, hge]

/-- C7 at `/blobs/0xab/5.ssz` and `/blobs/0xab/6.ssz` with six blobs per block. -/
theorem idxFromPath_index_bounds_five_six :
    idxFromPath 6 "/blobs/0xab/5.ssz".toList = .ok 5 ∧
    ∃ e, idxFromPath 6 "/blobs/0xab/6.ssz".toList = .error e ∧
      errorsIs e Error.errIndexOutOfBounds = true ∧ errorsIs e Error.errNotBlobSSZ = false :=
  ⟨((idxFromPath_index_bounds 6 5 "/blobs/0xab".toList (by decide)).2.2
      "/blobs/0xab/5.ssz".toList rfl).1 (by decide),
    ((idxFromPath_index_bounds 6 6 "/blobs/0xab".toList (by decide)).2.2
      "/blobs/0xab/6.ssz".toList rfl).2 (by decide)⟩

section indexErrors

theorem parseUintLoop_error (s : List Char) :
    ∀ (cs : List Char) (n : Nat) (e : Error), parseUintLoop s cs n = .error e →
      e = Error.NumError "ParseUint" s Error.ErrSyntax ∨
        e = Error.NumError "ParseUint" s Error.ErrRange := by
  intro cs
  induction cs with
  | nil => intro n e h; cases h
  | cons c cs ih =>
    intro n e h
    simp only [parseUintLoop] at h
    split at h
    · exact Or.inl (Except.error.inj h).symm
    · split at h
      · exact Or.inr (Except.error.inj h).symm
      · split at h
        · exact Or.inr (Except.error.inj h).symm
        · exact ih _ _ h

theorem ParseUint_error (s : List Char) (e : Error) (h : ParseUint s = .error e) :
    e = Error.NumError "ParseUint" s Error.ErrSyntax ∨
      e = Error.NumError "ParseUint" s Error.ErrRange := by
  unfold ParseUint at h
  split at h
  · exact Or.inl (Except.error.inj h).symm
  · exact parseUintLoop_error s _ _ _ h

end indexErrors

/-- C8 (the claim fails). The basename `x.ssz` has the extension and two pieces, and the
error of `idxFromPath` is the error of `strconv.ParseUint`, which is neither not-blob-ssz
nor index-out-of-bounds. -/
theorem idxFromPath_parse_error_is_not_wrapped :
    ∃ e, idxFromPath 6 "/blobs/0xab/x.ssz".toList = .error e ∧
      e = Error.NumError "ParseUint" ['x'] Error.ErrSyntax ∧
      errorsIs e Error.errNotBlobSSZ = false ∧ errorsIs e Error.errIndexOutOfBounds = false :=
  ⟨_, rfl, rfl, rfl, rfl⟩

/-- C8 (amended). Whenever `idxFromPath` fails, the error is of one of three kinds:
not-blob-ssz when the basename lacks the extension `.ssz` or does not split into exactly
two pieces at its dots; the error of `strconv.ParseUint` itself (syntax or range, matching
neither sentinel of the package) when the first piece is no decimal unsigned 64-bit
integer; index-out-of-bounds when the integer is `≥ MaxBlobsPerBlock`. -/
theorem idxFromPath_error_kinds (MaxBlobsPerBlock : Nat) (p : List Char) (e : Error)
    (h : idxFromPath MaxBlobsPerBlock p = .error e) :
    (errorsIs e Error.errNotBlobSSZ = true ∧
      (isSszFile (Base p) = false ∨ (Split '.' (Base p)).length ≠ 2)) ∨
    (isSszFile (Base p) = true ∧ (Split '.' (Base p)).length = 2 ∧
      ParseUint ((Split '.' (Base p)).getD 0 []) = .error e ∧
      (errorsIs e Error.ErrSyntax = true ∨ errorsIs e Error.ErrRange = true) ∧
      errorsIs e Error.errNotBlobSSZ = false ∧ errorsIs e Error.errIndexOutOfBounds = false) ∨
    (isSszFile (Base p) = true ∧ (Split '.' (Base p)).length = 2 ∧
      ∃ idx, ParseUint ((Split '.' (Base p)).getD 0 []) = .ok idx ∧ MaxBlobsPerBlock ≤ idx ∧
        errorsIs e Error.errIndexOutOfBounds = true) := by
  simp only [idxFromPath] at h
  split at h
  · rename_i hext
    cases Except.error.inj h
    exact Or.inl ⟨by decide, Or.inl (by simpa using hext)⟩
  · rename_i hext
    have hext' : isSszFile (Base p) = true := by simpa using hext
    split at h
    · rename_i hlen
      cases Except.error.inj h
      exact Or.inl ⟨by decide, Or.inr hlen⟩
    · rename_i hlen
      have hlen' : (Split '.' (Base p)).length = 2 := by simpa using hlen
      split at h
      · rename_i err hparse
        cases Except.error.inj h
        refine Or.inr (Or.inl ⟨hext', hlen', hparse, ?_⟩)
        rcases ParseUint_error _ _ hparse with rfl | rfl
        · exact ⟨Or.inl (by simp [errorsIs]), by simp [errorsIs], by simp [errorsIs]⟩
        · exact ⟨Or.inr (by simp [errorsIs]), by simp [errorsIs], by simp [errorsIs]⟩
      · rename_i idx hparse
        split at h
        · rename_i hge
          cases Except.error.inj h
          exact Or.inr (Or.inr ⟨hext', hlen', idx, hparse, hge, by decide⟩)
        · cases h

/-- C8 (amended) at `/blobs/0xab/x.ssz`, whose error is the syntax error of
`strconv.ParseUint`. -/
theorem idxFromPath_error_kinds_not_a_number :
    (errorsIs (Error.NumError "ParseUint" ['x'] Error.ErrSyntax) Error.errNotBlobSSZ = true ∧
      (isSszFile (Base "/blobs/0xab/x.ssz".toList) = false ∨
        (Split '.' (Base "/blobs/0xab/x.ssz".toList)).length ≠ 2)) ∨
    (isSszFile (Base "/blobs/0xab/x.ssz".toList) = true ∧
      (Split '.' (Base "/blobs/0xab/x.ssz".toList)).length = 2 ∧
      ParseUint ((Split '.' (Base "/blobs/0xab/x.ssz".toList)).getD 0 [])
        = .error (Error.NumError "ParseUint" ['x'] Error.ErrSyntax) ∧
      (errorsIs (Error.NumError "ParseUint" ['x'] Error.ErrSyntax) Error.ErrSyntax = true ∨
        errorsIs (Error.NumError "ParseUint" ['x'] Error.ErrSyntax) Error.ErrRange = true) ∧
      errorsIs (Error.NumError "ParseUint" ['x'] Error.ErrSyntax) Error.errNotBlobSSZ = false ∧
      errorsIs (Error.NumError "ParseUint" ['x'] Error.ErrSyntax) Error.errIndexOutOfBounds
        = false) ∨
    (isSszFile (Base "/blobs/0xab/x.ssz".toList) = true ∧
      (Split '.' (Base "/blobs/0xab/x.ssz".toList)).length = 2 ∧
      ∃ idx, ParseUint ((Split '.' (Base "/blobs/0xab/x.ssz".toList)).getD 0 []) = .ok idx ∧
        6 ≤ idx ∧
        errorsIs (Error.NumError "ParseUint" ['x'] Error.ErrSyntax) Error.errIndexOutOfBounds
          = true) :=
  idxFromPath_error_kinds 6 "/blobs/0xab/x.ssz".toList
    (Error.NumError "ParseUint" ['x'] Error.ErrSyntax) rfl

section rootCodec

theorem hexDigit_spec (v : Nat) (hv : v < 16) :
    unhex (hexDigit v) = some v ∧ utf8Len (hexDigit v) = 1 := by
  interval_cases v <;> decide

theorem lowerHexDigit_spec :
    ∀ c ∈ "0123456789abcdef".data,
      (unhex c).isSome = true ∧ (unhex c).getD 0 < 16 ∧ hexDigit ((unhex c).getD 0) = c ∧
        utf8Len c = 1 := by
  decide

theorem lowerHexDigit_unhex (c : Char) (hc : lowerHexDigit c = true) :
    ∃ v, v < 16 ∧ unhex c = some v ∧ hexDigit v = c ∧ utf8Len c = 1 := by
  have hmem : c ∈ "0123456789abcdef".data := by
    simpa [lowerHexDigit] using hc
  have h := lowerHexDigit_spec c hmem
  cases hu : unhex c with
  | none => rw [hu] at h; exact absurd h.1 (by decide)
  | some v => rw [hu] at h; exact ⟨v, h.2.1, rfl, h.2.2.1, h.2.2.2⟩

theorem length_hexEncode (r : List Nat) : (hexEncode r).length = 2 * r.length := by
  induction r with
  | nil => rfl
  | cons b bs ih => simp only [hexEncode, List.length_cons, ih]; omega

theorem goLen_hexEncode (r : List Nat) (hr : ∀ b ∈ r, b < 256) :
    goLen (hexEncode r) = 2 * r.length := by
  induction r with
  | nil => rfl
  | cons b bs ih =>
    have hb := hr b (List.mem_cons_self _ _)
    have h1 := (hexDigit_spec (b / 16) (by omega)).2
    have h2 := (hexDigit_spec (b % 16) (by omega)).2
    have ih' := ih (fun x hx => hr x (List.mem_cons_of_mem _ hx))
    simp only [goLen, hexEncode, List.map_cons, List.sum_cons, List.length_cons, h1, h2] at ih' ⊢
    omega

theorem hexDecodeString_hexEncode (r : List Nat) (hr : ∀ b ∈ r, b < 256) :
    hexDecodeString (hexEncode r) = some r := by
  induction r with
  | nil => rfl
  | cons b bs ih =>
    have hb := hr b (List.mem_cons_self _ _)
    have h1 := (hexDigit_spec (b / 16) (by omega)).1
    have h2 := (hexDigit_spec (b % 16) (by omega)).1
    have hsum : b / 16 * 16 + b % 16 = b := by omega
    simp only [hexEncode, hexDecodeString, h1, h2,
      ih (fun x hx => hr x (List.mem_cons_of_mem _ hx)), hsum]

theorem ToBytes32_of_length (r : List Nat) (hr : r.length = 32) : ToBytes32 r = r := by
  unfold ToBytes32
  rw [List.take_append_of_le_length (by omega), List.take_of_length_le (by omega)]

/-- Decoding an even number of lowercase digits succeeds, and encoding the bytes gives the
digits back. -/
theorem hexDecodeString_lower :
    ∀ (n : Nat) (ds : List Char), ds.length = 2 * n → (∀ c ∈ ds, lowerHexDigit c = true) →
      ∃ bs, hexDecodeString ds = some bs ∧ hexEncode bs = ds ∧ bs.length = n ∧
        goLen ds = 2 * n := by
  intro n
  induction n with
  | zero =>
    intro ds hlen _
    have : ds = [] := List.length_eq_zero.mp (by omega)
    subst this
    exact ⟨[], rfl, rfl, rfl, rfl⟩
  | succ n ih =>
    intro ds hlen hds
    match ds, hlen, hds with
    | p :: q :: rest, hlen, hds =>
      obtain ⟨a, ha, hpa, hap, hlp⟩ := lowerHexDigit_unhex p (hds p (by simp))
      obtain ⟨b, hb, hqb, hbq, hlq⟩ := lowerHexDigit_unhex q (hds q (by simp))
      obtain ⟨bs, hdec, henc, hbl, hgl⟩ := ih rest (by simp at hlen; omega)
        (fun c hc => hds c (by simp [hc]))
      refine ⟨(a * 16 + b) :: bs, ?_, ?_, by simp [hbl], ?_⟩
      · simp only [hexDecodeString, hpa, hqb, hdec]
      · have h1 : (a * 16 + b) / 16 = a := by omega
        have h2 : (a * 16 + b) % 16 = b := by omega
        simp only [hexEncode, h1, h2, hap, hbq, henc]
      · simp only [goLen, List.map_cons, List.sum_cons, hlp, hlq] at hgl ⊢
        omega
    | [_], hlen, _ => simp at hlen; omega
    | [], hlen, _ => simp at hlen

end rootCodec

/-- C9. For every 32-byte value `r`, `rootToString r` has 66 characters (and 66 bytes),
begins with `0x`, and `stringToRoot` reads it back as `r`. -/
theorem stringToRoot_rootToString (r : List Nat) (hlen : r.length = 32)
    (hbytes : ∀ b ∈ r, b < 256) :
    (rootToString r).length = 66 ∧ goLen (rootToString r) = 66 ∧
    HasPrefix (rootToString r) ['0', 'x'] = true ∧
    stringToRoot (rootToString r) = .ok r := by
  have hgo : goLen (rootToString r) = 66 := by
    have := goLen_hexEncode r hbytes
    simp only [goLen, rootToString, List.map_cons, List.sum_cons] at this ⊢
    rw [this, hlen]
    rfl
  refine ⟨by simp [rootToString, length_hexEncode, hlen], hgo, by simp [rootToString, HasPrefix],
    ?_⟩
  unfold stringToRoot
  rw [if_neg (by rw [hgo]; decide)]
  simp [rootToString, hexutilDecode, hexDecodeString_hexEncode r hbytes,
    ToBytes32_of_length r hlen]

/-- C9 at the root `00 01 ... 1f`. -/
theorem stringToRoot_rootToString_range :
    (rootToString (List.range 32)).length = 66 ∧ goLen (rootToString (List.range 32)) = 66 ∧
    HasPrefix (rootToString (List.range 32)) ['0', 'x'] = true ∧
    stringToRoot (rootToString (List.range 32)) = .ok (List.range 32) :=
  stringToRoot_rootToString (List.range 32) (by decide) (by decide)

/-- C10. For every string `0x` followed by exactly 64 lowercase hexadecimal digits,
`stringToRoot` succeeds with a 32-byte value whose `rootToString` is the string. -/
theorem rootToString_stringToRoot (ds : List Char) (hlen : ds.length = 64)
    (hlower : ∀ c ∈ ds, lowerHexDigit c = true) :
    ∃ r, stringToRoot ('0' :: 'x' :: ds) = .ok r ∧ r.length = 32 ∧
      rootToString r = '0' :: 'x' :: ds := by
  obtain ⟨bs, hdec, henc, hbl, hgl⟩ := hexDecodeString_lower 32 ds (by omega) hlower
  have hgo : goLen ('0' :: 'x' :: ds) = 66 := by
    simp only [goLen, List.map_cons, List.sum_cons] at hgl ⊢
    rw [hgl]
    rfl
  refine ⟨bs, ?_, hbl, by simp [rootToString, henc]⟩
  unfold stringToRoot
  rw [if_neg (by rw [hgo]; decide)]
  simp [hexutilDecode, hdec, ToBytes32_of_length bs hbl]

/-- C10 at the string `0x000102...1f`. -/
theorem rootToString_stringToRoot_range :
    ∃ r, stringToRoot
        "0x000102030405060708090a0b0c0d0e0f101112131415161718191a1b1c1d1e1f".toList = .ok r ∧
      r.length = 32 ∧
      rootToString r
        = "0x000102030405060708090a0b0c0d0e0f101112131415161718191a1b1c1d1e1f".toList :=
  rootToString_stringToRoot
    "000102030405060708090a0b0c0d0e0f101112131415161718191a1b1c1d1e1f".toList
    (by decide) (by decide)

section decoding

theorem digitVal_le (c : Char) (hc : '0' ≤ c ∧ c ≤ '9') : digitVal c ≤ 9 := by
  have h2 : c.toNat ≤ '9'.toNat := hc.2
  have h3 : ('9' : Char).toNat = 57 := rfl
  have h4 : ('0' : Char).toNat = 48 := rfl
  unfold digitVal
  omega

/-- The loop of `ParseUint` succeeds only on decimal digits, with the number they denote,
which fits 64 bits. -/
theorem parseUintLoop_ok (s : List Char) :
    ∀ (cs : List Char) (n₀ n : Nat), n₀ < 2 ^ 64 → parseUintLoop s cs n₀ = .ok n →
      (∀ c ∈ cs, '0' ≤ c ∧ c ≤ '9') ∧ decimalValue cs n₀ = n ∧ n < 2 ^ 64 := by
  intro cs
  induction cs with
  | nil =>
    intro n₀ n h₀ h
    simp only [parseUintLoop, Except.ok.injEq] at h
    subst h
    exact ⟨by simp, rfl, h₀⟩
  | cons c cs ih =>
    intro n₀ n h₀ h
    simp only [parseUintLoop] at h
    split at h
    · cases h
    · rename_i hdig
      have hc : '0' ≤ c ∧ c ≤ '9' := by
        by_contra hcon
        exact hdig hcon
      have hd := digitVal_le c hc
      split at h
      · cases h
      · rename_i hcut
        split at h
        · cases h
        · rename_i hwrap
          have hsum : n₀ * 10 + digitVal c < 2 ^ 64 := by
            by_contra hge
            have hmod : (n₀ * 10 + digitVal c) % 2 ^ 64 = n₀ * 10 + digitVal c - 2 ^ 64 := by
              rw [Nat.mod_eq_sub_mod (by omega), Nat.mod_eq_of_lt (by omega)]
            apply hwrap
            left
            rw [hmod]
            omega
          rw [Nat.mod_eq_of_lt hsum] at h
          obtain ⟨h1, h2, h3⟩ := ih _ n hsum h
          refine ⟨?_, by simpa [decimalValue] using h2, h3⟩
          intro c' hc'
          rcases List.mem_cons.mp hc' with rfl | hmem
          · exact hc
          · exact h1 c' hmem

/-- The function `ParseUint` succeeds exactly on the non-empty strings of decimal digits
whose number fits 64 bits. -/
theorem ParseUint_ok_iff (s : List Char) (n : Nat) :
    ParseUint s = .ok n ↔
      s ≠ [] ∧ (∀ c ∈ s, '0' ≤ c ∧ c ≤ '9') ∧ decimalValue s 0 = n ∧ n < 2 ^ 64 := by
  constructor
  · intro h
    unfold ParseUint at h
    split at h
    · cases h
    · rename_i hne
      exact ⟨hne, parseUintLoop_ok s s 0 n (by decide) h⟩
  · rintro ⟨hne, hdig, hval, hlt⟩
    unfold ParseUint
    rw [if_neg hne, parseUintLoop_digits s s 0 hdig (by rw [hval]; exact hlt), hval]

theorem epochFromPath_eq (p : List Char) :
    epochFromPath p
      = match ParseUint (Base p) with
        | .error _ => .error (.wrap .errInvalidDirectoryLayout
            "failed to decode epoch as uint, err=%s, dir=%s")
        | .ok epoch => .ok epoch := rfl

theorem epochFromPath_ok_iff (p : List Char) (n : Nat) :
    epochFromPath p = .ok n ↔ ParseUint (Base p) = .ok n := by
  rw [epochFromPath_eq]
  cases ParseUint (Base p) <;> simp

theorem periodFromPath_eq (p : List Char) :
    periodFromPath p
      = match ParseUint (Base p) with
        | .error _ => .error (.wrap .errInvalidDirectoryLayout
            "failed to decode period from path as uint, err=%s, dir=%s")
        | .ok period => .ok period := rfl

theorem periodFromPath_ok_iff (p : List Char) (n : Nat) :
    periodFromPath p = .ok n ↔ ParseUint (Base p) = .ok n := by
  rw [periodFromPath_eq]
  cases ParseUint (Base p) <;> simp

end decoding

/-- C11. For every path `p`, `epochFromPath p` returns `n` exactly when the last component
of `p` (its basename) is a non-empty string of decimal digits whose number `n` is below
`2^64`; when it returns no number it fails with invalid-directory-layout; and
`periodFromPath` returns the same number on exactly the same paths and fails with the same
kind of error. -/
theorem epochFromPath_decodes_last_component (p : List Char) (n : Nat) :
    (epochFromPath p = .ok n ↔
      Base p ≠ [] ∧ (∀ c ∈ Base p, '0' ≤ c ∧ c ≤ '9') ∧ decimalValue (Base p) 0 = n ∧
        n < 2 ^ 64) ∧
    ((∀ m, epochFromPath p ≠ .ok m) →
      ∃ e, epochFromPath p = .error e ∧ errorsIs e Error.errInvalidDirectoryLayout = true) ∧
    (periodFromPath p = .ok n ↔ epochFromPath p = .ok n) ∧
    ((∀ m, periodFromPath p ≠ .ok m) →
      ∃ e, periodFromPath p = .error e ∧ errorsIs e Error.errInvalidDirectoryLayout = true) := by
  refine ⟨?_, ?_, ?_, ?_⟩
  · rw [epochFromPath_ok_iff, ParseUint_ok_iff]
  · intro hno
    rw [epochFromPath_eq] at hno ⊢
    cases h : ParseUint (Base p) with
    | error e => exact ⟨_, rfl, by decide⟩
    | ok m => rw [h] at hno; exact absurd rfl (hno m)
  · rw [epochFromPath_ok_iff, periodFromPath_ok_iff]
  · intro hno
    rw [periodFromPath_eq] at hno ⊢
    cases h : ParseUint (Base p) with
    | error e => exact ⟨_, rfl, by decide⟩
    | ok m => rw [h] at hno; exact absurd rfl (hno m)

/-- C12. For every epoch `E` and every path `p`, `isBeforeEpoch E p` is true if and only if
`E = 0` or the last component of `p` decodes as an epoch below `E`; `isBeforeEpoch 0`
admits every path, and for `E > 0` a component that does not decode is rejected. -/
theorem isBeforeEpoch_admits_iff (E : Nat) (p : List Char) :
    (isBeforeEpoch E p = true ↔ E = 0 ∨ ∃ e, epochFromPath p = .ok e ∧ e < E) ∧
    isBeforeEpoch 0 p = true ∧
    (0 < E → (∀ e, epochFromPath p ≠ .ok e) → isBeforeEpoch E p = false) := by
  refine ⟨?_, rfl, ?_⟩
  · unfold isBeforeEpoch
    by_cases hE : E = 0
    · simp [hE, filterNoop]
    · rw [if_neg hE]
      cases h : epochFromPath p with
      | error e => simp [hE]
      | ok e => simp [hE]
  · intro hE hno
    unfold isBeforeEpoch
    rw [if_neg (by omega)]
    cases h : epochFromPath p with
    | error e => rfl
    | ok e => exact absurd h (hno e)

/-- C13. For every epoch `E > 0` and every path whose last component decodes as the period
`P`, `isBeforePeriod E` admits the path if and only if some epoch below `E` lies in the
period `P`, that is `P * 4096 < E`; so for `k ≥ 1` and `E = k * 4096` it admits exactly the
periods below `k`, and for `E = k * 4096 + 1` exactly the periods up to `k`; and
`isBeforePeriod 0` admits every path. -/
theorem isBeforePeriod_admits_iff (E P : Nat) (p : List Char) (hE : 0 < E)
    (hP : periodFromPath p = .ok P) :
    (isBeforePeriod E p = true ↔ ∃ e, e < E ∧ periodForEpoch e = P) ∧
    (isBeforePeriod E p = true ↔ P * 4096 < E) ∧
    (∀ k, 1 ≤ k → (isBeforePeriod (k * 4096) p = true ↔ P < k)) ∧
    (∀ k, isBeforePeriod (k * 4096 + 1) p = true ↔ P ≤ k) ∧
    (∀ q, isBeforePeriod 0 q = true) := by
  have key : ∀ E', 0 < E' → (isBeforePeriod E' p = true ↔ P * 4096 < E') := by
    intro E' hE'
    unfold isBeforePeriod periodForEpoch
    rw [if_neg (by omega)]
    simp only [hP, decide_eq_true_eq]
    split <;> omega
  refine ⟨?_, key E hE, ?_, ?_, fun q => rfl⟩
  · rw [key E hE]
    unfold periodForEpoch
    constructor
    · intro h
      exact ⟨P * 4096, h, by omega⟩
    · rintro ⟨e, he, hp⟩
      omega
  · intro k hk
    rw [key _ (by omega)]
    omega
  · intro k
    rw [key _ (by omega)]
    omega

/-- C13 at `E = 8192` and the directory `/blobs/1`: period 1 is admitted, and at
`E = 4096` it is rejected. -/
theorem isBeforePeriod_admits_iff_period_one :
    isBeforePeriod 8192 "/blobs/1".toList = true ∧
    ¬ isBeforePeriod 4096 "/blobs/1".toList = true :=
  ⟨(isBeforePeriod_admits_iff 8192 1 "/blobs/1".toList (by decide) rfl).2.1.mpr (by decide),
    fun h => absurd ((isBeforePeriod_admits_iff 4096 1 "/blobs/1".toList (by decide) rfl).2.1.mp
      h) (by decide)⟩

section slotPeek

theorem littleEndianUint64_bytes :
    ∀ (count v : Nat), littleEndianUint64 (littleEndianBytes count v) = v % 256 ^ count := by
  intro count
  induction count with
  | zero => intro v; simp [littleEndianBytes, littleEndianUint64, Nat.mod_one]
  | succ count ih =>
    intro v
    simp only [littleEndianBytes, littleEndianUint64, ih]
    rw [pow_succ, Nat.mul_comm (256 ^ count) 256, Nat.mod_mul]

theorem length_littleEndianBytes : ∀ (count v : Nat), (littleEndianBytes count v).length = count := by
  intro count
  induction count with
  | zero => intro v; rfl
  | succ count ih => intro v; simp [littleEndianBytes, ih]

/-- Reading the slot of a file of at least 131184 bytes gives the number that its bytes
from 131176 on encode. -/
theorem slotFromBlob_regularFile (data : List Nat) (s : Nat) (hlen : 131184 ≤ data.length)
    (hs : s < 2 ^ 64) (henc : (data.drop 131176).take 8 = littleEndianBytes 8 s) :
    slotFromBlob (regularFile data) = .ok s := by
  have hchunk : ((data.drop 131176).take 8).length = 8 := by
    rw [List.length_take, List.length_drop]
    omega
  have hval : littleEndianUint64 (littleEndianBytes 8 s) = s := by
    rw [littleEndianUint64_bytes]
    exact Nat.mod_eq_of_lt hs
  simp only [slotFromBlob, regularFile, hchunk, Nat.lt_irrefl, if_false, Nat.sub_self,
    List.replicate_zero, List.append_nil]
  rw [List.take_take]
  simp only [Nat.min_self, henc, hval]

theorem slotFromBlob_short (data : List Nat) (hlen : data.length < 131184) :
    slotFromBlob (regularFile data) = .error Error.EOF := by
  have hchunk : ((data.drop 131176).take 8).length < 8 := by
    rw [List.length_take, List.length_drop]
    omega
  simp only [slotFromBlob, regularFile, hchunk, if_true]

theorem blobWithSlot_spec (slot : Nat) :
    131184 ≤ (blobWithSlot slot).length ∧
      ((blobWithSlot slot).drop 131176).take 8 = littleEndianBytes 8 slot := by
  unfold blobWithSlot
  constructor
  · rw [List.length_append, List.length_replicate, length_littleEndianBytes]
  · rw [List.drop_left' (List.length_replicate _ _),
      List.take_of_length_le (by rw [length_littleEndianBytes])]

end slotPeek

/-- C14. For every byte sequence of at least 131184 bytes and every unsigned 64-bit `s`: if
the bytes from 131176 up to 131184 are the little-endian encoding of `s`, then
`slotFromBlob`, reading the sequence as a file, returns exactly `s`, whatever the other
bytes are; on a byte sequence shorter than 131184 bytes it fails. -/
theorem slotFromBlob_reads_slot_at_offset (data : List Nat) (s : Nat) :
    (131184 ≤ data.length → s < 2 ^ 64 →
      (data.drop 131176).take 8 = littleEndianBytes 8 s →
      slotFromBlob (regularFile data) = .ok s) ∧
    (data.length < 131184 → ∃ e, slotFromBlob (regularFile data) = .error e) :=
  ⟨slotFromBlob_regularFile data s, fun h => ⟨_, slotFromBlob_short data h⟩⟩

/-- C14 at a file that holds the slot 64 at offset 131176. -/
theorem slotFromBlob_reads_slot_at_offset_sixty_four :
    slotFromBlob (regularFile (blobWithSlot 64)) = .ok 64 :=
  (slotFromBlob_reads_slot_at_offset (blobWithSlot 64) 64).1 (blobWithSlot_spec 64).1
    (by decide) (blobWithSlot_spec 64).2

/-- C18. `WrappedExecutionPayloadEpbs p` fails, with `ErrNilObjectWrapped`, if and only if
`p` is nil; the wrapper of a payload `p` that is not nil reports `IsNil = false` and
`IsBlinded = false`, each accessor returns the field of `p` of its name, without error,
and `TransactionsRoot`, `WithdrawalsRoot`, `PbBellatrix`, `PbCapella`, `PbDeneb`,
`ValueInWei` and `ValueInGwei` fail with `ErrUnsupportedField`. -/
theorem WrappedExecutionPayloadEpbs_fidelity (q : Option ExecutionPayloadEPBS)
    (p : ExecutionPayloadEPBS) :
    ((∃ e, WrappedExecutionPayloadEpbs q = .error e) ↔ q = none) ∧
    (WrappedExecutionPayloadEpbs q = .error consensusTypesError.ErrNilObjectWrapped ↔
      q = none) ∧
    ∃ w, WrappedExecutionPayloadEpbs (some p) = .ok w ∧
      w.IsNil = false ∧ w.IsBlinded = false ∧
      w.ParentHash = some p.ParentHash ∧ w.FeeRecipient = some p.FeeRecipient ∧
      w.StateRoot = some p.StateRoot ∧ w.ReceiptsRoot = some p.ReceiptsRoot ∧
      w.LogsBloom = some p.LogsBloom ∧ w.PrevRandao = some p.PrevRandao ∧
      w.BlockNumber = some p.BlockNumber ∧ w.GasLimit = some p.GasLimit ∧
      w.GasUsed = some p.GasUsed ∧ w.Timestamp = some p.Timestamp ∧
      w.ExtraData = some p.ExtraData ∧ w.BaseFeePerGas = some p.BaseFeePerGas ∧
      w.BlockHash = some p.BlockHash ∧
      w.Transactions = some (p.Transactions, none) ∧
      w.Withdrawals = some (p.Withdrawals, none) ∧
      w.BlobGasUsed = some (p.BlobGasUsed, none) ∧
      w.ExcessBlobGas = some (p.ExcessBlobGas, none) ∧
      w.TransactionsRoot.2 = some consensusTypesError.ErrUnsupportedField ∧
      w.WithdrawalsRoot.2 = some consensusTypesError.ErrUnsupportedField ∧
      w.PbBellatrix.2 = some consensusTypesError.ErrUnsupportedField ∧
      w.PbCapella.2 = some consensusTypesError.ErrUnsupportedField ∧
      w.PbDeneb.2 = some consensusTypesError.ErrUnsupportedField ∧
      w.ValueInWei.2 = some consensusTypesError.ErrUnsupportedField ∧
      w.ValueInGwei.2 = some consensusTypesError.ErrUnsupportedField := by
  refine ⟨?_, ?_, ⟨⟨some p⟩, rfl, rfl, rfl, rfl, rfl, rfl, rfl, rfl, rfl, rfl, rfl, rfl, rfl,
    rfl, rfl, rfl, rfl, rfl, rfl, rfl, rfl, rfl, rfl, rfl, rfl, rfl, rfl⟩⟩
  · cases q with
    | none => simp [WrappedExecutionPayloadEpbs, executionPayloadEpbs.IsNil]
    | some v => simp [WrappedExecutionPayloadEpbs, executionPayloadEpbs.IsNil]
  · cases q with
    | none => simp [WrappedExecutionPayloadEpbs, executionPayloadEpbs.IsNil]
    | some v => simp [WrappedExecutionPayloadEpbs, executionPayloadEpbs.IsNil]

/-- C18 at the payload of the test: the wrapper returns its block number and its
transactions. -/
theorem WrappedExecutionPayloadEpbs_fidelity_testPayload :
    ∃ w, WrappedExecutionPayloadEpbs (some testPayload) = .ok w ∧
      w.BlockNumber = some 1 ∧ w.Transactions = some ([[10], [11], [12]], none) := by
  obtain ⟨w, h, hrest⟩ := (WrappedExecutionPayloadEpbs_fidelity none testPayload).2.2
  exact ⟨w, h, hrest.2.2.2.2.2.2.2.2.1, hrest.2.2.2.2.2.2.2.2.2.2.2.2.2.2.2.1⟩

section slotOncePerRoot

/-- The function `slotFromFile` with its accesses returns what `slotFromFile` returns. -/
theorem slotFromFileLogged_fst (name : List Char) (fs : Fs) :
    (slotFromFileLogged name fs).1 = slotFromFile name fs := by
  unfold slotFromFileLogged slotFromFile Fs.OpenLogged
  cases fs.Open name with
  | error err => rfl
  | ok f =>
    simp only [slotFromBlobLogged, slotFromBlob, File.ReadAtLogged]
    cases hr : f.ReadAt 8 131176 with
    | mk b e => cases e <;> rfl

/-- A call of `slotFromFile` that returns a slot opens the file and reads it, once. -/
theorem slotFromFileLogged_ok (name : List Char) (fs : Fs) (s : Nat)
    (h : slotFromFile name fs = .ok s) :
    slotFromFileLogged name fs = (.ok s, [.opened name, .readAt name 8 131176]) := by
  unfold slotFromFile at h
  unfold slotFromFileLogged Fs.OpenLogged
  cases hopen : fs.Open name with
  | error err => rw [hopen] at h; cases h
  | ok f =>
    rw [hopen] at h
    simp only [slotFromBlob] at h
    simp only [slotFromBlobLogged, File.ReadAtLogged]
    cases hr : f.ReadAt 8 131176 with
    | mk b e =>
      rw [hr] at h
      cases e with
      | some err => simp at h
      | none =>
        simp only [Except.ok.injEq] at h
        simp [h]

/-- The method with its accesses returns what `populateIdent` returns. -/
theorem populateIdentLogged_fst (MaxBlobsPerBlock SlotsPerEpoch : Nat)
    (l : readSlotOncePerRoot) (ident : blobIdent) (fname : List Char) :
    (readSlotOncePerRoot.populateIdentLogged MaxBlobsPerBlock SlotsPerEpoch l ident fname).1
      = readSlotOncePerRoot.populateIdent MaxBlobsPerBlock SlotsPerEpoch l ident fname := by
  unfold readSlotOncePerRoot.populateIdentLogged readSlotOncePerRoot.populateIdent
  split
  · rfl
  · split
    · rw [← slotFromFileLogged_fst]
      cases hlog : slotFromFileLogged fname l.fs with
      | mk r log => cases r <;> rfl
    · rfl

/-- The function `idxFromPath` on a basename `<i>.ssz`. -/
theorem idxFromPath_of_base (MaxBlobsPerBlock i : Nat) (p : List Char) (hi : i < 2 ^ 64)
    (hlt : i < MaxBlobsPerBlock) (hp : Base p = decimal i ++ ['.', 's', 's', 'z']) :
    idxFromPath MaxBlobsPerBlock p = .ok i := by
  have hdot : '.' ∉ decimal i := fun h => (decimal_digits i _ h).2.1 rfl
  have hsplit : Split '.' (decimal i ++ ['.', 's', 's', 'z']) = [decimal i, ['s', 's', 'z']] := by
    rw [Split_append_sep _ _ _ hdot]
    rfl
  have hext : isSszFile (decimal i ++ ['.', 's', 's', 'z']) = true := by
    simp [isSszFile, Ext_stem_ssz, sszExt]
  simp [idxFromPath, hp, hext, hsplit, ParseUint_decimal i hi, hlt]

theorem slotFromFile_slotStore :
    slotFromFile "/r/2.ssz".toList slotStore = .ok 64 :=
  (show slotFromFile "/r/2.ssz".toList slotStore = slotFromBlob (regularFile (blobWithSlot 64))
    from rfl).trans
    (slotFromBlob_regularFile _ 64 (blobWithSlot_spec 64).1 (by decide) (blobWithSlot_spec 64).2)

end slotOncePerRoot

/-- C15 (the claim fails). For the all-zero root, which is the cached root of a new
populator, the file `/r/2.ssz` that holds the slot 64 is not read: with 32 slots per epoch
the ident returned has the index 2 and the epoch 0, not `64 / 32 = 2`. -/
theorem populateIdent_zero_root_keeps_cached_epoch :
    Base "/r/2.ssz".toList = decimal 2 ++ ['.', 's', 's', 'z'] ∧
    slotFromFile "/r/2.ssz".toList slotStore = .ok 64 ∧
    (readSlotOncePerRoot.populateIdent 6 32 (newReadSlotOncePerRoot slotStore)
        ⟨List.replicate 32 0, 0, 0⟩ "/r/2.ssz".toList).1
      = (⟨List.replicate 32 0, 0, 2⟩, none) ∧
    64 / 32 = 2 :=
  ⟨rfl, slotFromFile_slotStore, rfl, rfl⟩

/-- C15 (amended). For a new slot-once-per-root populator, every root `R` other than the
all-zero root, every index `i < MaxBlobsPerBlock` and every slot `s`: `populateIdent` on an
ident of root `R` and a path with the basename `<i>.ssz`, whose file holds `s` at offset
131176, returns the ident with the index `i` and the epoch `s / SlotsPerEpoch` (the configured
`SlotsPerEpoch` being positive, as the division of `slots.ToEpoch` requires), and caches
the root and the epoch. -/
theorem populateIdent_peeks_slot_of_new_root (MaxBlobsPerBlock SlotsPerEpoch : Nat) (fs : Fs)
    (R : List Nat) (i s : Nat) (ident : blobIdent) (fname : List Char) (data : List Nat)
    (_ : 0 < SlotsPerEpoch) (hR : R ≠ List.replicate 32 0) (hroot : ident.root = R)
    (hi : i < MaxBlobsPerBlock) (hi64 : i < 2 ^ 64)
    (hbase : Base fname = decimal i ++ ['.', 's', 's', 'z'])
    (hopen : fs.Open fname = .ok (regularFile data))
    (hlen : 131184 ≤ data.length) (hs : s < 2 ^ 64)
    (henc : (data.drop 131176).take 8 = littleEndianBytes 8 s) :
    readSlotOncePerRoot.populateIdent MaxBlobsPerBlock SlotsPerEpoch
        (newReadSlotOncePerRoot fs) ident fname
      = (({ ident with index := i, epoch := s / SlotsPerEpoch }, none),
          ⟨fs, R, s / SlotsPerEpoch⟩) := by
  have hidx := idxFromPath_of_base MaxBlobsPerBlock i fname hi64 hi hbase
  have hslot : slotFromFile fname fs = .ok s := by
    simp only [slotFromFile, hopen]
    exact slotFromBlob_regularFile data s hlen hs henc
  have hne : ident.root ≠ List.replicate 32 0 := by rw [hroot]; exact hR
  simp only [readSlotOncePerRoot.populateIdent, populateIndex, hidx, newReadSlotOncePerRoot,
    hslot, ne_eq, hne, not_false_eq_true, if_true, hroot]
  rw [if_pos hR]

/-- C15 (amended) at `/r/2.ssz` with the slot 64, 32 slots per epoch and the root
`01 01 ... 01`: index 2 and epoch 2. -/
theorem populateIdent_peeks_slot_of_new_root_slotStore :
    readSlotOncePerRoot.populateIdent 6 32 (newReadSlotOncePerRoot slotStore)
        ⟨List.replicate 32 1, 0, 0⟩ "/r/2.ssz".toList
      = ((⟨List.replicate 32 1, 64 / 32, 2⟩, none), ⟨slotStore, List.replicate 32 1, 64 / 32⟩) :=
  populateIdent_peeks_slot_of_new_root 6 32 slotStore (List.replicate 32 1) 2 64
    ⟨List.replicate 32 1, 0, 0⟩ "/r/2.ssz".toList (blobWithSlot 64) (by decide) (by decide) rfl
    (by decide) (by decide) rfl rfl (blobWithSlot_spec 64).1 (by decide)
    (blobWithSlot_spec 64).2

section amortisation

/-- After the root is cached, a call on an ident of that root with a valid index returns
the cached epoch and leaves the receiver as it is, whatever the filesystem. -/
theorem populateIdent_cached (MaxBlobsPerBlock SlotsPerEpoch : Nat)
    (l : readSlotOncePerRoot) (ident : blobIdent) (fname : List Char) (i : Nat)
    (hroot : ident.root = l.lastRoot) (hidx : idxFromPath MaxBlobsPerBlock fname = .ok i) :
    readSlotOncePerRoot.populateIdent MaxBlobsPerBlock SlotsPerEpoch l ident fname
      = (({ ident with index := i, epoch := l.epoch }, none), l) := by
  simp only [readSlotOncePerRoot.populateIdent, populateIndex, hidx, hroot, ne_eq,
    not_true_eq_false, if_false]

/-- After the root is cached, a call on an ident of that root with a valid index makes
no access. -/
theorem populateIdentLogged_cached (MaxBlobsPerBlock SlotsPerEpoch : Nat)
    (l : readSlotOncePerRoot) (ident : blobIdent) (fname : List Char) (i : Nat)
    (hroot : ident.root = l.lastRoot) (hidx : idxFromPath MaxBlobsPerBlock fname = .ok i) :
    (readSlotOncePerRoot.populateIdentLogged MaxBlobsPerBlock SlotsPerEpoch l ident fname).2
      = [] := by
  simp only [readSlotOncePerRoot.populateIdentLogged, populateIndex, hidx, hroot, ne_eq,
    not_true_eq_false, if_false]

/-- A call on an ident whose root is not the cached one, with a valid index and a readable
file, caches the root and the epoch of the slot. -/
theorem populateIdent_new_root (MaxBlobsPerBlock SlotsPerEpoch : Nat)
    (l : readSlotOncePerRoot) (ident : blobIdent) (fname : List Char) (i s : Nat)
    (hroot : ident.root ≠ l.lastRoot) (hidx : idxFromPath MaxBlobsPerBlock fname = .ok i)
    (hread : slotFromFile fname l.fs = .ok s) :
    readSlotOncePerRoot.populateIdent MaxBlobsPerBlock SlotsPerEpoch l ident fname
      = (({ ident with index := i, epoch := s / SlotsPerEpoch }, none),
          { l with lastRoot := ident.root, epoch := s / SlotsPerEpoch }) := by
  simp only [readSlotOncePerRoot.populateIdent, populateIndex, hidx, ne_eq, hroot,
    not_false_eq_true, if_true, hread]

/-- A call on an ident whose root is not the cached one, with a valid index and a readable
file, opens that file and reads it, once. -/
theorem populateIdentLogged_new_root (MaxBlobsPerBlock SlotsPerEpoch : Nat)
    (l : readSlotOncePerRoot) (ident : blobIdent) (fname : List Char) (i s : Nat)
    (hroot : ident.root ≠ l.lastRoot) (hidx : idxFromPath MaxBlobsPerBlock fname = .ok i)
    (hread : slotFromFile fname l.fs = .ok s) :
    (readSlotOncePerRoot.populateIdentLogged MaxBlobsPerBlock SlotsPerEpoch l ident fname).2
      = [.opened fname, .readAt fname 8 131176] := by
  simp only [readSlotOncePerRoot.populateIdentLogged, populateIndex, hidx, ne_eq, hroot,
    not_false_eq_true, if_true, slotFromFileLogged_ok fname l.fs s hread]

/-- Calls on idents of the cached root with valid indexes return the cached epoch without
error, make no access, and return the same whatever the filesystem of the receiver. -/
theorem populateEach_cached (MaxBlobsPerBlock SlotsPerEpoch : Nat) (R : List Nat) :
    ∀ (calls : List (blobIdent × List Char)) (l : readSlotOncePerRoot), l.lastRoot = R →
      (∀ c ∈ calls, c.1.root = R ∧ ∃ i, idxFromPath MaxBlobsPerBlock c.2 = .ok i) →
      (readSlotOncePerRoot.populateEach MaxBlobsPerBlock SlotsPerEpoch l calls).length
        = calls.length ∧
      (∀ r ∈ readSlotOncePerRoot.populateEach MaxBlobsPerBlock SlotsPerEpoch l calls,
        r.2 = none ∧ r.1.epoch = l.epoch) ∧
      readSlotOncePerRoot.accessesEach MaxBlobsPerBlock SlotsPerEpoch l calls
        = calls.map (fun _ => []) ∧
      ∀ fs, readSlotOncePerRoot.populateEach MaxBlobsPerBlock SlotsPerEpoch
          { l with fs := fs } calls
        = readSlotOncePerRoot.populateEach MaxBlobsPerBlock SlotsPerEpoch l calls := by
  intro calls
  induction calls with
  | nil =>
    intro l _ _
    exact ⟨rfl, fun r hr => (by cases hr), rfl, fun _ => rfl⟩
  | cons c rest ih =>
    intro l hl hcalls
    obtain ⟨hroot, i, hidx⟩ := hcalls c (List.mem_cons_self _ _)
    obtain ⟨ident, fname⟩ := c
    have hstep := populateIdent_cached MaxBlobsPerBlock SlotsPerEpoch l ident fname i
      (by rw [hroot, hl]) hidx
    have hlog := populateIdentLogged_cached MaxBlobsPerBlock SlotsPerEpoch l ident fname i
      (by rw [hroot, hl]) hidx
    obtain ⟨h1, h2, h3, h4⟩ := ih l hl (fun c' hc' => hcalls c' (List.mem_cons_of_mem _ hc'))
    refine ⟨?_, ?_, ?_, ?_⟩
    · simp only [readSlotOncePerRoot.populateEach, hstep, List.length_cons, h1]
    · intro r hr
      simp only [readSlotOncePerRoot.populateEach, hstep, List.mem_cons] at hr
      rcases hr with rfl | hr
      · exact ⟨rfl, rfl⟩
      · exact h2 r hr
    · simp only [readSlotOncePerRoot.accessesEach, hstep, hlog, h3, List.map_cons]
    · intro fs
      have hstep' := populateIdent_cached MaxBlobsPerBlock SlotsPerEpoch { l with fs := fs }
        ident fname i (by rw [hroot, hl]) hidx
      simp only [readSlotOncePerRoot.populateEach, hstep, hstep', h4 fs]

end amortisation

/-- C16. For a slot-once-per-root populator whose cached root is not `R`, and `k ≥ 1`
consecutive calls of `populateIdent` on idents of root `R` and paths with a valid index,
the first file being readable with the slot `s`: all `k` calls return without error an
ident of the epoch `s / SlotsPerEpoch` of the first file's slot; the first call opens its
file and reads it, once, and the later calls make no access, the accesses being those of
`Open` and `ReadAt` in `slotFromFile`, which returns what the method's own call returns;
the later calls return the same whatever the filesystem holds, and all the calls return
the same over every filesystem that opens the first file alike. -/
theorem populateIdent_reads_slot_once_per_root (MaxBlobsPerBlock SlotsPerEpoch : Nat)
    (l : readSlotOncePerRoot) (R : List Nat) (first : blobIdent × List Char)
    (later : List (blobIdent × List Char)) (s : Nat)
    (_ : 0 < SlotsPerEpoch) (hR : l.lastRoot ≠ R)
    (hcalls : ∀ c ∈ first :: later,
      c.1.root = R ∧ ∃ i, idxFromPath MaxBlobsPerBlock c.2 = .ok i)
    (hread : slotFromFile first.2 l.fs = .ok s) :
    (readSlotOncePerRoot.populateEach MaxBlobsPerBlock SlotsPerEpoch l (first :: later)).length
      = later.length + 1 ∧
    (∀ r ∈ readSlotOncePerRoot.populateEach MaxBlobsPerBlock SlotsPerEpoch l (first :: later),
      r.2 = none ∧ r.1.epoch = s / SlotsPerEpoch) ∧
    readSlotOncePerRoot.accessesEach MaxBlobsPerBlock SlotsPerEpoch l (first :: later)
      = [.opened first.2, .readAt first.2 8 131176] :: later.map (fun _ => []) ∧
    (∀ l' ident fname,
      (readSlotOncePerRoot.populateIdentLogged MaxBlobsPerBlock SlotsPerEpoch l' ident fname).1
        = readSlotOncePerRoot.populateIdent MaxBlobsPerBlock SlotsPerEpoch l' ident fname) ∧
    (∀ fs, readSlotOncePerRoot.populateEach MaxBlobsPerBlock SlotsPerEpoch
        { (readSlotOncePerRoot.populateIdent MaxBlobsPerBlock SlotsPerEpoch l first.1
            first.2).2 with fs := fs } later
      = readSlotOncePerRoot.populateEach MaxBlobsPerBlock SlotsPerEpoch
          (readSlotOncePerRoot.populateIdent MaxBlobsPerBlock SlotsPerEpoch l first.1
            first.2).2 later) ∧
    (∀ fs, fs.Open first.2 = l.fs.Open first.2 →
      readSlotOncePerRoot.populateEach MaxBlobsPerBlock SlotsPerEpoch { l with fs := fs }
          (first :: later)
        = readSlotOncePerRoot.populateEach MaxBlobsPerBlock SlotsPerEpoch l
          (first :: later)) := by
  obtain ⟨hroot, i, hidx⟩ := hcalls first (List.mem_cons_self _ _)
  obtain ⟨ident, fname⟩ := first
  have hne : ident.root ≠ l.lastRoot := by rw [hroot]; exact fun h => hR h.symm
  have hstep := populateIdent_new_root MaxBlobsPerBlock SlotsPerEpoch l ident fname i s hne
    hidx hread
  have hlog := populateIdentLogged_new_root MaxBlobsPerBlock SlotsPerEpoch l ident fname i s
    hne hidx hread
  obtain ⟨h1, h2, h3, h4⟩ := populateEach_cached MaxBlobsPerBlock SlotsPerEpoch R later
    { l with lastRoot := ident.root, epoch := s / SlotsPerEpoch } hroot
    (fun c hc => hcalls c (List.mem_cons_of_mem _ hc))
  refine ⟨?_, ?_, ?_, populateIdentLogged_fst MaxBlobsPerBlock SlotsPerEpoch, ?_, ?_⟩
  · simp only [readSlotOncePerRoot.populateEach, hstep, List.length_cons, h1]
  · intro r hr
    simp only [readSlotOncePerRoot.populateEach, hstep, List.mem_cons] at hr
    rcases hr with rfl | hr
    · exact ⟨rfl, rfl⟩
    · exact h2 r hr
  · simp only [readSlotOncePerRoot.accessesEach, hstep, hlog, h3]
  · intro fs
    simp only [hstep]
    exact h4 fs
  · intro fs hfs
    have hread' : slotFromFile fname fs = .ok s := by
      simp only [slotFromFile] at hread ⊢
      rw [hfs]
      exact hread
    have hstep' := populateIdent_new_root MaxBlobsPerBlock SlotsPerEpoch { l with fs := fs }
      ident fname i s hne hidx hread'
    simp only [readSlotOncePerRoot.populateEach, hstep, hstep']
    exact congrArg _ (h4 fs)

/-- C16 at the blobs `2.ssz` and `3.ssz` of the store `/r`, which hold the slot 64: both
calls return an ident of the epoch 2, the first opens `/r/2.ssz` and reads it once, and
the second makes no access. -/
theorem populateIdent_reads_slot_once_per_root_slotStore :
    (∀ r ∈ readSlotOncePerRoot.populateEach 6 32 (newReadSlotOncePerRoot slotStore)
        [(⟨List.replicate 32 1, 0, 0⟩, "/r/2.ssz".toList),
         (⟨List.replicate 32 1, 0, 0⟩, "/r/3.ssz".toList)],
      r.2 = none ∧ r.1.epoch = 64 / 32) ∧
    readSlotOncePerRoot.accessesEach 6 32 (newReadSlotOncePerRoot slotStore)
        [(⟨List.replicate 32 1, 0, 0⟩, "/r/2.ssz".toList),
         (⟨List.replicate 32 1, 0, 0⟩, "/r/3.ssz".toList)]
      = [[.opened "/r/2.ssz".toList, .readAt "/r/2.ssz".toList 8 131176], []] :=
  have h := populateIdent_reads_slot_once_per_root 6 32 (newReadSlotOncePerRoot slotStore)
    (List.replicate 32 1) (⟨List.replicate 32 1, 0, 0⟩, "/r/2.ssz".toList)
    [(⟨List.replicate 32 1, 0, 0⟩, "/r/3.ssz".toList)] 64 (by decide) (by decide)
    (by
      intro c hc
      simp only [List.mem_cons, List.mem_singleton, List.not_mem_nil, or_false] at hc
      rcases hc with rfl | rfl
      · exact ⟨rfl, 2, rfl⟩
      · exact ⟨rfl, 3, rfl⟩)
    slotFromFile_slotStore
  ⟨h.2.1, h.2.2.1⟩

section pruning

variable {σ : Type}

theorem keepsEpoch_populateNoop (filter : List Char → Bool) :
    keepsEpoch (⟨.ofFunc populateNoop, filter⟩ : layoutLevel σ) := by
  intro ident p s
  rfl

theorem keepsEpoch_populateRoot (filter : List Char → Bool) :
    keepsEpoch (⟨.ofFunc populateRoot, filter⟩ : layoutLevel σ) := by
  intro ident p s
  simp only [identPopulator.ofFunc, populateRoot]
  split <;> rfl

theorem keepsEpoch_populateIndex (MaxBlobsPerBlock : Nat) (filter : List Char → Bool) :
    keepsEpoch (⟨.ofFunc (populateIndex MaxBlobsPerBlock), filter⟩ : layoutLevel σ) := by
  intro ident p s
  simp only [identPopulator.ofFunc, populateIndex]
  split <;> rfl

/-- Along levels whose populators keep the epoch, the epoch stays what it was. -/
theorem populatedAlong_epoch (fs : Fs) :
    ∀ (levels : List (layoutLevel σ)) (path : List Char) (ident : blobIdent)
      (entries names : List (List Char)) (out : blobIdent),
      (∀ lvl ∈ levels, keepsEpoch lvl) →
      populatedAlong fs levels path ident entries names out → out.epoch = ident.epoch := by
  intro levels
  induction levels with
  | nil => intro _ _ _ _ _ _ h; cases h
  | cons lvl rest ih =>
    intro path ident entries names out hkeep h
    obtain ⟨name, names', _, _, _, s, next, hpop, hrest⟩ := h
    have hnext : next.epoch = ident.epoch := by
      have := hkeep lvl (List.mem_cons_self _ _) ident (filepathJoin path name) s
      rw [hpop] at this
      exact this
    rcases hrest with ⟨_, _, rfl⟩ | ⟨_, below, _, hrec⟩
    · exact hnext
    · rw [ih _ _ _ _ _ (fun l hl => hkeep l (List.mem_cons_of_mem _ hl)) hrec, hnext]

/-- A path admitted before a positive epoch decodes as an epoch below it. -/
theorem isBeforeEpoch_pos (E : Nat) (p : List Char) (hE : 0 < E)
    (h : isBeforeEpoch E p = true) : ∃ e, epochFromPath p = .ok e ∧ e < E := by
  unfold isBeforeEpoch at h
  rw [if_neg (by omega)] at h
  cases hp : epochFromPath p with
  | error e => simp [hp] at h
  | ok e => exact ⟨e, rfl, by simpa [hp] using h⟩

/-- What is populated along a layout pruned by epoch has the epoch of its first
directory, which is below the bound. -/
theorem populatedAlong_pruned (fs : Fs) (E : Nat) (rest : List (layoutLevel σ))
    (path : List Char) (ident : blobIdent) (entries names : List (List Char))
    (out : blobIdent) (hE : 0 < E) (hrest : ∀ lvl ∈ rest, keepsEpoch lvl)
    (h : populatedAlong fs (⟨.ofFunc populateEpoch, isBeforeEpoch E⟩ :: rest) path ident
      entries names out) :
    out.epoch < E ∧
      ∃ name names', names = name :: names' ∧ name ∈ entries ∧
        epochFromPath (filepathJoin path name) = .ok out.epoch := by
  obtain ⟨name, names', hnames, hmem, hfilter, s, next, hpop, hlater⟩ := h
  obtain ⟨e, he, hlt⟩ := isBeforeEpoch_pos E _ hE hfilter
  have hnext : next.epoch = e := by
    simp only [identPopulator.ofFunc, populateEpoch, he, Prod.mk.injEq, and_true] at hpop
    rw [← hpop]
  have hout : out.epoch = e := by
    rcases hlater with ⟨_, _, rfl⟩ | ⟨_, below, _, hrec⟩
    · exact hnext
    · rw [populatedAlong_epoch fs _ _ _ _ _ _ hrest hrec, hnext]
  rw [hout]
  exact ⟨hlt, name, names', hnames, hmem, he⟩

end pruning

/-- C17. For every `E > 0`, an iterator whose first level is
`(populateEpoch, isBeforeEpoch E)` and whose other levels use populators that keep the
epoch, as `populateRoot`, `populateIndex` and `populateNoop` do, returns without error, in
any number of calls, only idents whose epoch is below `E`, and that epoch is the number
that the name of the top-level directory denotes, the first component of the path along
which the ident is populated. -/
theorem next_emits_only_epochs_before {σ : Type} (E : Nat) (fs : Fs) (path : List Char)
    (ident : blobIdent) (rest : List (layoutLevel σ)) (entries : List (List Char)) (s : σ)
    (k : Nat) (rs : List (Returned σ)) (r : Returned σ)
    (hE : 0 < E) (hrest : ∀ lvl ∈ rest, keepsEpoch lvl)
    (hcalls : callNext k
      (newIterator fs path ident (⟨.ofFunc populateEpoch, isBeforeEpoch E⟩ :: rest) entries) s
        = some rs)
    (hr : r ∈ rs) (hok : r.err = none) :
    (r.ident.epoch < E ∧
      ∃ name names',
        populatedAlong fs (⟨.ofFunc populateEpoch, isBeforeEpoch E⟩ :: rest) path ident entries
          (name :: names') r.ident ∧
        name ∈ entries ∧ epochFromPath (filepathJoin path name) = .ok r.ident.epoch) ∧
    (∀ (M : Nat) (filter : List Char → Bool),
      keepsEpoch (⟨.ofFunc populateRoot, filter⟩ : layoutLevel σ) ∧
      keepsEpoch (⟨.ofFunc (populateIndex M), filter⟩ : layoutLevel σ) ∧
      keepsEpoch (⟨.ofFunc populateNoop, filter⟩ : layoutLevel σ)) := by
  refine ⟨?_, fun M filter => ⟨keepsEpoch_populateRoot filter,
    keepsEpoch_populateIndex M filter, keepsEpoch_populateNoop filter⟩⟩
  obtain ⟨names, hnames⟩ :=
    callNext_sound k
      (newIterator fs path ident (⟨.ofFunc populateEpoch, isBeforeEpoch E⟩ :: rest) entries)
      s rs (by simp [newIterator, childrenLinked]) hcalls r hr hok
  obtain ⟨hlt, name, names', rfl, hmem, he⟩ :=
    populatedAlong_pruned fs E rest path ident entries names r.ident hE hrest hnames
  exact ⟨hlt, name, names', hnames, hmem, he⟩

/-- C17 at the store `/r` with the epochs 5, 9 and 12, pruned before the epoch 10: the
second call returns an ident of epoch 9, and of four calls none returns an ident of
epoch 12. -/
theorem next_emits_only_epochs_before_ten :
    (((callNext 4 epochStoreIter ()).get rfl).map (fun r => (r.ident.epoch, r.err)))
      = [(5, none), (9, none), (0, some Error.EOF), (0, some Error.EOF)] ∧
    (((callNext 4 epochStoreIter ()).get rfl).get ⟨1, by decide⟩).ident.epoch < 10 :=
  ⟨rfl,
    (next_emits_only_epochs_before 10 epochStore "/r".toList blobIdent.zero
      [⟨.ofFunc populateRoot, isRootDir⟩, ⟨.ofFunc (populateIndex 6), isSszFile⟩]
      ["5".toList, "9".toList, "12".toList] () 4 ((callNext 4 epochStoreIter ()).get rfl)
      (((callNext 4 epochStoreIter ()).get rfl).get ⟨1, by decide⟩) (by decide)
      (by
        intro lvl hl
        simp only [List.mem_cons, List.mem_singleton, List.not_mem_nil, or_false] at hl
        rcases hl with rfl | rfl
        · exact keepsEpoch_populateRoot _
        · exact keepsEpoch_populateIndex _ _)
      (Option.some_get _).symm (List.get_mem _ _ _) rfl).1.1⟩

section safety

variable {σ : Type}

theorem levelsInRange_iff (iter : identIterator σ) :
    levelsInRange iter ↔ iter.levels ≠ [] ∧
      ∀ c, iter.child = some c → c.levels = iter.levels.drop 1 ∧ levelsInRange c := by
  cases iter with
  | mk fs path child ident levels entries offset =>
    cases child with
    | none => simp [levelsInRange]
    | some c => simp [levelsInRange]

theorem levelsInRange_setOffset {iter : identIterator σ} (h : levelsInRange iter) (i : Nat) :
    levelsInRange (iter.setOffset i) := by
  rw [levelsInRange_iff] at h ⊢
  simpa using h

theorem levelsInRange_setChild {iter c : identIterator σ} (h : levelsInRange iter)
    (hc : c.levels = iter.levels.drop 1) (hin : levelsInRange c) :
    levelsInRange (iter.setChild c) := by
  rw [levelsInRange_iff] at h ⊢
  refine ⟨by simpa using h.1, ?_⟩
  intro c' hc'
  simp only [identIterator.setChild_child, Option.some.injEq] at hc'
  subst hc'
  exact ⟨by simpa using hc, hin⟩

/-- The loop of `advanceChild` over an iterator whose levels are in range returns, and
leaves the levels in range. -/
theorem advanceLoop_total (levels : List (layoutLevel σ))
    (f : identIterator σ → σ → Option (Returned σ))
    (hf : ∀ c s, c.levels = levels.drop 1 → c.levels ≠ [] → c.child = none →
      ∃ rc, f c s = some rc ∧ levelsInRange rc.iter ∧ rc.iter.levels = c.levels) :
    ∀ (n i : Nat) (iter : identIterator σ) (s : σ),
      iter.levels = levels → levelsInRange iter → n ≤ iter.entries.length - i →
      ∃ r, advanceLoop f n i iter s = some r ∧ levelsInRange r.iter ∧
        r.iter.levels = iter.levels := by
  intro n
  induction n with
  | zero =>
    intro i iter s _ hin _
    exact ⟨_, rfl, hin, rfl⟩
  | succ n ih =>
    intro i iter s hlv hin hn
    have hi : i < iter.entries.length := by omega
    obtain ⟨hne, _⟩ := (levelsInRange_iff iter).mp hin
    obtain ⟨lvl, others, hlevels⟩ := List.exists_cons_of_ne_nil hne
    have hin' : levelsInRange (iter.setOffset i) := levelsInRange_setOffset hin i
    have hcont : ∀ t, ∃ r, advanceLoop f n (i + 1) (iter.setOffset i) t = some r ∧
        levelsInRange r.iter ∧ r.iter.levels = lvl :: others := by
      intro t
      obtain ⟨r, h1, h2, h3⟩ := ih (i + 1) (iter.setOffset i) t (by simpa using hlv) hin'
        (by simp only [identIterator.setOffset_entries]; omega)
      exact ⟨r, h1, h2, by simpa [hlevels] using h3⟩
    simp only [advanceLoop, identIterator.setOffset_offset, identIterator.setOffset_entries,
      identIterator.setOffset_levels, identIterator.setOffset_path,
      identIterator.setOffset_ident, identIterator.setOffset_fs,
      List.getElem?_eq_getElem hi, hlevels]
    split
    · exact hcont _
    · split
      · exact ⟨_, rfl, hin', by simp [hlevels]⟩
      · rename_i out s1 hpop
        split
        · exact ⟨_, rfl, hin', by simp [hlevels]⟩
        · rename_i hlen
          split
          · exact ⟨_, rfl, hin', by simp [hlevels]⟩
          · rename_i below hlist
            split
            · exact hcont _
            · rename_i hbelow
              have hothers : others ≠ [] := by
                intro ho
                apply hlen
                rw [ho]
                rfl
              obtain ⟨rc, hrc, hrcin, hrclv⟩ :=
                hf (.mk iter.fs (filepathJoin iter.path iter.entries[i]) none out others
                  below 0) s1 (by simp [← hlv, hlevels]) (by simpa using hothers) rfl
              simp only [List.drop_succ_cons, List.drop_zero, hrc]
              refine ⟨_, rfl, ?_, by simp [hlevels]⟩
              exact levelsInRange_setChild hin'
                (by simpa [hlevels] using hrclv) hrcin

theorem advanceChildWith_total (levels : List (layoutLevel σ))
    (f : identIterator σ → σ → Option (Returned σ))
    (hf : ∀ c s, c.levels = levels.drop 1 → c.levels ≠ [] → c.child = none →
      ∃ rc, f c s = some rc ∧ levelsInRange rc.iter ∧ rc.iter.levels = c.levels)
    (iter : identIterator σ) (s : σ) (hlv : iter.levels = levels) (hin : levelsInRange iter) :
    ∃ r, advanceChildWith f iter s = some r ∧ levelsInRange r.iter ∧
      r.iter.levels = iter.levels := by
  obtain ⟨r0, h0, hin0, hlv0⟩ :=
    advanceLoop_total levels f hf (iter.entries.length - iter.offset) iter.offset iter s hlv hin
      (Nat.le_refl _)
  simp only [advanceChildWith, h0]
  exact ⟨_, rfl, levelsInRange_setOffset hin0 _, by simpa using hlv0⟩

theorem advanceChildAt_total :
    ∀ (levels : List (layoutLevel σ)) (iter : identIterator σ) (s : σ),
      iter.levels = levels → levelsInRange iter →
      ∃ r, advanceChildAt levels iter s = some r ∧ levelsInRange r.iter ∧
        r.iter.levels = iter.levels := by
  intro levels
  induction levels with
  | nil =>
    intro iter s hlv hin
    exact absurd hlv ((levelsInRange_iff iter).mp hin).1
  | cons lvl rest ih =>
    intro iter s hlv hin
    refine advanceChildWith_total (lvl :: rest) _ ?_ iter s hlv hin
    intro c t hc hne hnone
    refine ih c t (by simpa using hc) ?_
    rw [levelsInRange_iff]
    refine ⟨hne, ?_⟩
    intro c' hc'
    rw [hnone] at hc'
    cases hc'

/-- A call of `next` on an iterator whose levels are in range returns, and leaves the
levels in range. -/
theorem next_total :
    ∀ (iter : identIterator σ) (s : σ), levelsInRange iter →
      ∃ r, iter.next s = some r ∧ levelsInRange r.iter ∧ r.iter.levels = iter.levels
  | .mk fs path (some child) ident levels entries offset, s, hin => by
    obtain ⟨hne, hclv, hcin⟩ := hin
    obtain ⟨rc, hrc, hrcin, hrclv⟩ := next_total child s hcin
    have hin' : levelsInRange
        (identIterator.mk fs path (some rc.iter) ident levels entries offset) :=
      ⟨hne, by rw [hrclv, hclv], hrcin⟩
    simp only [identIterator.next, hrc]
    split
    · exact ⟨_, rfl, hin', rfl⟩
    · split
      · exact ⟨_, rfl, hin', rfl⟩
      · exact advanceChildAt_total _ _ _ rfl hin'
  | .mk fs path none ident levels entries offset, s, hin => by
    simp only [identIterator.next]
    exact advanceChildAt_total _ _ _ rfl hin

/-- Any number of calls of `next` on an iterator whose levels are in range return, and
leave the levels in range. -/
theorem callNext_total :
    ∀ (k : Nat) (iter : identIterator σ) (s : σ), levelsInRange iter →
      ∃ rs, callNext k iter s = some rs ∧ rs.length = k ∧
        ∀ r ∈ rs, levelsInRange r.iter ∧ r.iter.levels = iter.levels := by
  intro k
  induction k with
  | zero =>
    intro iter s _
    exact ⟨[], rfl, rfl, fun r hr => by cases hr⟩
  | succ k ih =>
    intro iter s hin
    obtain ⟨r, hr, hrin, hrlv⟩ := next_total iter s hin
    obtain ⟨rs, hrs, hlen, hall⟩ := ih r.iter r.state hrin
    refine ⟨r :: rs, by simp only [callNext, hr, hrs], by simp [hlen], ?_⟩
    intro r' hr'
    rcases List.mem_cons.mp hr' with rfl | hmem
    · exact ⟨hrin, hrlv⟩
    · exact ⟨(hall r' hmem).1, by rw [(hall r' hmem).2, hrlv]⟩

/-- The chain of an iterator whose levels are in range is no longer than its levels. -/
theorem chainLength_le :
    ∀ (iter : identIterator σ), levelsInRange iter → chainLength iter ≤ iter.levels.length
  | .mk _ _ none _ levels _ _, hin => by
    have : levels ≠ [] := hin
    simp only [chainLength, identIterator.mk_levels]
    cases levels with
    | nil => exact absurd rfl this
    | cons _ _ => simp
  | .mk _ _ (some child) _ levels _ _, hin => by
    obtain ⟨hne, hclv, hcin⟩ := hin
    have := chainLength_le child hcin
    have hpos : 0 < levels.length := List.length_pos.mpr hne
    rw [hclv, List.length_drop] at this
    simp only [chainLength, identIterator.mk_levels]
    omega

end safety

/-- With no level to read, a call of `next` on an iterator with an entry fails: the
access `levels[0]` is out of range. -/
theorem next_without_levels {σ : Type} (fs : Fs) (path : List Char) (ident : blobIdent)
    (entry : List Char) (entries : List (List Char)) (s : σ) :
    (newIterator fs path ident ([] : List (layoutLevel σ)) (entry :: entries)).next s
      = none := by
  simp [newIterator, identIterator.next, identIterator.advanceChild, advanceChildAt,
    advanceChildWith, advanceLoop]

/-- C20. An iterator constructed with a non-empty list of levels never fails with an
access out of range: any number of calls of `next`, those after the end of the stream
included, return, whatever the tree, and after each call every iterator of the chain has a
non-empty list of levels, each child the levels of its parent but the first. -/
theorem next_never_out_of_range {σ : Type} (fs : Fs) (path : List Char) (ident : blobIdent)
    (levels : List (layoutLevel σ)) (entries : List (List Char)) (s : σ) (k : Nat)
    (hlevels : levels ≠ []) :
    ∃ rs, callNext k (newIterator fs path ident levels entries) s = some rs ∧ rs.length = k ∧
      ∀ r ∈ rs, levelsInRange r.iter ∧ r.iter.levels = levels :=
  callNext_total k (newIterator fs path ident levels entries) s hlevels

/-- C20 at the store `/r`: five calls, four of which return the end of the stream, return
and leave the levels in range. -/
theorem next_never_out_of_range_partStore :
    ∃ rs, callNext 5 partStoreIter () = some rs ∧ rs.length = 5 ∧
      ∀ r ∈ rs, levelsInRange r.iter ∧ r.iter.levels = dirThenIndex :=
  next_never_out_of_range partStore "/r".toList blobIdent.zero dirThenIndex
    ["a".toList, "b".toList] () 5 (by simp [dirThenIndex])


/-- C19. For every tree and every layout with at least one level, each call of `next` on
a new iterator returns, any number of calls, and descends a chain of at most as many
iterators as there are levels, each loop running over no more than the entries that are
left; and one of the first `N + 1` calls returns the end of the stream, `N` being the number
of paths of the tree, directories included, down to the depth of the layout. -/
theorem next_terminates_and_reaches_EOF {σ : Type} (fs : Fs) (path : List Char)
    (ident : blobIdent) (levels : List (layoutLevel σ)) (entries : List (List Char)) (s : σ)
    (hlevels : levels ≠ []) :
    (∀ k, ∃ rs, callNext k (newIterator fs path ident levels entries) s = some rs ∧
        rs.length = k ∧ ∀ r ∈ rs, chainLength r.iter ≤ levels.length) ∧
    ∃ rs, callNext ((treePaths fs levels.length path entries).length + 1)
        (newIterator fs path ident levels entries) s = some rs ∧
      ∃ r ∈ rs, r.err = some Error.EOF := by
  have hin : levelsInRange (newIterator fs path ident levels entries) := hlevels
  constructor
  · intro k
    obtain ⟨rs, hrs, hlen, hall⟩ := callNext_total k _ s hin
    refine ⟨rs, hrs, hlen, fun r hr => ?_⟩
    have := chainLength_le r.iter (hall r hr).1
    rw [(hall r hr).2] at this
    exact this
  · obtain ⟨rs, hrs, hlen, _⟩ :=
      callNext_total ((treePaths fs levels.length path entries).length + 1) _ s hin
    refine ⟨rs, hrs, ?_⟩
    by_contra hno
    have hall : ∀ r ∈ rs, r.err ≠ some Error.EOF := fun r hr he => hno ⟨r, hr, he⟩
    have hsum := sum_progress_of_no_EOF rs hall
    have hbudget := callNext_budget _ _ s rs hrs
    simp only [newIterator, pending, List.drop_zero] at hbudget
    omega

/-- C19 at the store `/r`, a tree of four paths under a layout of two levels: every call
returns, on a chain of at most two iterators, and one of the first five calls returns the
end of the stream. -/
theorem next_terminates_and_reaches_EOF_partStore :
    (∀ k, ∃ rs, callNext k partStoreIter () = some rs ∧ rs.length = k ∧
        ∀ r ∈ rs, chainLength r.iter ≤ 2) ∧
    ∃ rs, callNext ((treePaths partStore 2 "/r".toList ["a".toList, "b".toList]).length + 1)
        partStoreIter () = some rs ∧
      ∃ r ∈ rs, r.err = some Error.EOF :=
  next_terminates_and_reaches_EOF partStore "/r".toList blobIdent.zero dirThenIndex
    ["a".toList, "b".toList] () (by simp [dirThenIndex])

end Prysm
